import Mathlib

/-! # Recoverable virtual memory (`src/src/rvm.cpp`)

A shallow embedding of the segment / transaction engine of `rvm.cpp`.

* The process state (`State`) holds the heap of `Segment` records, the
  segment buffers handed to the caller, the three process-wide tables
  (`rvms`, `rvm_dirs`, `transs`), the two id generators and the file system.
* Pointers are numbers: a `Segment*` is a `Nat`, a `void*` buffer handle is
  an `Int` (so that the error value `(void*)-1` is the integer `-1`).
* The operating system is modelled by `FS`: a directory of path names, the
  contents of every file and the table of open descriptors.  A file is
  identified by its path together with a creation stamp, so that a file that
  was removed and created again under the same name is a different file,
  while descriptors that were open on the old file keep reading and writing
  the old file, as POSIX prescribes.  System calls fail only on a descriptor
  that is not open or on a negative seek offset; resource exhaustion and
  permission errors are outside the model, and so are directories (`mkdir`
  has no effect here).
* `int` parameters are integers; `offset + size` is reduced to 32 bits,
  the value returned by `lseek` is reduced to 32 bits when it is stored in
  the `int` field `size`.  The two id counters are not reduced (they would
  overflow only after `2^31 - 1` calls).
* An operation ends in one of three ways (`Outcome`): it returns, the
  process terminates (`exit(EXIT_FAILURE)`, or `std::bad_alloc` leaving the
  library), or the behaviour is undefined (a read or write outside a
  buffer, a dangling pointer).
-/

namespace Rvm

/-- A byte of a buffer or of a file. -/
abbrev Byte := Fin 256

/-- Function update at one key. -/
def upd {α β : Type} [DecidableEq α] (f : α → β) (a : α) (b : β) : α → β :=
  fun x => if x = a then b else f x

/-- The list `[f 0, ..., f (n-1)]`. -/
def tabulate {β : Type} (n : Nat) (f : Nat → β) : List β :=
  (List.range n).map f

/-- Reduction of an integer to the range of a 32-bit `int`. -/
def wrap32 (x : Int) : Int :=
  (x + 2147483648) % 4294967296 - 2147483648

/-- Whether an integer is a value of the C type `int`. -/
def isInt (x : Int) : Prop :=
  -2147483648 ≤ x ∧ x < 2147483648

instance (x : Int) : Decidable (isInt x) := by
  unfold isInt; infer_instance

/-- The byte at position `i` of a buffer or file; positions past the end read
as 0. -/
def byteAt (l : List Byte) (i : Nat) : Byte :=
  l.getD i 0

/-- The bytes `l[off], ..., l[off+n-1]`. -/
def slice (l : List Byte) (off n : Nat) : List Byte :=
  tabulate n (fun i => byteAt l (off + i))

/-- Copy `src` over `dst` from position `off` on; `dst` keeps its length. -/
def blit (dst : List Byte) (off : Nat) (src : List Byte) : List Byte :=
  tabulate dst.length
    (fun i => if off ≤ i ∧ i < off + src.length then byteAt src (i - off) else byteAt dst i)

/-- File contents after writing `src` at position `off`: the file grows when
the write ends past its end, a gap before `off` reads as zero bytes, and a
write of no bytes changes nothing. -/
def overwrite (dst : List Byte) (off : Nat) (src : List Byte) : List Byte :=
  if src.length = 0 then dst
  else tabulate (max dst.length (off + src.length))
    (fun i => if off ≤ i ∧ i < off + src.length then byteAt src (i - off) else byteAt dst i)

/-! ## The file system -/

/-- A file: the path it was created under and its creation stamp. -/
abbrev Ino := String × Nat

/-- An open file description: the file and the current offset. -/
structure OpenFile where
  ino : Ino
  pos : Nat

/-- The file system and the descriptor table of the process. -/
structure FS where
  dir : String → Option Nat
  data : Ino → List Byte
  fdt : Int → Option OpenFile
  next_gen : Nat
  next_fd : Int

/-- Model of `open(path, O_RDWR | O_CREAT, mode)`: returns a new descriptor at
offset 0 on the file linked at `path`, creating an empty file when there is
none. -/
def sys_open (fs : FS) (path : String) : Int × FS :=
  match fs.dir path with
  | some g =>
    (fs.next_fd,
      { fs with fdt := upd fs.fdt fs.next_fd (some { ino := (path, g), pos := 0 }),
                next_fd := fs.next_fd + 1 })
  | none =>
    (fs.next_fd,
      { fs with dir := upd fs.dir path (some fs.next_gen),
                data := upd fs.data (path, fs.next_gen) [],
                fdt := upd fs.fdt fs.next_fd (some { ino := (path, fs.next_gen), pos := 0 }),
                next_gen := fs.next_gen + 1,
                next_fd := fs.next_fd + 1 })

/-- Model of `lseek(fd, off, SEEK_SET)`. -/
def sys_lseek_set (fs : FS) (fd : Int) (off : Int) : Int × FS :=
  match fs.fdt fd with
  | none => (-1, fs)
  | some f =>
    if off < 0 then (-1, fs)
    else (off, { fs with fdt := upd fs.fdt fd (some { f with pos := off.toNat }) })

/-- Model of `lseek(fd, 0, SEEK_END)`: the result is the length of the file. -/
def sys_lseek_end (fs : FS) (fd : Int) : Int × FS :=
  match fs.fdt fd with
  | none => (-1, fs)
  | some f =>
    (((fs.data f.ino).length : Int),
      { fs with fdt := upd fs.fdt fd (some { f with pos := (fs.data f.ino).length }) })

/-- Model of `write(fd, bytes, bytes.length)`. -/
def sys_write (fs : FS) (fd : Int) (bytes : List Byte) : Int × FS :=
  match fs.fdt fd with
  | none => (-1, fs)
  | some f =>
    ((bytes.length : Int),
      { fs with data := upd fs.data f.ino (overwrite (fs.data f.ino) f.pos bytes),
                fdt := upd fs.fdt fd (some { f with pos := f.pos + bytes.length }) })

/-- Model of `read(fd, buf, n)`: the bytes read (at most `n`, fewer at the end
of the file) and the file system afterwards; the count is the length of the
bytes, or `-1` on a descriptor that is not open. -/
def sys_read (fs : FS) (fd : Int) (n : Nat) : Int × List Byte × FS :=
  match fs.fdt fd with
  | none => (-1, [], fs)
  | some f =>
    let bytes := ((fs.data f.ino).drop f.pos).take n
    ((bytes.length : Int), bytes,
      { fs with fdt := upd fs.fdt fd (some { f with pos := f.pos + bytes.length }) })

/-- The file system after `lseek(fd, off, SEEK_SET)` and `write(fd, bytes)` on
the descriptor `fd`, which is open on `f`. -/
def FS.written (fs : FS) (fd : Int) (f : OpenFile) (off : Nat) (bytes : List Byte) : FS :=
  { fs with data := upd fs.data f.ino (overwrite (fs.data f.ino) off bytes),
            fdt := upd fs.fdt fd (some { ino := f.ino, pos := off + bytes.length }) }

/-- Model of `fsync(fd)`. -/
def sys_fsync (fs : FS) (fd : Int) : Int :=
  match fs.fdt fd with
  | none => -1
  | some _ => 0

/-- Model of `close(fd)`; its result is never looked at. -/
def sys_close (fs : FS) (fd : Int) : FS :=
  { fs with fdt := upd fs.fdt fd none }

/-- Model of `remove(path)`: the name is unlinked; the file lives on for the
descriptors that are open on it. -/
def sys_remove (fs : FS) (path : String) : FS :=
  { fs with dir := upd fs.dir path none }

/-- The contents of the file linked at `path`; the empty list when no file is
linked there. -/
def FS.file_at (fs : FS) (path : String) : List Byte :=
  match fs.dir path with
  | some g => fs.data (path, g)
  | none => []

/-- The file `open(path, O_CREAT)` opens: the one linked at `path`, or a new
one. -/
def FS.ino_at (fs : FS) (path : String) : Ino :=
  match fs.dir path with
  | some g => (path, g)
  | none => (path, fs.next_gen)

/-- The file system after the system calls of lines 147-157 of `rvm_map` on
their successful path: `open`, `lseek` to the end, and the write of one zero
byte at `size_to_create - 1` when the file is shorter than `size_to_create`. -/
def map_fs_ext (fs : FS) (path : String) (size_to_create : Int) : FS :=
  let o := sys_open fs path
  let e := sys_lseek_end o.2 o.1
  if size_to_create > wrap32 e.1 then
    (sys_write (sys_lseek_set e.2 o.1 (size_to_create - 1)).2 o.1 [0]).2
  else e.2

/-- The file system after the system calls of a successful `rvm_map`:
`map_fs_ext`, then `lseek` to the start and `read`. -/
def map_fs (fs : FS) (path : String) (size_to_create : Int) : FS :=
  (sys_read (sys_lseek_set (map_fs_ext fs path size_to_create) fs.next_fd 0).2 fs.next_fd
    size_to_create.toNat).2.2

/-- The bytes the `read` of a successful `rvm_map` returns. -/
def map_buf (fs : FS) (path : String) (size_to_create : Int) : List Byte :=
  (sys_read (sys_lseek_set (map_fs_ext fs path size_to_create) fs.next_fd 0).2 fs.next_fd
    size_to_create.toNat).2.1

/-- What a successful `rvm_map` of `size_to_create` bytes over `path` does to
the file system `fs`, giving `fs1`, and the bytes `buf` it loads. -/
structure MapSpec (fs : FS) (path : String) (size_to_create : Int) (fs1 : FS)
    (buf : List Byte) : Prop where
  dir_path : fs1.dir path = some (fs.ino_at path).2
  dir_other : ∀ q, q ≠ path → fs1.dir q = fs.dir q
  data_len : (fs1.data (fs.ino_at path)).length =
    max (fs.file_at path).length size_to_create.toNat
  data_old : ∀ j, j < (fs.file_at path).length →
    byteAt (fs1.data (fs.ino_at path)) j = byteAt (fs.file_at path) j
  data_zero : ∀ j, (fs.file_at path).length ≤ j → byteAt (fs1.data (fs.ino_at path)) j = 0
  data_other : ∀ i, i ≠ fs.ino_at path → fs1.data i = fs.data i
  fdt_new : ∃ pos, fs1.fdt fs.next_fd = some { ino := fs.ino_at path, pos := pos }
  fdt_other : ∀ fd, fd ≠ fs.next_fd → fs1.fdt fd = fs.fdt fd
  next_fd : fs1.next_fd = fs.next_fd + 1
  next_gen : fs.next_gen ≤ fs1.next_gen
  gen_lt : (fs.ino_at path).2 < fs1.next_gen
  buf_eq : buf = (fs1.data (fs.ino_at path)).take size_to_create.toNat

/-! ## The data of `rvm.cpp` -/

/-- `enum class Status`. -/
inductive Status where
  | MAPPED
  | UNMAPPED
  | ACQUIRED
  deriving DecidableEq, Repr

/-- `struct Segment`, with the default member initialisers of the source. -/
structure Segment where
  segbase : Int := 0
  size : Int := -1
  mapped_size : Int := -1
  fd : Int := -1
  st : Status := Status.UNMAPPED
  filepath : String := ""

/-- `struct RVM`: the backing directory and the two catalogs. -/
structure RVM where
  _backing_store : String
  _name_seg_map : String → Option Nat
  _base_seg_map : Int → Option Nat

/-- The constructor `RVM(directory)`: both catalogs are empty. -/
def RVM.create (directory : String) : RVM :=
  { _backing_store := directory,
    _name_seg_map := fun _ => none,
    _base_seg_map := fun _ => none }

/-- `RVM::find_seg_by_name` (`none` is `nullptr`). -/
def RVM.find_seg_by_name (r : RVM) (name : String) : Option Nat :=
  r._name_seg_map name

/-- `RVM::find_seg_by_base` (`none` is `nullptr`). -/
def RVM.find_seg_by_base (r : RVM) (base : Int) : Option Nat :=
  r._base_seg_map base

/-- `RVM::get_filepath`. -/
def RVM.get_filepath (r : RVM) (segname : String) : String :=
  "./" ++ r._backing_store ++ "/" ++ segname

/-- `Transcation::Region`; the block `_undo_log` points to is owned by the
region alone and is kept here by value. -/
structure Region where
  _seg : Nat
  _offset : Int
  _size : Int
  _undo_log : List Byte

/-- Lookup in `Transcation::_segs`. -/
def segs_find : List (Int × Nat) → Int → Option Nat
  | [], _ => none
  | (k, v) :: rest, key => if k = key then some v else segs_find rest key

/-- The assignment `_segs[key] = v`. -/
def segs_set : List (Int × Nat) → Int → Nat → List (Int × Nat)
  | [], key, v => [(key, v)]
  | (k, w) :: rest, key, v =>
    if k = key then (k, v) :: rest else (k, w) :: segs_set rest key v

/-- `struct Transcation`. -/
structure Transcation where
  _regions : List Region
  _segs : List (Int × Nat)

/-- The whole state: process memory and file system. -/
structure State where
  mem : Int → Option (List Byte)
  next_addr : Int
  segs : Nat → Option Segment
  next_seg : Nat
  rvms : Int → Option RVM
  rvm_dirs : String → Bool
  transs : Int → Option Transcation
  rvm_id : Int
  trans_id : Int
  fs : FS

/-- How a call ends: it returns `val` in state `s`; or the process terminates
in state `s`; or its behaviour is undefined. -/
inductive Outcome (α : Type) where
  | ok (val : α) (s : State)
  | fatal (s : State)
  | undef

/-- Store a segment record at address `p` of the heap. -/
def put_seg (p : Nat) (seg : Segment) (s : State) : State :=
  { s with segs := upd s.segs p (some seg) }

/-- Read `n` bytes at `base + off`; `none` when the read is not inside a live
buffer.  Copying no bytes reads nothing. -/
def mem_read (s : State) (base off n : Int) : Option (List Byte) :=
  if n = 0 then some []
  else
    match s.mem base with
    | none => none
    | some buf =>
      if 0 ≤ off ∧ 0 < n ∧ off + n ≤ buf.length then some (slice buf off.toNat n.toNat)
      else none

/-- Write `bytes` at `base + off`; `none` when the write is not inside a live
buffer.  Copying no bytes writes nothing. -/
def mem_write (s : State) (base off : Int) (bytes : List Byte) : Option State :=
  if bytes.length = 0 then some s
  else
    match s.mem base with
    | none => none
    | some buf =>
      if 0 ≤ off ∧ off + bytes.length ≤ buf.length then
        some { s with mem := upd s.mem base (some (blit buf off.toNat bytes)) }
      else none

/-! ## The operations -/

/-- `rvm_init` (lines 132-136). -/
def rvm_init (directory : String) (s : State) : Outcome Int :=
  if s.rvm_dirs directory = true then Outcome.fatal s
  else
    let s1 := { s with rvm_dirs := upd s.rvm_dirs directory true, rvm_id := s.rvm_id + 1 }
    match s1.rvms s1.rvm_id with
    | some _ => Outcome.ok s1.rvm_id s1
    | none =>
      Outcome.ok s1.rvm_id
        { s1 with rvms := upd s1.rvms s1.rvm_id (some (RVM.create directory)) }

/-- Lines 159-167 of `rvm_map`: allocate the buffer, load it from the file and
record the segment.  `operator new` throws `std::bad_alloc` on a negative
size (the process terminates). -/
def map_load (rvm : Int) (rvm_ref : RVM) (segname : String) (size_to_create : Int)
    (p : Nat) (seg : Segment) (fd : Int) (s : State) : Outcome Int :=
  if size_to_create < 0 then Outcome.fatal (put_seg p seg s)
  else
    let seg1 := { seg with segbase := s.next_addr }
    let z := sys_lseek_set s.fs fd 0
    if z.1 ≠ 0 then
      Outcome.fatal (put_seg p seg1
        { s with mem := upd s.mem s.next_addr (some (List.replicate size_to_create.toNat 0)),
                 next_addr := s.next_addr + 1,
                 fs := sys_close z.2 fd })
    else
      let r := sys_read z.2 fd size_to_create.toNat
      let buf := r.2.1 ++ List.replicate (size_to_create.toNat - r.2.1.length) 0
      if size_to_create ≠ r.1 then
        Outcome.fatal (put_seg p seg1
          { s with mem := upd s.mem s.next_addr (some buf),
                   next_addr := s.next_addr + 1,
                   fs := sys_close r.2.2 fd })
      else
        Outcome.ok s.next_addr
          { s with mem := upd s.mem s.next_addr (some buf),
                   next_addr := s.next_addr + 1,
                   segs := upd s.segs p (some { seg1 with st := Status.MAPPED }),
                   rvms := upd s.rvms rvm (some
                     { rvm_ref with
                       _name_seg_map := upd rvm_ref._name_seg_map segname (some p),
                       _base_seg_map := upd rvm_ref._base_seg_map s.next_addr (some p) }),
                   fs := r.2.2 }

/-- Lines 146-157 of `rvm_map`, followed by `map_load`: `p` is the segment
record (found by name, or new) and `seg` its contents. -/
def map_segment (rvm : Int) (rvm_ref : RVM) (segname : String) (size_to_create : Int)
    (p : Nat) (seg : Segment) (s : State) : Outcome Int :=
  let o := sys_open s.fs (rvm_ref.get_filepath segname)
  let seg1 := { seg with filepath := rvm_ref.get_filepath segname, fd := o.1 }
  if o.1 = -1 then Outcome.fatal (put_seg p seg1 { s with fs := sys_close o.2 o.1 })
  else
    let e := sys_lseek_end o.2 o.1
    let seg2 := { seg1 with mapped_size := size_to_create, size := wrap32 e.1 }
    if seg2.size = -1 then Outcome.fatal (put_seg p seg2 { s with fs := sys_close e.2 o.1 })
    else if size_to_create > seg2.size then
      let l := sys_lseek_set e.2 o.1 (size_to_create - 1)
      if l.1 = -1 then Outcome.fatal (put_seg p seg2 { s with fs := sys_close l.2 o.1 })
      else
        let w := sys_write l.2 o.1 [0]
        if w.1 ≠ 1 then Outcome.fatal (put_seg p seg2 { s with fs := sys_close w.2 o.1 })
        else map_load rvm rvm_ref segname size_to_create p seg2 o.1 { s with fs := w.2 }
    else map_load rvm rvm_ref segname size_to_create p seg2 o.1 { s with fs := e.2 }

/-- `new Segment` (line 145): a record with the default members at the next
free address `s.next_seg` of the heap. -/
def new_segment (s : State) : State :=
  { s with segs := upd s.segs s.next_seg (some {}), next_seg := s.next_seg + 1 }

/-- The members of the segment record when a successful `rvm_map` returns. -/
def map_seg (s : State) (rvm_ref : RVM) (segname : String) (size_to_create : Int) : Segment :=
  { segbase := s.next_addr,
    size := (s.fs.file_at (rvm_ref.get_filepath segname)).length,
    mapped_size := size_to_create,
    fd := s.fs.next_fd,
    st := Status.MAPPED,
    filepath := rvm_ref.get_filepath segname }

/-- The state in which a successful `rvm_map` returns, when it runs from `s`
with the segment record at `p`. -/
def map_state (s : State) (rvm : Int) (rvm_ref : RVM) (segname : String)
    (size_to_create : Int) (p : Nat) : State :=
  { s with mem := upd s.mem s.next_addr
             (some (map_buf s.fs (rvm_ref.get_filepath segname) size_to_create)),
           next_addr := s.next_addr + 1,
           segs := upd s.segs p (some (map_seg s rvm_ref segname size_to_create)),
           rvms := upd s.rvms rvm (some
             { rvm_ref with
               _name_seg_map := upd rvm_ref._name_seg_map segname (some p),
               _base_seg_map := upd rvm_ref._base_seg_map s.next_addr (some p) }),
           fs := map_fs s.fs (rvm_ref.get_filepath segname) size_to_create }

/-- `rvm_map` (lines 138-168); the result `-1` is `(void*)-1`. -/
def rvm_map (rvm : Int) (segname : String) (size_to_create : Int) (s : State) : Outcome Int :=
  match s.rvms rvm with
  | none => Outcome.fatal s
  | some rvm_ref =>
    match rvm_ref.find_seg_by_name segname with
    | some p =>
      match s.segs p with
      | none => Outcome.undef
      | some seg =>
        if seg.st ≠ Status.UNMAPPED then Outcome.ok (-1) s
        else map_segment rvm rvm_ref segname size_to_create p seg s
    | none =>
      map_segment rvm rvm_ref segname size_to_create s.next_seg {} (new_segment s)

/-- `rvm_unmap` (lines 170-180). -/
def rvm_unmap (rvm : Int) (segbase : Int) (s : State) : Outcome Unit :=
  match s.rvms rvm with
  | none => Outcome.fatal s
  | some rvm_ref =>
    match rvm_ref.find_seg_by_base segbase with
    | none => Outcome.ok () s
    | some p =>
      match s.segs p with
      | none => Outcome.undef
      | some seg =>
        if seg.st = Status.UNMAPPED then Outcome.ok () s
        else if seg.st ≠ Status.MAPPED then Outcome.fatal s
        else
          match s.mem seg.segbase with
          | none => Outcome.undef
          | some _ =>
            Outcome.ok ()
              { s with mem := upd s.mem seg.segbase none,
                       segs := upd s.segs p (some { seg with st := Status.UNMAPPED }),
                       rvms := upd s.rvms rvm (some
                         { rvm_ref with
                           _base_seg_map := upd rvm_ref._base_seg_map segbase none }),
                       fs := sys_close s.fs seg.fd }

/-- `rvm_destroy` (lines 182-192). -/
def rvm_destroy (rvm : Int) (segname : String) (s : State) : Outcome Unit :=
  match s.rvms rvm with
  | none => Outcome.fatal s
  | some rvm_ref =>
    match rvm_ref.find_seg_by_name segname with
    | some p =>
      match s.segs p with
      | none => Outcome.undef
      | some seg =>
        if seg.st ≠ Status.UNMAPPED then Outcome.ok () s
        else
          Outcome.ok ()
            { s with segs := upd s.segs p none,
                     rvms := upd s.rvms rvm (some
                       { rvm_ref with
                         _name_seg_map := upd rvm_ref._name_seg_map segname none }),
                     fs := sys_remove s.fs (rvm_ref.get_filepath segname) }
    | none =>
      Outcome.ok () { s with fs := sys_remove s.fs (rvm_ref.get_filepath segname) }

/-- The first loop of `rvm_begin_trans` (lines 197-201) over `segbases[0..n)`:
`some true` when every handle resolves to a MAPPED segment, `some false` when
the loop returns `-1`, `none` when it reads past the array or follows a
dangling pointer. -/
def begin_check (rvm_ref : RVM) (s : State) : Nat → List Int → Option Bool
  | 0, _ => some true
  | _ + 1, [] => none
  | n + 1, b :: rest =>
    match rvm_ref.find_seg_by_base b with
    | none => some false
    | some p =>
      match s.segs p with
      | none => none
      | some seg =>
        if seg.st ≠ Status.MAPPED then some false else begin_check rvm_ref s n rest

/-- The second loop of `rvm_begin_trans` (lines 204-208) over `segbases[0..n)`,
on the segment heap and the `_segs` of the transaction. -/
def begin_acquire (rvm_ref : RVM) :
    Nat → List Int → (Nat → Option Segment) → List (Int × Nat) →
      Option ((Nat → Option Segment) × List (Int × Nat))
  | 0, _, segs, m => some (segs, m)
  | _ + 1, [], _, _ => none
  | n + 1, b :: rest, segs, m =>
    match rvm_ref.find_seg_by_base b with
    | none => none
    | some p =>
      match segs p with
      | none => none
      | some seg =>
        begin_acquire rvm_ref n rest
          (upd segs p (some { seg with st := Status.ACQUIRED })) (segs_set m seg.segbase p)

/-- `rvm_begin_trans` (lines 194-210); `segbases` is the array the caller
passes.  `transs.insert` leaves an entry that is already there as it is. -/
def rvm_begin_trans (rvm : Int) (numsegs : Int) (segbases : List Int) (s : State) :
    Outcome Int :=
  match s.rvms rvm with
  | none => Outcome.fatal s
  | some rvm_ref =>
    match begin_check rvm_ref s numsegs.toNat segbases with
    | none => Outcome.undef
    | some false => Outcome.ok (-1) s
    | some true =>
      let tid := s.trans_id + 1
      let t : Transcation :=
        match s.transs tid with
        | some t0 => t0
        | none => { _regions := [], _segs := [] }
      match begin_acquire rvm_ref numsegs.toNat segbases s.segs t._segs with
      | none => Outcome.undef
      | some (segs, m) =>
        Outcome.ok tid
          { s with trans_id := tid,
                   segs := segs,
                   transs := upd s.transs tid (some { t with _segs := m }) }

/-- The constructor of `Transcation::Region` (lines 66-68): `operator new`
throws `std::bad_alloc` on a negative size (the process terminates), then
`memcpy` takes the before-image. -/
def Region.create (p : Nat) (seg : Segment) (offset size : Int) (s : State) : Outcome Region :=
  if size < 0 then Outcome.fatal s
  else
    match mem_read s seg.segbase offset size with
    | none => Outcome.undef
    | some bytes =>
      Outcome.ok { _seg := p, _offset := offset, _size := size, _undo_log := bytes } s

/-- `Transcation::modify` (lines 74-80). -/
def Transcation.modify (t : Transcation) (segbase : Int) (offset size : Int) (s : State) :
    Outcome Transcation :=
  match segs_find t._segs segbase with
  | none => Outcome.fatal s
  | some p =>
    match s.segs p with
    | none => Outcome.undef
    | some seg =>
      if seg.mapped_size < wrap32 (offset + size) then Outcome.fatal s
      else
        match Region.create p seg offset size s with
        | Outcome.ok r s1 => Outcome.ok { t with _regions := t._regions ++ [r] } s1
        | Outcome.fatal s1 => Outcome.fatal s1
        | Outcome.undef => Outcome.undef

/-- `Transcation::release_hold_segs` (lines 82-84), on the segment heap. -/
def release_hold_segs :
    List (Int × Nat) → (Nat → Option Segment) → Option (Nat → Option Segment)
  | [], segs => some segs
  | (_, p) :: rest, segs =>
    match segs p with
    | none => none
    | some seg => release_hold_segs rest (upd segs p (some { seg with st := Status.MAPPED }))

/-- `Transcation::commit` (lines 86-94), over the list of regions. -/
def commit_regions : List Region → State → Outcome Unit
  | [], s => Outcome.ok () s
  | r :: rest, s =>
    match s.segs r._seg with
    | none => Outcome.undef
    | some seg =>
      let l := sys_lseek_set s.fs seg.fd r._offset
      if l.1 = -1 then Outcome.fatal { s with fs := l.2 }
      else
        match mem_read s seg.segbase r._offset r._size with
        | none => Outcome.undef
        | some bytes =>
          let w := sys_write l.2 seg.fd bytes
          if r._size ≠ w.1 then Outcome.fatal { s with fs := w.2 }
          else if sys_fsync w.2 seg.fd ≠ 0 then Outcome.fatal { s with fs := w.2 }
          else commit_regions rest { s with fs := w.2 }

/-- `Transcation::abort` (lines 96-99), over the list of regions. -/
def abort_regions : List Region → State → Outcome Unit
  | [], s => Outcome.ok () s
  | r :: rest, s =>
    match s.segs r._seg with
    | none => Outcome.undef
    | some seg =>
      if r._size ≠ r._undo_log.length then Outcome.undef
      else
        match mem_write s seg.segbase r._offset r._undo_log with
        | none => Outcome.undef
        | some s1 => abort_regions rest s1

/-- `rvm_about_to_modify` (lines 212-215). -/
def rvm_about_to_modify (tid : Int) (segbase : Int) (offset size : Int) (s : State) :
    Outcome Unit :=
  match s.transs tid with
  | none => Outcome.fatal s
  | some t =>
    match t.modify segbase offset size s with
    | Outcome.ok t1 s1 => Outcome.ok () { s1 with transs := upd s1.transs tid (some t1) }
    | Outcome.fatal s1 => Outcome.fatal s1
    | Outcome.undef => Outcome.undef

/-- What follows the loop in `rvm_commit_trans` and `rvm_abort_trans`:
`release_hold_segs` and `transs.erase(tid)`. -/
def finish_trans (tid : Int) (t : Transcation) (s : State) : Outcome Unit :=
  match release_hold_segs t._segs s.segs with
  | none => Outcome.undef
  | some segs => Outcome.ok () { s with segs := segs, transs := upd s.transs tid none }

/-- `rvm_commit_trans` (lines 217-222). -/
def rvm_commit_trans (tid : Int) (s : State) : Outcome Unit :=
  match s.transs tid with
  | none => Outcome.fatal s
  | some t =>
    match commit_regions t._regions s with
    | Outcome.ok _ s1 => finish_trans tid t s1
    | Outcome.fatal s1 => Outcome.fatal s1
    | Outcome.undef => Outcome.undef

/-- `rvm_abort_trans` (lines 224-229). -/
def rvm_abort_trans (tid : Int) (s : State) : Outcome Unit :=
  match s.transs tid with
  | none => Outcome.fatal s
  | some t =>
    match abort_regions t._regions s with
    | Outcome.ok _ s1 => finish_trans tid t s1
    | Outcome.fatal s1 => Outcome.fatal s1
    | Outcome.undef => Outcome.undef

/-- `rvm_truncate_log` (lines 231-233): the body is empty. -/
def rvm_truncate_log (_rvm : Int) (s : State) : Outcome Unit :=
  Outcome.ok () s

/-- The caller writes `bytes` into the buffer `segbase` at `offset`, outside
the library. -/
def caller_write (segbase : Int) (offset : Int) (bytes : List Byte) (s : State) :
    Outcome Unit :=
  match mem_write s segbase offset bytes with
  | none => Outcome.undef
  | some s1 => Outcome.ok () s1

/-- The file a region is committed to: the one the descriptor of its segment
is open on. -/
def Region.ino (s : State) (r : Region) : Option Ino :=
  match s.segs r._seg with
  | none => none
  | some seg =>
    match s.fs.fdt seg.fd with
    | none => none
    | some f => some f.ino

/-- The buffer of the segment of a region. -/
def Region.buf (s : State) (r : Region) : Option (List Byte) :=
  match s.segs r._seg with
  | none => none
  | some seg => s.mem seg.segbase

/-- The handle of the buffer of the segment of a region. -/
def Region.base (s : State) (r : Region) : Option Int :=
  match s.segs r._seg with
  | none => none
  | some seg => some seg.segbase

/-- Whether position `j` lies in the byte range of the region. -/
def Region.covers (r : Region) (j : Nat) : Prop :=
  r._offset.toNat ≤ j ∧ j < r._offset.toNat + r._size.toNat

/-! ## Calls, runs and reachable states -/

/-- A call of the library, or a write of the caller into a buffer. -/
inductive Op where
  | init (directory : String)
  | map (rvm : Int) (segname : String) (size_to_create : Int)
  | unmap (rvm : Int) (segbase : Int)
  | destroy (rvm : Int) (segname : String)
  | begin_trans (rvm : Int) (numsegs : Int) (segbases : List Int)
  | about_to_modify (tid : Int) (segbase : Int) (offset : Int) (size : Int)
  | commit_trans (tid : Int)
  | abort_trans (tid : Int)
  | truncate_log (rvm : Int)
  | write (segbase : Int) (offset : Int) (bytes : List Byte)

/-- The state in which a call returned, if it did. -/
def Outcome.returned {α : Type} : Outcome α → Option State
  | Outcome.ok _ s => some s
  | Outcome.fatal _ => none
  | Outcome.undef => none

/-- One step: the state after the call, when the call returns. -/
def step (op : Op) (s : State) : Option State :=
  match op with
  | Op.init directory => (rvm_init directory s).returned
  | Op.map rvm segname size_to_create => (rvm_map rvm segname size_to_create s).returned
  | Op.unmap rvm segbase => (rvm_unmap rvm segbase s).returned
  | Op.destroy rvm segname => (rvm_destroy rvm segname s).returned
  | Op.begin_trans rvm numsegs segbases => (rvm_begin_trans rvm numsegs segbases s).returned
  | Op.about_to_modify tid segbase offset size =>
    (rvm_about_to_modify tid segbase offset size s).returned
  | Op.commit_trans tid => (rvm_commit_trans tid s).returned
  | Op.abort_trans tid => (rvm_abort_trans tid s).returned
  | Op.truncate_log rvm => (rvm_truncate_log rvm s).returned
  | Op.write segbase offset bytes => (caller_write segbase offset bytes s).returned

/-- The `int` arguments of a call are values of the type `int`, and the array
passed to `rvm_begin_trans` has at least `numsegs` entries. -/
def Op.wellTyped : Op → Prop
  | Op.map _ _ size_to_create => isInt size_to_create
  | Op.begin_trans _ numsegs segbases => isInt numsegs ∧ numsegs ≤ segbases.length
  | Op.about_to_modify _ _ offset size => isInt offset ∧ isInt size
  | _ => True

/-- Run a sequence of steps, each of which has to return. -/
def run : List Op → State → Option State
  | [], s => some s
  | op :: rest, s =>
    match step op s with
    | none => none
    | some s1 => run rest s1

/-- A file system at the start of the process: no descriptor of the library
is open, and every file is shorter than `2^31` bytes. -/
structure FS.initial (fs : FS) : Prop where
  no_fd : ∀ fd, fs.fdt fd = none
  fd_ge : 3 ≤ fs.next_fd
  gen_lt : ∀ path g, fs.dir path = some g → g < fs.next_gen
  len_lt : ∀ i, ((fs.data i).length : Int) < 2147483648

/-- The state of the process at its start, over the file system `fs`. -/
def State.start (fs : FS) : State :=
  { mem := fun _ => none,
    next_addr := 1,
    segs := fun _ => none,
    next_seg := 0,
    rvms := fun _ => none,
    rvm_dirs := fun _ => false,
    transs := fun _ => none,
    rvm_id := 0,
    trans_id := 0,
    fs := fs }

/-- The states the process can be in: it starts over some file system and
makes well-typed calls that return. -/
inductive Reachable : State → Prop where
  | start (fs : FS) (h : fs.initial) : Reachable (State.start fs)
  | step (s : State) (op : Op) (s1 : State)
      (hs : Reachable s) (hop : op.wellTyped) (h : step op s = some s1) : Reachable s1

/-! ## Invariants of the reachable states -/

/-- Invariant of the file system. -/
structure FS.Inv (fs : FS) : Prop where
  fd_ge : 3 ≤ fs.next_fd
  fd_lt : ∀ fd f, fs.fdt fd = some f → 3 ≤ fd ∧ fd < fs.next_fd
  gen_lt : ∀ path g, fs.dir path = some g → g < fs.next_gen
  open_lt : ∀ fd f, fs.fdt fd = some f → f.ino.2 < fs.next_gen
  len_lt : ∀ i, ((fs.data i).length : Int) < 2147483648

/-- Invariant of the stores and their catalogs over the segment heap. -/
structure CatInv (segs : Nat → Option Segment) (rvms : Int → Option RVM) : Prop where
  name_seg : ∀ id R n p, rvms id = some R → R._name_seg_map n = some p →
    ∃ seg, segs p = some seg ∧ seg.filepath = R.get_filepath n
  name_base : ∀ id R n p seg, rvms id = some R → R._name_seg_map n = some p →
    segs p = some seg → seg.st ≠ Status.UNMAPPED → R._base_seg_map seg.segbase = some p
  name_inj : ∀ id R n p id1 R1 n1, rvms id = some R → R._name_seg_map n = some p →
    rvms id1 = some R1 → R1._name_seg_map n1 = some p → id = id1 ∧ n = n1
  base_seg : ∀ id R b p, rvms id = some R → R._base_seg_map b = some p →
    ∃ seg n, segs p = some seg ∧ seg.segbase = b ∧ seg.st ≠ Status.UNMAPPED ∧
      R._name_seg_map n = some p

/-- Invariant of the segments that are not UNMAPPED: the buffer is live and
has the declared size, the descriptor is open on the file of the segment,
which is at least as long as the declared size, and no two of them share a
buffer or a descriptor. -/
structure LiveInv (segs : Nat → Option Segment) (mem : Int → Option (List Byte)) (fs : FS) :
    Prop where
  buf : ∀ p seg, segs p = some seg → seg.st ≠ Status.UNMAPPED →
    ∃ b, mem seg.segbase = some b ∧ (b.length : Int) = seg.mapped_size
  file : ∀ p seg, segs p = some seg → seg.st ≠ Status.UNMAPPED →
    ∃ f, fs.fdt seg.fd = some f ∧ f.ino.1 = seg.filepath ∧
      seg.mapped_size ≤ (fs.data f.ino).length
  distinct : ∀ p q seg seg1, segs p = some seg → segs q = some seg1 →
    seg.st ≠ Status.UNMAPPED → seg1.st ≠ Status.UNMAPPED → p ≠ q →
    seg.segbase ≠ seg1.segbase ∧ seg.fd ≠ seg1.fd

/-- Invariant of the live transactions. -/
structure TransInv (transs : Int → Option Transcation) (segs : Nat → Option Segment)
    (rvms : Int → Option RVM) : Prop where
  store : ∀ tid t, transs tid = some t →
    ∃ id R, rvms id = some R ∧ ∀ b p, (b, p) ∈ t._segs → R._base_seg_map b = some p
  acquired : ∀ tid t b p, transs tid = some t → (b, p) ∈ t._segs →
    ∃ seg, segs p = some seg ∧ seg.st = Status.ACQUIRED
  exclusive : ∀ tid t tid1 t1 b b1 p, transs tid = some t → transs tid1 = some t1 →
    (b, p) ∈ t._segs → (b1, p) ∈ t1._segs → tid = tid1
  held : ∀ p seg, segs p = some seg → seg.st = Status.ACQUIRED →
    ∃ tid t b, transs tid = some t ∧ (b, p) ∈ t._segs
  regions : ∀ tid t r, transs tid = some t → r ∈ t._regions →
    (∃ b, (b, r._seg) ∈ t._segs) ∧ 0 ≤ r._size ∧ (r._undo_log.length : Int) = r._size ∧
    (0 < r._size → 0 ≤ r._offset) ∧
    ∀ seg, segs r._seg = some seg → r._offset + r._size ≤ seg.mapped_size

/-- The heap `segs1` differs from `segs` at most in the status of segments,
and no segment enters or leaves the status UNMAPPED. -/
def StatusOnly (segs segs1 : Nat → Option Segment) : Prop :=
  ∀ p, (segs p = none ∧ segs1 p = none) ∨
    ∃ seg st, segs p = some seg ∧ segs1 p = some { seg with st := st } ∧
      (seg.st = Status.UNMAPPED ↔ st = Status.UNMAPPED)

/-- The invariant of the reachable states. -/
structure Inv (s : State) : Prop where
  fs : s.fs.Inv
  cat : CatInv s.segs s.rvms
  live : LiveInv s.segs s.mem s.fs
  trans : TransInv s.transs s.segs s.rvms
  addr_pos : 0 < s.next_addr
  rvm_id_nonneg : 0 ≤ s.rvm_id
  trans_id_nonneg : 0 ≤ s.trans_id
  mem_lt : ∀ a b, s.mem a = some b → 0 < a ∧ a < s.next_addr
  segs_lt : ∀ p seg, s.segs p = some seg → p < s.next_seg
  size_lt : ∀ p seg, s.segs p = some seg → seg.st ≠ Status.UNMAPPED →
    seg.mapped_size < 2147483648
  rvms_le : ∀ id R, s.rvms id = some R → 1 ≤ id ∧ id ≤ s.rvm_id
  transs_le : ∀ tid t, s.transs tid = some t → 1 ≤ tid ∧ tid ≤ s.trans_id
  store_dir : ∀ id R, s.rvms id = some R → s.rvm_dirs R._backing_store = true
  store_inj : ∀ id R id1 R1, s.rvms id = some R → s.rvms id1 = some R1 →
    R._backing_store = R1._backing_store → id = id1

/-- The calls that touch no file: beginning a transaction, declaring a
range, aborting, and the writes of the caller into a buffer. -/
def Op.quiet : Op → Prop
  | Op.begin_trans _ _ _ => True
  | Op.about_to_modify _ _ _ _ => True
  | Op.abort_trans _ => True
  | Op.write _ _ _ => True
  | _ => False

/-- A call that may follow the declaration of the range `[off, off + size)` of
the buffer `base` in the transaction `tid` and leaves that range to the
declared region: a write of the caller into a buffer, or a declaration which,
when it is one of the same transaction for the same buffer, is of no bytes or
of a range that does not meet `[off, off + size)`. -/
def Op.apart (tid base off size : Int) : Op → Prop
  | Op.about_to_modify tid1 b o z =>
    tid1 = tid → b = base → z = 0 ∨ o + z ≤ off ∨ off + size ≤ o
  | Op.write _ _ _ => True
  | _ => False

/-- The discipline of a caller over a run of declarations of the transaction
`tid` and of writes into buffers, where `decl` lists the ranges (buffer,
offset, length) declared so far: a declared range shares no byte with a range
of the same buffer declared before, and every byte the caller writes lies in
a range of its buffer declared before. -/
def disciplined (tid : Int) : List (Int × Int × Int) → List Op → Prop
  | _, [] => True
  | decl, Op.about_to_modify tid1 b o z :: rest =>
    tid1 = tid ∧
    (∀ d ∈ decl, d.1 = b → z = 0 ∨ d.2.2 = 0 ∨ o + z ≤ d.2.1 ∨ d.2.1 + d.2.2 ≤ o) ∧
    disciplined tid ((b, o, z) :: decl) rest
  | decl, Op.write b o bytes :: rest =>
    (∀ i : Nat, i < bytes.length →
      ∃ d ∈ decl, d.1 = b ∧ d.2.1 ≤ o + i ∧ o + i < d.2.1 + d.2.2) ∧
    disciplined tid decl rest
  | _, _ :: _ => False

/-- The state `s` of a run that keeps the discipline, against the buffers
`m0` at the beginning of the transaction `tid` and the ranges `decl` declared
so far: the regions of the transaction are the declared ranges, the
before-image of a region holds the bytes its range had in `m0`, and a buffer
byte that no region covers is as in `m0`. -/
def Snapshot (tid : Int) (m0 : Int → Option (List Byte)) (decl : List (Int × Int × Int))
    (s : State) : Prop :=
  (∀ a, m0 a = none → s.mem a = none) ∧
  ∃ t, s.transs tid = some t ∧
    (∀ r ∈ t._regions, ∃ a, r.base s = some a ∧ (a, r._offset, r._size) ∈ decl) ∧
    (∀ d ∈ decl, ∃ r ∈ t._regions,
      r.base s = some d.1 ∧ r._offset = d.2.1 ∧ r._size = d.2.2) ∧
    (∀ r ∈ t._regions, ∀ a orig, r.base s = some a → m0 a = some orig →
      ∀ j, r.covers j → byteAt r._undo_log (j - r._offset.toNat) = byteAt orig j) ∧
    (∀ a orig, m0 a = some orig →
      ∃ buf, s.mem a = some buf ∧ buf.length = orig.length ∧
        ∀ j, (∀ r ∈ t._regions, r.base s = some a → ¬ r.covers j) →
          byteAt buf j = byteAt orig j)

/-! ## Example states -/

/-- A file system without files. -/
def FS.empty : FS :=
  { dir := fun _ => none,
    data := fun _ => [],
    fdt := fun _ => none,
    next_gen := 0,
    next_fd := 3 }

/-- The state after a run from `s`, or `s` itself when a step does not
return. -/
def exec (ops : List Op) (s : State) : State :=
  (run ops s).getD s

/-- The bytes of the text `12345678`. -/
def digits : List Byte := [49, 50, 51, 52, 53, 54, 55, 56]

/-- `init("db")` in a file system without files: the store is `1`. -/
def ex_init : State :=
  exec [Op.init "db"] (State.start FS.empty)

/-- `init("db")`, then `map(1, "accounts", 16)`: the store is `1`, the buffer
handle is `1`, the segment record is at `0`. -/
def ex_mapped : State :=
  exec [Op.init "db", Op.map 1 "accounts" 16] (State.start FS.empty)

/-- After `ex_mapped`, `begin_trans(1, [1])`: the transaction is `1`. -/
def ex_begun : State :=
  exec [Op.begin_trans 1 1 [1]] ex_mapped

/-- After `ex_begun`, `about_to_modify(1, 1, 0, 8)` and the caller writes
`12345678` at offset 0. -/
def ex_written : State :=
  exec [Op.about_to_modify 1 1 0 8, Op.write 1 0 digits] ex_begun

/-- The region of `ex_written`: bytes `[0, 8)` of the segment record `0`, with
the eight zero bytes the buffer held when the range was declared. -/
def ex_region : Region :=
  { _seg := 0, _offset := 0, _size := 8, _undo_log := [0, 0, 0, 0, 0, 0, 0, 0] }

/-- The transaction `1` of `ex_written`. -/
def ex_trans : Transcation :=
  { _regions := [ex_region], _segs := [(1, 0)] }

/-- The segment record `0` of `ex_written`. -/
def ex_seg : Segment :=
  { segbase := 1, size := 0, mapped_size := 16, fd := 3, st := Status.ACQUIRED,
    filepath := "./db/accounts" }

@[simp] theorem upd_same {α β : Type} [DecidableEq α] (f : α → β) (a : α) (b : β) :
    upd f a b a = b := by simp [upd]

theorem upd_ne {α β : Type} [DecidableEq α] (f : α → β) {a x : α} (b : β) (h : x ≠ a) :
    upd f a b x = f x := by simp [upd, h]

theorem upd_apply {α β : Type} [DecidableEq α] (f : α → β) (a x : α) (b : β) :
    upd f a b x = if x = a then b else f x := rfl

@[simp] theorem tabulate_length {β : Type} (n : Nat) (f : Nat → β) : (tabulate n f).length = n := by
  simp [tabulate]

theorem byteAt_tabulate (n : Nat) (f : Nat → Byte) (i : Nat) :
    byteAt (tabulate n f) i = if i < n then f i else 0 := by
  unfold tabulate byteAt
  by_cases h : i < n
  · simp [List.getD_eq_getElem?_getD, List.getElem?_map, List.getElem?_range, h]
  · have h1 : (List.range n)[i]? = none := by
      apply List.getElem?_eq_none; simp; omega
    simp [List.getD_eq_getElem?_getD, List.getElem?_map, h, h1]

theorem byteAt_ge (l : List Byte) (i : Nat) (h : l.length ≤ i) : byteAt l i = 0 := by
  simp [byteAt, List.getD_eq_getElem?_getD, List.getElem?_eq_none h]

theorem list_ext_byteAt (l1 l2 : List Byte) (hl : l1.length = l2.length)
    (h : ∀ i, i < l1.length → byteAt l1 i = byteAt l2 i) : l1 = l2 := by
  apply List.ext_getElem hl
  intro i h1 h2
  have := h i h1
  simpa [byteAt, List.getD_eq_getElem?_getD, List.getElem?_eq_getElem h1, List.getElem?_eq_getElem h2] using this

@[simp] theorem slice_length (l : List Byte) (off n : Nat) : (slice l off n).length = n := by
  simp [slice]

theorem byteAt_slice (l : List Byte) (off n i : Nat) :
    byteAt (slice l off n) i = if i < n then byteAt l (off + i) else 0 := by
  simp [slice, byteAt_tabulate]

@[simp] theorem blit_length (dst : List Byte) (off : Nat) (src : List Byte) :
    (blit dst off src).length = dst.length := by
  simp [blit]

theorem byteAt_blit (dst : List Byte) (off : Nat) (src : List Byte) (i : Nat) :
    byteAt (blit dst off src) i =
      if off ≤ i ∧ i < off + src.length ∧ i < dst.length then byteAt src (i - off)
      else byteAt dst i := by
  unfold blit
  rw [byteAt_tabulate]
  by_cases h : i < dst.length
  · simp [h]
  · simp [h, byteAt_ge dst i (by omega)]

theorem overwrite_length (dst : List Byte) (off : Nat) (src : List Byte) :
    (overwrite dst off src).length =
      if src.length = 0 then dst.length else max dst.length (off + src.length) := by
  unfold overwrite
  split <;> simp

theorem byteAt_overwrite (dst : List Byte) (off : Nat) (src : List Byte) (i : Nat) :
    byteAt (overwrite dst off src) i =
      if off ≤ i ∧ i < off + src.length then byteAt src (i - off) else byteAt dst i := by
  unfold overwrite
  by_cases h0 : src.length = 0
  · have : ¬ (off ≤ i ∧ i < off + src.length) := by omega
    simp only [h0, if_true]
    rw [if_neg (by omega)]
  · simp only [h0, if_false]
    rw [byteAt_tabulate]
    by_cases h : i < max dst.length (off + src.length)
    · simp [h]
    · have h1 : ¬ (off ≤ i ∧ i < off + src.length) := by
        intro hh; apply h; exact lt_of_lt_of_le hh.2 (le_max_right _ _)
      have h2 : dst.length ≤ i := by
        have := le_max_left dst.length (off + src.length); omega
      simp [h, h1, byteAt_ge dst i h2]

theorem wrap32_of_isInt (x : Int) (h : isInt x) : wrap32 x = x := by
  unfold isInt at h
  unfold wrap32
  omega

theorem byteAt_take_drop (l : List Byte) (pos n i : Nat) :
    byteAt ((l.drop pos).take n) i = if i < n then byteAt l (pos + i) else 0 := by
  unfold byteAt
  by_cases h : i < n
  · simp [List.getD_eq_getElem?_getD, List.getElem?_take, h, List.getElem?_drop]
  · simp [List.getD_eq_getElem?_getD, List.getElem?_take, h]

theorem FS.Inv_of_initial (fs : FS) (h : fs.initial) : fs.Inv where
  fd_ge := h.fd_ge
  fd_lt := by intro fd f hf; simp [h.no_fd] at hf
  gen_lt := h.gen_lt
  open_lt := by intro fd f hf; simp [h.no_fd] at hf
  len_lt := h.len_lt

theorem Inv_start (fs : FS) (h : fs.initial) : Inv (State.start fs) where
  fs := FS.Inv_of_initial fs h
  cat := by
    constructor <;> intros <;> simp_all [State.start]
  live := by
    constructor <;> intros <;> simp_all [State.start]
  trans := by
    constructor <;> intros <;> simp_all [State.start]
  addr_pos := by simp [State.start]
  rvm_id_nonneg := by simp [State.start]
  trans_id_nonneg := by simp [State.start]
  mem_lt := by intros; simp_all [State.start]
  segs_lt := by intros; simp_all [State.start]
  size_lt := by intros; simp_all [State.start]
  rvms_le := by intros; simp_all [State.start]
  transs_le := by intros; simp_all [State.start]
  store_dir := by intros; simp_all [State.start]
  store_inj := by intros; simp_all [State.start]

theorem rvm_init_ok (d : String) (s : State) (hs : Inv s) (v : Int) (s1 : State)
    (h : rvm_init d s = Outcome.ok v s1) :
    s.rvm_dirs d = false ∧ v = s.rvm_id + 1 ∧
    s1 = { s with rvm_dirs := upd s.rvm_dirs d true, rvm_id := s.rvm_id + 1,
                  rvms := upd s.rvms (s.rvm_id + 1) (some (RVM.create d)) } := by
  unfold rvm_init at h
  split at h
  · cases h
  · rename_i hd
    have hnone : s.rvms (s.rvm_id + 1) = none := by
      cases hr : s.rvms (s.rvm_id + 1) with
      | none => rfl
      | some R => have := (hs.rvms_le _ _ hr).2; omega
    simp only [hnone] at h
    cases h
    refine ⟨by simpa using hd, rfl, rfl⟩

theorem Inv_rvm_init (d : String) (s : State) (hs : Inv s) (v : Int) (s1 : State)
    (h : rvm_init d s = Outcome.ok v s1) : Inv s1 := by
  obtain ⟨hd, -, rfl⟩ := rvm_init_ok d s hs v s1 h
  have hnone : s.rvms (s.rvm_id + 1) = none := by
    cases hr : s.rvms (s.rvm_id + 1) with
    | none => rfl
    | some R => have := (hs.rvms_le _ _ hr).2; omega
  have key : ∀ id R, upd s.rvms (s.rvm_id + 1) (some (RVM.create d)) id = some R →
      (id = s.rvm_id + 1 ∧ R = RVM.create d) ∨ (id ≠ s.rvm_id + 1 ∧ s.rvms id = some R) := by
    intro id R hR
    rw [upd_apply] at hR
    split at hR
    · left; exact ⟨by assumption, by cases hR; rfl⟩
    · right; exact ⟨by assumption, hR⟩
  exact
  { fs := hs.fs
    cat :=
    { name_seg := by
        intro id R n p hR hn
        rcases key id R hR with ⟨-, rfl⟩ | ⟨-, hR⟩
        · simp [RVM.create] at hn
        · exact hs.cat.name_seg id R n p hR hn
      name_base := by
        intro id R n p seg hR hn
        rcases key id R hR with ⟨-, rfl⟩ | ⟨-, hR⟩
        · simp [RVM.create] at hn
        · exact hs.cat.name_base id R n p seg hR hn
      name_inj := by
        intro id R n p id1 R1 n1 hR hn hR1 hn1
        rcases key id R hR with ⟨-, rfl⟩ | ⟨-, hR⟩
        · simp [RVM.create] at hn
        · rcases key id1 R1 hR1 with ⟨-, rfl⟩ | ⟨-, hR1⟩
          · simp [RVM.create] at hn1
          · exact hs.cat.name_inj id R n p id1 R1 n1 hR hn hR1 hn1
      base_seg := by
        intro id R b p hR hb
        rcases key id R hR with ⟨-, rfl⟩ | ⟨-, hR⟩
        · simp [RVM.create] at hb
        · exact hs.cat.base_seg id R b p hR hb }
    live := hs.live
    trans :=
    { store := by
        intro tid t ht
        obtain ⟨id, R, hR, hall⟩ := hs.trans.store tid t ht
        refine ⟨id, R, ?_, hall⟩
        show upd s.rvms _ _ id = some R
        rw [upd_ne]; exact hR
        intro hid; rw [hid, hnone] at hR; cases hR
      acquired := hs.trans.acquired
      exclusive := hs.trans.exclusive
      held := hs.trans.held
      regions := hs.trans.regions }
    addr_pos := hs.addr_pos
    rvm_id_nonneg := by
      have := hs.rvm_id_nonneg
      show 0 ≤ s.rvm_id + 1
      omega
    trans_id_nonneg := hs.trans_id_nonneg
    mem_lt := hs.mem_lt
    segs_lt := hs.segs_lt
    size_lt := hs.size_lt
    rvms_le := by
      intro id R hR
      have h0 := hs.rvm_id_nonneg
      rcases key id R hR with ⟨rfl, -⟩ | ⟨-, hR⟩
      · show 1 ≤ s.rvm_id + 1 ∧ s.rvm_id + 1 ≤ s.rvm_id + 1
        omega
      · have := hs.rvms_le id R hR
        show 1 ≤ id ∧ id ≤ s.rvm_id + 1
        omega
    transs_le := hs.transs_le
    store_dir := by
      intro id R hR
      show upd s.rvm_dirs d true R._backing_store = true
      rcases key id R hR with ⟨-, rfl⟩ | ⟨-, hR⟩
      · simp [RVM.create]
      · rw [upd_apply]; split
        · rfl
        · exact hs.store_dir id R hR
    store_inj := by
      intro id R id1 R1 hR hR1 hb
      rcases key id R hR with ⟨rfl, rfl⟩ | ⟨hne, hR⟩
      · rcases key _ R1 hR1 with ⟨rfl, rfl⟩ | ⟨hne1, hR1⟩
        · rfl
        · have := hs.store_dir id1 R1 hR1
          rw [← hb] at this
          simp [RVM.create, hd] at this
      · rcases key _ R1 hR1 with ⟨rfl, rfl⟩ | ⟨hne1, hR1⟩
        · have := hs.store_dir id R hR
          rw [hb] at this
          simp [RVM.create, hd] at this
        · exact hs.store_inj id R id1 R1 hR hR1 hb }

theorem Inv_of_mem (s : State) (hs : Inv s) (m : Int → Option (List Byte))
    (h1 : ∀ a b, s.mem a = some b → ∃ b1, m a = some b1 ∧ b1.length = b.length)
    (h2 : ∀ a b1, m a = some b1 → ∃ b, s.mem a = some b) :
    Inv { s with mem := m } :=
  { fs := hs.fs
    cat := hs.cat
    live :=
    { buf := by
        intro p seg hp hst
        obtain ⟨b, hb, hl⟩ := hs.live.buf p seg hp hst
        obtain ⟨b1, hb1, hl1⟩ := h1 _ _ hb
        exact ⟨b1, hb1, by rw [hl1]; exact hl⟩
      file := hs.live.file
      distinct := hs.live.distinct }
    trans := hs.trans
    addr_pos := hs.addr_pos
    rvm_id_nonneg := hs.rvm_id_nonneg
    trans_id_nonneg := hs.trans_id_nonneg
    mem_lt := by
      intro a b1 hb1
      obtain ⟨b, hb⟩ := h2 a b1 hb1
      exact hs.mem_lt a b hb
    segs_lt := hs.segs_lt
    size_lt := hs.size_lt
    rvms_le := hs.rvms_le
    transs_le := hs.transs_le
    store_dir := hs.store_dir
    store_inj := hs.store_inj }

theorem mem_write_some (s : State) (base off : Int) (bytes : List Byte) (s1 : State)
    (h : mem_write s base off bytes = some s1) :
    (bytes.length = 0 ∧ s1 = s) ∨
    (bytes.length ≠ 0 ∧ ∃ buf, s.mem base = some buf ∧ 0 ≤ off ∧ off + bytes.length ≤ buf.length ∧
      s1 = { s with mem := upd s.mem base (some (blit buf off.toNat bytes)) }) := by
  unfold mem_write at h
  split at h
  · left; exact ⟨by assumption, by cases h; rfl⟩
  · right
    refine ⟨by assumption, ?_⟩
    split at h
    · cases h
    · rename_i buf hbuf
      split at h
      · rename_i hc
        cases h
        exact ⟨buf, hbuf, hc.1, hc.2, rfl⟩
      · cases h

theorem Inv_mem_write (s : State) (hs : Inv s) (base off : Int) (bytes : List Byte) (s1 : State)
    (h : mem_write s base off bytes = some s1) : Inv s1 := by
  rcases mem_write_some s base off bytes s1 h with ⟨-, rfl⟩ | ⟨-, buf, hbuf, -, -, rfl⟩
  · exact hs
  · apply Inv_of_mem s hs
    · intro a b hb
      by_cases ha : a = base
      · subst ha
        rw [hbuf] at hb; cases hb
        exact ⟨_, upd_same _ _ _, blit_length _ _ _⟩
      · exact ⟨b, by rw [upd_ne _ _ ha]; exact hb, rfl⟩
    · intro a b1 hb1
      by_cases ha : a = base
      · subst ha; exact ⟨buf, hbuf⟩
      · rw [upd_ne _ _ ha] at hb1; exact ⟨b1, hb1⟩

theorem Inv_caller_write (s : State) (hs : Inv s) (base off : Int) (bytes : List Byte)
    (s1 : State) (h : (caller_write base off bytes s).returned = some s1) : Inv s1 := by
  unfold caller_write at h
  split at h
  · simp [Outcome.returned] at h
  · rename_i s2 hw
    simp [Outcome.returned] at h
    subst h
    exact Inv_mem_write s hs base off bytes _ hw

theorem segs_find_mem (m : List (Int × Nat)) (k : Int) (v : Nat)
    (h : segs_find m k = some v) : (k, v) ∈ m := by
  induction m with
  | nil => simp [segs_find] at h
  | cons a rest ih =>
    obtain ⟨k1, v1⟩ := a
    simp only [segs_find] at h
    split at h
    · rename_i hk
      cases h; subst hk
      exact List.mem_cons_self _ _
    · exact List.mem_cons_of_mem _ (ih h)

theorem segs_find_none (m : List (Int × Nat)) (k : Int)
    (h : segs_find m k = none) (v : Nat) : (k, v) ∉ m := by
  induction m with
  | nil => simp
  | cons a rest ih =>
    obtain ⟨k1, v1⟩ := a
    simp only [segs_find] at h
    split at h
    · cases h
    · rename_i hk
      intro hmem
      rcases List.mem_cons.mp hmem with heq | hmem
      · cases heq; exact hk rfl
      · exact ih h hmem

theorem mem_read_some (s : State) (base off n : Int) (bytes : List Byte)
    (h : mem_read s base off n = some bytes) :
    (n = 0 ∧ bytes = []) ∨
    (0 < n ∧ ∃ buf, s.mem base = some buf ∧ 0 ≤ off ∧ off + n ≤ buf.length ∧
      bytes = slice buf off.toNat n.toNat) := by
  unfold mem_read at h
  split at h
  · left; exact ⟨by assumption, by cases h; rfl⟩
  · right
    split at h
    · cases h
    · rename_i buf hbuf
      split at h
      · rename_i hc
        cases h
        exact ⟨hc.2.1, buf, hbuf, hc.1, hc.2.2, rfl⟩
      · cases h

theorem mem_read_length (s : State) (base off n : Int) (bytes : List Byte) (hn : 0 ≤ n)
    (h : mem_read s base off n = some bytes) : (bytes.length : Int) = n := by
  rcases mem_read_some s base off n bytes h with ⟨h0, rfl⟩ | ⟨-, buf, -, -, -, rfl⟩
  · simp [h0]
  · simp [Int.toNat_of_nonneg hn]

theorem rvm_about_to_modify_ok (tid base off size : Int) (s s1 : State)
    (h : rvm_about_to_modify tid base off size s = Outcome.ok () s1) :
    ∃ t p seg bytes, s.transs tid = some t ∧ segs_find t._segs base = some p ∧
      s.segs p = some seg ∧ ¬ (seg.mapped_size < wrap32 (off + size)) ∧ 0 ≤ size ∧
      mem_read s seg.segbase off size = some bytes ∧
      s1 = { s with transs := upd s.transs tid (some
              { t with _regions := t._regions ++
                  [{ _seg := p, _offset := off, _size := size, _undo_log := bytes }] }) } := by
  unfold rvm_about_to_modify at h
  split at h
  · cases h
  · rename_i t ht
    unfold Transcation.modify at h
    cases hf : segs_find t._segs base with
    | none => simp [hf] at h
    | some p =>
      cases hp : s.segs p with
      | none => simp [hf, hp] at h
      | some seg =>
        simp only [hf, hp] at h
        by_cases hc : seg.mapped_size < wrap32 (off + size)
        · simp [hc] at h
        · simp only [hc, if_false] at h
          unfold Region.create at h
          by_cases hsz : size < 0
          · simp [hsz] at h
          · simp only [hsz, if_false] at h
            cases hr : mem_read s seg.segbase off size with
            | none => simp [hr] at h
            | some bytes =>
              simp only [hr] at h
              simp only [Outcome.ok.injEq, true_and] at h
              exact ⟨t, p, seg, bytes, ht, hf, hp, hc, by omega, hr, h.symm⟩

theorem Inv_rvm_about_to_modify (tid base off size : Int) (s s1 : State) (hs : Inv s)
    (hoff : isInt off)
    (h : rvm_about_to_modify tid base off size s = Outcome.ok () s1) : Inv s1 := by
  obtain ⟨t, p, seg, bytes, ht, hf, hp, hc, hsz, hr, rfl⟩ :=
    rvm_about_to_modify_ok tid base off size s s1 h
  have hmem := segs_find_mem _ _ _ hf
  have key : ∀ tid1 t1, upd s.transs tid (some
              { t with _regions := t._regions ++
                  [{ _seg := p, _offset := off, _size := size, _undo_log := bytes }] }) tid1
                = some t1 →
      ∃ t0, s.transs tid1 = some t0 ∧ t1._segs = t0._segs ∧
        (t1._regions = t0._regions ∨
          (tid1 = tid ∧ t0 = t ∧ t1._regions = t._regions ++
                  [{ _seg := p, _offset := off, _size := size, _undo_log := bytes }])) := by
    intro tid1 t1 h1
    rw [upd_apply] at h1
    split at h1
    · rename_i heq
      cases h1
      exact ⟨t, by rw [heq]; exact ht, rfl, Or.inr ⟨heq, rfl, rfl⟩⟩
    · exact ⟨t1, h1, rfl, Or.inl rfl⟩
  exact
  { fs := hs.fs
    cat := hs.cat
    live := hs.live
    trans :=
    { store := by
        intro tid1 t1 h1
        obtain ⟨t0, h0, hsegs, -⟩ := key tid1 t1 h1
        rw [hsegs]
        exact hs.trans.store tid1 t0 h0
      acquired := by
        intro tid1 t1 b q h1 hq
        obtain ⟨t0, h0, hsegs, -⟩ := key tid1 t1 h1
        rw [hsegs] at hq
        exact hs.trans.acquired tid1 t0 b q h0 hq
      exclusive := by
        intro tid1 t1 tid2 t2 b b1 q h1 h2 hq1 hq2
        obtain ⟨t0, h0, hsegs, -⟩ := key tid1 t1 h1
        obtain ⟨t0', h0', hsegs', -⟩ := key tid2 t2 h2
        rw [hsegs] at hq1
        rw [hsegs'] at hq2
        exact hs.trans.exclusive tid1 t0 tid2 t0' b b1 q h0 h0' hq1 hq2
      held := by
        intro q sg hq hst
        obtain ⟨tid1, t1, b, h1, hb⟩ := hs.trans.held q sg hq hst
        by_cases heq : tid1 = tid
        · subst heq
          rw [ht] at h1; cases h1
          exact ⟨tid1, _, b, upd_same _ _ _, hb⟩
        · exact ⟨tid1, t1, b, by show upd s.transs _ _ tid1 = _; rw [upd_ne _ _ heq]; exact h1, hb⟩
      regions := by
        intro tid1 t1 r h1 hr1
        obtain ⟨t0, h0, hsegs, hreg⟩ := key tid1 t1 h1
        rw [hsegs]
        rcases hreg with hreg | ⟨-, rfl, hreg⟩
        · rw [hreg] at hr1
          exact hs.trans.regions tid1 t0 r h0 hr1
        · rw [hreg] at hr1
          rcases List.mem_append.mp hr1 with hr1 | hr1
          · exact hs.trans.regions tid1 t0 r h0 hr1
          · simp only [List.mem_singleton] at hr1
            subst hr1
            obtain ⟨sg, hsg, hacq⟩ := hs.trans.acquired tid1 t0 base p h0 hmem
            rw [hp] at hsg; cases hsg
            have hlive : seg.st ≠ Status.UNMAPPED := by rw [hacq]; decide
            obtain ⟨b, hb, hbl⟩ := hs.live.buf p seg hp hlive
            refine ⟨⟨base, hmem⟩, hsz, mem_read_length s _ _ _ _ hsz hr, ?_, ?_⟩
            · intro hpos
              rcases mem_read_some s _ _ _ _ hr with ⟨h0, -⟩ | ⟨-, buf, -, hoff0, -, -⟩
              · simp only at hpos; omega
              · exact hoff0
            · intro sg hsg
              show off + size ≤ sg.mapped_size
              rw [hp] at hsg; cases hsg
              rcases mem_read_some s _ _ _ _ hr with ⟨h0, -⟩ | ⟨-, buf, hbuf, -, hle, -⟩
              · subst h0
                rw [Int.add_zero, wrap32_of_isInt off hoff] at hc
                omega
              · rw [hb] at hbuf; cases hbuf
                omega }
    addr_pos := hs.addr_pos
    rvm_id_nonneg := hs.rvm_id_nonneg
    trans_id_nonneg := hs.trans_id_nonneg
    mem_lt := hs.mem_lt
    segs_lt := hs.segs_lt
    size_lt := hs.size_lt
    rvms_le := hs.rvms_le
    transs_le := by
      intro tid1 t1 h1
      obtain ⟨t0, h0, -, -⟩ := key tid1 t1 h1
      exact hs.transs_le tid1 t0 h0
    store_dir := hs.store_dir
    store_inj := hs.store_inj }

theorem StatusOnly.refl (segs : Nat → Option Segment) : StatusOnly segs segs := by
  intro p
  cases h : segs p with
  | none => left; exact ⟨rfl, rfl⟩
  | some seg => right; exact ⟨seg, seg.st, rfl, rfl, Iff.rfl⟩

theorem StatusOnly.of_new {segs segs1 : Nat → Option Segment} (h : StatusOnly segs segs1)
    {p : Nat} {seg1 : Segment} (h1 : segs1 p = some seg1) :
    ∃ seg, segs p = some seg ∧ seg1 = { seg with st := seg1.st } ∧
      (seg.st = Status.UNMAPPED ↔ seg1.st = Status.UNMAPPED) := by
  rcases h p with ⟨-, h2⟩ | ⟨seg, st, h2, h3, h4⟩
  · rw [h2] at h1; cases h1
  · rw [h3] at h1; cases h1
    exact ⟨seg, h2, rfl, h4⟩

theorem StatusOnly.of_old {segs segs1 : Nat → Option Segment} (h : StatusOnly segs segs1)
    {p : Nat} {seg : Segment} (h1 : segs p = some seg) :
    ∃ st, segs1 p = some { seg with st := st } ∧
      (seg.st = Status.UNMAPPED ↔ st = Status.UNMAPPED) := by
  rcases h p with ⟨h2, -⟩ | ⟨seg0, st, h2, h3, h4⟩
  · rw [h2] at h1; cases h1
  · rw [h2] at h1; cases h1
    exact ⟨st, h3, h4⟩

theorem CatInv_of_status (segs segs1 : Nat → Option Segment) (rvms : Int → Option RVM)
    (hc : CatInv segs rvms) (h : StatusOnly segs segs1) : CatInv segs1 rvms :=
  { name_seg := by
      intro id R n p hR hn
      obtain ⟨seg, hseg, hpath⟩ := hc.name_seg id R n p hR hn
      obtain ⟨st, h1, -⟩ := h.of_old hseg
      exact ⟨_, h1, hpath⟩
    name_base := by
      intro id R n p seg1 hR hn hseg1 hst
      obtain ⟨seg, hseg, heq, hiff⟩ := h.of_new hseg1
      have := hc.name_base id R n p seg hR hn hseg (fun hu => hst (hiff.mp hu))
      rw [heq]; exact this
    name_inj := hc.name_inj
    base_seg := by
      intro id R b p hR hb
      obtain ⟨seg, n, hseg, hbase, hst, hn⟩ := hc.base_seg id R b p hR hb
      obtain ⟨st, h1, hiff⟩ := h.of_old hseg
      exact ⟨_, n, h1, hbase, fun hu => hst (hiff.mpr hu), hn⟩ }

theorem LiveInv_of_status (segs segs1 : Nat → Option Segment) (mem : Int → Option (List Byte))
    (fs : FS) (hl : LiveInv segs mem fs) (h : StatusOnly segs segs1) : LiveInv segs1 mem fs :=
  { buf := by
      intro p seg1 hseg1 hst
      obtain ⟨seg, hseg, heq, hiff⟩ := h.of_new hseg1
      have := hl.buf p seg hseg (fun hu => hst (hiff.mp hu))
      rw [heq]; exact this
    file := by
      intro p seg1 hseg1 hst
      obtain ⟨seg, hseg, heq, hiff⟩ := h.of_new hseg1
      have := hl.file p seg hseg (fun hu => hst (hiff.mp hu))
      rw [heq]; exact this
    distinct := by
      intro p q seg1 seg2 h1 h2 hst1 hst2 hpq
      obtain ⟨sg1, hsg1, heq1, hiff1⟩ := h.of_new h1
      obtain ⟨sg2, hsg2, heq2, hiff2⟩ := h.of_new h2
      have := hl.distinct p q sg1 sg2 hsg1 hsg2 (fun hu => hst1 (hiff1.mp hu))
        (fun hu => hst2 (hiff2.mp hu)) hpq
      rw [heq1, heq2]; exact this }

theorem Inv_of_status (s : State) (hs : Inv s) (segs1 : Nat → Option Segment)
    (transs1 : Int → Option Transcation) (tid1 : Int)
    (h : StatusOnly s.segs segs1) (ht : TransInv transs1 segs1 s.rvms)
    (hle : ∀ tid t, transs1 tid = some t → 1 ≤ tid ∧ tid ≤ tid1) (h0 : 0 ≤ tid1) :
    Inv { s with segs := segs1, transs := transs1, trans_id := tid1 } :=
  { fs := hs.fs
    cat := CatInv_of_status _ _ _ hs.cat h
    live := LiveInv_of_status _ _ _ _ hs.live h
    trans := ht
    addr_pos := hs.addr_pos
    rvm_id_nonneg := hs.rvm_id_nonneg
    trans_id_nonneg := h0
    mem_lt := hs.mem_lt
    segs_lt := by
      intro p seg1 hseg1
      obtain ⟨seg, hseg, -, -⟩ := h.of_new hseg1
      exact hs.segs_lt p seg hseg
    size_lt := by
      intro p seg1 hseg1 hst
      obtain ⟨seg, hseg, heq, hiff⟩ := h.of_new hseg1
      have := hs.size_lt p seg hseg (fun hu => hst (hiff.mp hu))
      rw [heq]; exact this
    rvms_le := hs.rvms_le
    transs_le := hle
    store_dir := hs.store_dir
    store_inj := hs.store_inj }

theorem segs_set_mem_self (m : List (Int × Nat)) (k : Int) (v : Nat) :
    (k, v) ∈ segs_set m k v := by
  induction m with
  | nil => simp [segs_set]
  | cons a rest ih =>
    obtain ⟨k1, v1⟩ := a
    simp only [segs_set]
    split
    · rename_i hk; subst hk; exact List.mem_cons_self _ _
    · exact List.mem_cons_of_mem _ ih

theorem segs_set_mem_of_mem (m : List (Int × Nat)) (k : Int) (v : Nat) (b : Int) (p : Nat)
    (h : (b, p) ∈ m) (hk : b = k → p = v) : (b, p) ∈ segs_set m k v := by
  induction m with
  | nil => simp at h
  | cons a rest ih =>
    obtain ⟨k1, v1⟩ := a
    simp only [segs_set]
    rcases List.mem_cons.mp h with heq | hmem
    · cases heq
      split
      · rename_i hbk
        rw [hk hbk]; exact List.mem_cons_self _ _
      · exact List.mem_cons_self _ _
    · split
      · exact List.mem_cons_of_mem _ hmem
      · exact List.mem_cons_of_mem _ (ih hmem)

theorem segs_set_mem (m : List (Int × Nat)) (k : Int) (v : Nat) (b : Int) (p : Nat)
    (h : (b, p) ∈ segs_set m k v) : (b = k ∧ p = v) ∨ (b, p) ∈ m := by
  induction m with
  | nil =>
    simp only [segs_set, List.mem_singleton, Prod.mk.injEq] at h
    exact Or.inl h
  | cons a rest ih =>
    obtain ⟨k1, v1⟩ := a
    simp only [segs_set] at h
    split at h
    · rename_i hk
      rcases List.mem_cons.mp h with heq | hmem
      · cases heq; exact Or.inl ⟨hk, rfl⟩
      · exact Or.inr (List.mem_cons_of_mem _ hmem)
    · rcases List.mem_cons.mp h with heq | hmem
      · cases heq; exact Or.inr (List.mem_cons_self _ _)
      · rcases ih hmem with h1 | h1
        · exact Or.inl h1
        · exact Or.inr (List.mem_cons_of_mem _ h1)

theorem begin_check_true (R : RVM) (s : State) :
    ∀ (n : Nat) (l : List Int), begin_check R s n l = some true →
      n ≤ l.length ∧ ∀ b ∈ l.take n, ∃ p seg, R._base_seg_map b = some p ∧
        s.segs p = some seg ∧ seg.st = Status.MAPPED := by
  intro n
  induction n with
  | zero => intro l _; simp
  | succ n ih =>
    intro l h
    cases l with
    | nil => simp [begin_check] at h
    | cons b rest =>
      simp only [begin_check, RVM.find_seg_by_base] at h
      cases hb : R._base_seg_map b with
      | none => simp [hb] at h
      | some p =>
        cases hp : s.segs p with
        | none => simp [hb, hp] at h
        | some seg =>
          simp only [hb, hp] at h
          by_cases hst : seg.st = Status.MAPPED
          · simp only [hst, ne_eq, not_true_eq_false, if_false] at h
            obtain ⟨h1, h2⟩ := ih rest h
            refine ⟨by simp; omega, ?_⟩
            intro b1 hb1
            simp only [List.take_succ_cons, List.mem_cons] at hb1
            rcases hb1 with rfl | hb1
            · exact ⟨p, seg, hb, hp, hst⟩
            · exact h2 b1 hb1
          · simp [hst] at h

theorem begin_check_false (R : RVM) (s : State)
    (hbase : ∀ b p, R._base_seg_map b = some p → ∃ seg, s.segs p = some seg) :
    ∀ (n : Nat) (l : List Int), n ≤ l.length →
      (∃ b ∈ l.take n, R._base_seg_map b = none ∨
        ∃ p seg, R._base_seg_map b = some p ∧ s.segs p = some seg ∧ seg.st ≠ Status.MAPPED) →
      begin_check R s n l = some false := by
  intro n
  induction n with
  | zero => intro l _ h; simp at h
  | succ n ih =>
    intro l hn h
    cases l with
    | nil => simp at hn
    | cons b rest =>
      simp only [begin_check, RVM.find_seg_by_base]
      cases hb : R._base_seg_map b with
      | none => rfl
      | some p =>
        obtain ⟨seg, hp⟩ := hbase b p hb
        simp only [hp]
        by_cases hst : seg.st = Status.MAPPED
        · simp only [hst, ne_eq, not_true_eq_false, if_false]
          apply ih rest (by simpa using hn)
          obtain ⟨b1, hb1, hbad⟩ := h
          simp only [List.take_succ_cons, List.mem_cons] at hb1
          rcases hb1 with rfl | hb1
          · rcases hbad with hnone | ⟨p1, seg1, h1, h2, h3⟩
            · rw [hb] at hnone; cases hnone
            · rw [hb] at h1; cases h1
              rw [hp] at h2; cases h2
              exact absurd hst h3
          · exact ⟨b1, hb1, hbad⟩
        · simp [hst]

theorem begin_acquire_spec (R : RVM) :
    ∀ (n : Nat) (l : List Int) (segs : Nat → Option Segment) (m : List (Int × Nat))
      (segs1 : Nat → Option Segment) (m1 : List (Int × Nat)),
      (∀ b p, R._base_seg_map b = some p → ∃ seg, segs p = some seg ∧ seg.segbase = b) →
      begin_acquire R n l segs m = some (segs1, m1) →
      (∀ p, (∃ b ∈ l.take n, R._base_seg_map b = some p) →
        ∃ seg, segs p = some seg ∧ segs1 p = some { seg with st := Status.ACQUIRED }) ∧
      (∀ p, (¬ ∃ b ∈ l.take n, R._base_seg_map b = some p) → segs1 p = segs p) ∧
      (∀ b p, (b, p) ∈ m1 → (b, p) ∈ m ∨ (b ∈ l.take n ∧ R._base_seg_map b = some p)) ∧
      (∀ b p, (b, p) ∈ m → R._base_seg_map b = some p → (b, p) ∈ m1) ∧
      (∀ b p, b ∈ l.take n → R._base_seg_map b = some p → (b, p) ∈ m1) := by
  intro n
  induction n with
  | zero =>
    intro l segs m segs1 m1 _ h
    simp only [begin_acquire, Option.some.injEq, Prod.mk.injEq] at h
    obtain ⟨rfl, rfl⟩ := h
    exact ⟨by simp, by simp, fun b p h => Or.inl h, fun b p h _ => h, by simp⟩
  | succ n ih =>
    intro l segs m segs1 m1 hbase h
    cases l with
    | nil => simp [begin_acquire] at h
    | cons b0 rest =>
      simp only [begin_acquire, RVM.find_seg_by_base] at h
      cases hb : R._base_seg_map b0 with
      | none => simp [hb] at h
      | some p0 =>
        cases hp : segs p0 with
        | none => simp [hb, hp] at h
        | some seg0 =>
          simp only [hb, hp] at h
          obtain ⟨sg, hsg, hsb⟩ := hbase b0 p0 hb
          rw [hp] at hsg; cases hsg
          have hbase1 : ∀ b p, R._base_seg_map b = some p →
              ∃ seg, upd segs p0 (some { seg0 with st := Status.ACQUIRED }) p = some seg ∧
                seg.segbase = b := by
            intro b p hbp
            by_cases hpp : p = p0
            · subst hpp
              obtain ⟨sg, hsg, hsb1⟩ := hbase b p hbp
              rw [hp] at hsg; cases hsg
              exact ⟨_, upd_same _ _ _, hsb1⟩
            · rw [upd_ne _ _ hpp]; exact hbase b p hbp
          obtain ⟨i1, i2, i3, i4, i5⟩ := ih rest _ _ segs1 m1 hbase1 h
          rw [hsb] at i3 i4
          refine ⟨?_, ?_, ?_, ?_, ?_⟩
          · intro p hex
            by_cases hpp : p = p0
            · subst hpp
              refine ⟨seg0, hp, ?_⟩
              by_cases hrest : ∃ b ∈ rest.take n, R._base_seg_map b = some p
              · obtain ⟨sg, hsg, hsg1⟩ := i1 p hrest
                rw [upd_same] at hsg; cases hsg
                exact hsg1
              · rw [i2 p hrest, upd_same]
            · have hrest : ∃ b ∈ rest.take n, R._base_seg_map b = some p := by
                obtain ⟨b, hbm, hbp⟩ := hex
                simp only [List.take_succ_cons, List.mem_cons] at hbm
                rcases hbm with rfl | hbm
                · rw [hb] at hbp; cases hbp; exact absurd rfl hpp
                · exact ⟨b, hbm, hbp⟩
              obtain ⟨sg, hsg, hsg1⟩ := i1 p hrest
              rw [upd_ne _ _ hpp] at hsg
              exact ⟨sg, hsg, hsg1⟩
          · intro p hnex
            have hpp : p ≠ p0 := by
              intro hpp; subst hpp
              exact hnex ⟨b0, by simp, hb⟩
            have hrest : ¬ ∃ b ∈ rest.take n, R._base_seg_map b = some p := by
              rintro ⟨b, hbm, hbp⟩
              exact hnex ⟨b, by simp [List.take_succ_cons, hbm], hbp⟩
            rw [i2 p hrest, upd_ne _ _ hpp]
          · intro b p hbp
            rcases i3 b p hbp with h1 | ⟨h1, h2⟩
            · rcases segs_set_mem _ _ _ _ _ h1 with ⟨rfl, rfl⟩ | h1
              · exact Or.inr ⟨by simp, hb⟩
              · exact Or.inl h1
            · exact Or.inr ⟨by simp [List.take_succ_cons, h1], h2⟩
          · intro b p hbm hbp
            apply i4 b p _ hbp
            apply segs_set_mem_of_mem _ _ _ _ _ hbm
            intro hbb; subst hbb
            rw [hb] at hbp; cases hbp; rfl
          · intro b p hbm hbp
            simp only [List.take_succ_cons, List.mem_cons] at hbm
            rcases hbm with rfl | hbm
            · rw [hb] at hbp; cases hbp
              exact i4 _ _ (segs_set_mem_self _ _ _) hb
            · exact i5 b p hbm hbp

theorem begin_acquire_some (R : RVM) :
    ∀ (n : Nat) (l : List Int) (segs : Nat → Option Segment) (m : List (Int × Nat)),
      n ≤ l.length →
      (∀ b ∈ l.take n, ∃ p seg, R._base_seg_map b = some p ∧ segs p = some seg) →
      ∃ r, begin_acquire R n l segs m = some r := by
  intro n
  induction n with
  | zero => intro l segs m _ _; exact ⟨_, rfl⟩
  | succ n ih =>
    intro l segs m hn h
    cases l with
    | nil => simp at hn
    | cons b0 rest =>
      obtain ⟨p0, seg0, hb, hp⟩ := h b0 (by simp)
      simp only [begin_acquire, RVM.find_seg_by_base, hb, hp]
      apply ih rest _ _ (by simpa using hn)
      intro b hbm
      obtain ⟨p, seg, hbp, hsp⟩ := h b (by simp [List.take_succ_cons, hbm])
      by_cases hpp : p = p0
      · subst hpp; exact ⟨p, _, hbp, upd_same _ _ _⟩
      · exact ⟨p, seg, hbp, by rw [upd_ne _ _ hpp]; exact hsp⟩

theorem rvm_begin_trans_ok (rvm numsegs : Int) (l : List Int) (s : State) (v : Int) (s1 : State)
    (hs : Inv s) (h : rvm_begin_trans rvm numsegs l s = Outcome.ok v s1) :
    (v = -1 ∧ s1 = s) ∨
    (∃ R segs1 m, s.rvms rvm = some R ∧ begin_check R s numsegs.toNat l = some true ∧
      v = s.trans_id + 1 ∧ s.transs (s.trans_id + 1) = none ∧
      begin_acquire R numsegs.toNat l s.segs [] = some (segs1, m) ∧
      s1 = { s with trans_id := s.trans_id + 1, segs := segs1,
                    transs := upd s.transs (s.trans_id + 1)
                      (some { _regions := [], _segs := m }) }) := by
  have hnone : s.transs (s.trans_id + 1) = none := by
    cases hr : s.transs (s.trans_id + 1) with
    | none => rfl
    | some t => have := (hs.transs_le _ _ hr).2; omega
  unfold rvm_begin_trans at h
  cases hR : s.rvms rvm with
  | none => simp [hR] at h
  | some R =>
    simp only [hR] at h
    cases hc : begin_check R s numsegs.toNat l with
    | none => simp [hc] at h
    | some b =>
      cases b with
      | false =>
        simp only [hc, Outcome.ok.injEq] at h
        exact Or.inl ⟨h.1.symm, h.2.symm⟩
      | true =>
        simp only [hc, hnone] at h
        cases ha : begin_acquire R numsegs.toNat l s.segs [] with
        | none => simp [ha] at h
        | some r =>
          obtain ⟨segs1, m⟩ := r
          simp only [ha, Outcome.ok.injEq] at h
          exact Or.inr ⟨R, segs1, m, rfl, hc, h.1.symm, hnone, ha, h.2.symm⟩

theorem begin_StatusOnly (R : RVM) (s : State) (n : Nat) (l : List Int)
    (segs1 : Nat → Option Segment)
    (h1 : ∀ p, (∃ b ∈ l.take n, R._base_seg_map b = some p) →
        ∃ seg, s.segs p = some seg ∧ segs1 p = some { seg with st := Status.ACQUIRED })
    (h2 : ∀ p, (¬ ∃ b ∈ l.take n, R._base_seg_map b = some p) → segs1 p = s.segs p)
    (hc : ∀ b ∈ l.take n, ∃ p seg, R._base_seg_map b = some p ∧
        s.segs p = some seg ∧ seg.st = Status.MAPPED) :
    StatusOnly s.segs segs1 := by
  intro p
  by_cases hex : ∃ b ∈ l.take n, R._base_seg_map b = some p
  · obtain ⟨seg, hseg, hseg1⟩ := h1 p hex
    obtain ⟨b, hb, hbp⟩ := hex
    obtain ⟨p1, sg, hbp1, hsg, hst⟩ := hc b hb
    rw [hbp] at hbp1; cases hbp1
    rw [hseg] at hsg; cases hsg
    right
    refine ⟨seg, Status.ACQUIRED, hseg, hseg1, ?_⟩
    rw [hst]; decide
  · rw [h2 p hex]
    exact StatusOnly.refl s.segs p

theorem Inv_rvm_begin_trans (rvm numsegs : Int) (l : List Int) (s : State) (v : Int)
    (s1 : State) (hs : Inv s) (h : rvm_begin_trans rvm numsegs l s = Outcome.ok v s1) :
    Inv s1 := by
  rcases rvm_begin_trans_ok rvm numsegs l s v s1 hs h with ⟨-, rfl⟩ |
    ⟨R, segs1, m, hR, hc, -, hnone, ha, rfl⟩
  · exact hs
  · obtain ⟨-, hchk⟩ := begin_check_true R s _ _ hc
    have hbase : ∀ b p, R._base_seg_map b = some p →
        ∃ seg, s.segs p = some seg ∧ seg.segbase = b := by
      intro b p hbp
      obtain ⟨seg, n, h1, h2, -, -⟩ := hs.cat.base_seg rvm R b p hR hbp
      exact ⟨seg, h1, h2⟩
    obtain ⟨i1, i2, i3, i4, i5⟩ := begin_acquire_spec R _ _ _ _ _ _ hbase ha
    have hso := begin_StatusOnly R s _ _ segs1 i1 i2 hchk
    have key : ∀ tid t, upd s.transs (s.trans_id + 1)
        (some { _regions := [], _segs := m }) tid = some t →
        (tid = s.trans_id + 1 ∧ t = { _regions := [], _segs := m }) ∨
        (tid ≠ s.trans_id + 1 ∧ s.transs tid = some t) := by
      intro tid t ht
      rw [upd_apply] at ht
      split at ht
      · left; exact ⟨by assumption, by cases ht; rfl⟩
      · right; exact ⟨by assumption, ht⟩
    have hlisted : ∀ b p, (b, p) ∈ m → ∃ seg, s.segs p = some seg ∧ seg.st = Status.MAPPED ∧
        segs1 p = some { seg with st := Status.ACQUIRED } ∧ R._base_seg_map b = some p := by
      intro b p hbp
      rcases i3 b p hbp with h1 | ⟨h1, h2⟩
      · simp at h1
      · obtain ⟨p1, sg, hbp1, hsg, hst⟩ := hchk b h1
        rw [h2] at hbp1; cases hbp1
        obtain ⟨seg, hseg, hseg1⟩ := i1 p ⟨b, h1, h2⟩
        rw [hsg] at hseg; cases hseg
        exact ⟨sg, hsg, hst, hseg1, h2⟩
    have hkeep : ∀ p seg, s.segs p = some seg → seg.st = Status.ACQUIRED →
        segs1 p = some seg := by
      intro p seg hseg hst
      by_cases hex : ∃ b ∈ l.take numsegs.toNat, R._base_seg_map b = some p
      · obtain ⟨b, hb, hbp⟩ := hex
        obtain ⟨p1, sg, hbp1, hsg, hst1⟩ := hchk b hb
        rw [hbp] at hbp1; cases hbp1
        rw [hseg] at hsg; cases hsg
        rw [hst] at hst1; cases hst1
      · rw [i2 p hex]; exact hseg
    apply Inv_of_status s hs segs1 _ _ hso
    · exact
      { store := by
          intro tid t ht
          rcases key tid t ht with ⟨-, rfl⟩ | ⟨-, ht⟩
          · exact ⟨rvm, R, hR, fun b p hbp => (hlisted b p hbp).choose_spec.2.2.2⟩
          · exact hs.trans.store tid t ht
        acquired := by
          intro tid t b p ht hbp
          rcases key tid t ht with ⟨-, rfl⟩ | ⟨-, ht⟩
          · obtain ⟨seg, -, -, h1, -⟩ := hlisted b p hbp
            exact ⟨_, h1, rfl⟩
          · obtain ⟨seg, hseg, hst⟩ := hs.trans.acquired tid t b p ht hbp
            exact ⟨seg, hkeep p seg hseg hst, hst⟩
        exclusive := by
          intro tid t tid2 t2 b b2 p ht ht2 hbp hbp2
          rcases key tid t ht with ⟨rfl, rfl⟩ | ⟨-, ht⟩
          · rcases key tid2 t2 ht2 with ⟨rfl, rfl⟩ | ⟨-, ht2⟩
            · rfl
            · obtain ⟨seg, hseg, hst, -, -⟩ := hlisted b p hbp
              obtain ⟨seg2, hseg2, hst2⟩ := hs.trans.acquired tid2 t2 b2 p ht2 hbp2
              rw [hseg] at hseg2; cases hseg2
              rw [hst] at hst2; cases hst2
          · rcases key tid2 t2 ht2 with ⟨rfl, rfl⟩ | ⟨-, ht2⟩
            · obtain ⟨seg, hseg, hst, -, -⟩ := hlisted b2 p hbp2
              obtain ⟨seg2, hseg2, hst2⟩ := hs.trans.acquired tid t b p ht hbp
              rw [hseg] at hseg2; cases hseg2
              rw [hst] at hst2; cases hst2
            · exact hs.trans.exclusive tid t tid2 t2 b b2 p ht ht2 hbp hbp2
        held := by
          intro p seg1 hseg1 hst1
          by_cases hex : ∃ b ∈ l.take numsegs.toNat, R._base_seg_map b = some p
          · obtain ⟨b, hb, hbp⟩ := hex
            exact ⟨s.trans_id + 1, _, b, upd_same _ _ _, i5 b p hb hbp⟩
          · rw [i2 p hex] at hseg1
            obtain ⟨tid, t, b, ht, hbp⟩ := hs.trans.held p seg1 hseg1 hst1
            refine ⟨tid, t, b, ?_, hbp⟩
            rw [upd_ne]; exact ht
            intro heq; rw [heq, hnone] at ht; cases ht
        regions := by
          intro tid t r ht hr
          rcases key tid t ht with ⟨-, rfl⟩ | ⟨-, ht⟩
          · simp at hr
          · obtain ⟨h1, h2, h3, h4, h5⟩ := hs.trans.regions tid t r ht hr
            refine ⟨h1, h2, h3, h4, ?_⟩
            intro seg1 hseg1
            obtain ⟨seg, hseg, heq, -⟩ := hso.of_new hseg1
            have := h5 seg hseg
            rw [heq]; exact this }
    · intro tid t ht
      have h0 := hs.trans_id_nonneg
      rcases key tid t ht with ⟨rfl, -⟩ | ⟨-, ht⟩
      · omega
      · have := hs.transs_le tid t ht; omega
    · have h0 := hs.trans_id_nonneg; omega

theorem release_hold_segs_spec :
    ∀ (l : List (Int × Nat)) (segs segs1 : Nat → Option Segment),
      release_hold_segs l segs = some segs1 →
      (∀ p, (∃ b, (b, p) ∈ l) →
        ∃ seg, segs p = some seg ∧ segs1 p = some { seg with st := Status.MAPPED }) ∧
      (∀ p, (¬ ∃ b, (b, p) ∈ l) → segs1 p = segs p) := by
  intro l
  induction l with
  | nil =>
    intro segs segs1 h
    simp only [release_hold_segs, Option.some.injEq] at h
    subst h
    simp
  | cons a rest ih =>
    intro segs segs1 h
    obtain ⟨b0, p0⟩ := a
    simp only [release_hold_segs] at h
    cases hp : segs p0 with
    | none => simp [hp] at h
    | some seg0 =>
      simp only [hp] at h
      obtain ⟨i1, i2⟩ := ih _ _ h
      refine ⟨?_, ?_⟩
      · intro p hex
        by_cases hpp : p = p0
        · subst hpp
          refine ⟨seg0, hp, ?_⟩
          by_cases hrest : ∃ b, (b, p) ∈ rest
          · obtain ⟨sg, hsg, hsg1⟩ := i1 p hrest
            rw [upd_same] at hsg; cases hsg
            exact hsg1
          · rw [i2 p hrest, upd_same]
        · have hrest : ∃ b, (b, p) ∈ rest := by
            obtain ⟨b, hb⟩ := hex
            rcases List.mem_cons.mp hb with heq | hb
            · cases heq; exact absurd rfl hpp
            · exact ⟨b, hb⟩
          obtain ⟨sg, hsg, hsg1⟩ := i1 p hrest
          rw [upd_ne _ _ hpp] at hsg
          exact ⟨sg, hsg, hsg1⟩
      · intro p hnex
        have hpp : p ≠ p0 := by
          intro hpp; subst hpp
          exact hnex ⟨b0, List.mem_cons_self _ _⟩
        have hrest : ¬ ∃ b, (b, p) ∈ rest := by
          rintro ⟨b, hb⟩
          exact hnex ⟨b, List.mem_cons_of_mem _ hb⟩
        rw [i2 p hrest, upd_ne _ _ hpp]

theorem release_hold_segs_some :
    ∀ (l : List (Int × Nat)) (segs : Nat → Option Segment),
      (∀ b p, (b, p) ∈ l → ∃ seg, segs p = some seg) →
      ∃ segs1, release_hold_segs l segs = some segs1 := by
  intro l
  induction l with
  | nil => intro segs _; exact ⟨segs, rfl⟩
  | cons a rest ih =>
    intro segs h
    obtain ⟨b0, p0⟩ := a
    obtain ⟨seg0, hp⟩ := h b0 p0 (List.mem_cons_self _ _)
    simp only [release_hold_segs, hp]
    apply ih
    intro b p hbp
    obtain ⟨seg, hseg⟩ := h b p (List.mem_cons_of_mem _ hbp)
    by_cases hpp : p = p0
    · subst hpp; exact ⟨_, upd_same _ _ _⟩
    · exact ⟨seg, by rw [upd_ne _ _ hpp]; exact hseg⟩

theorem finish_trans_ok (tid : Int) (t : Transcation) (s s1 : State)
    (h : finish_trans tid t s = Outcome.ok () s1) :
    ∃ segs1, release_hold_segs t._segs s.segs = some segs1 ∧
      s1 = { s with segs := segs1, transs := upd s.transs tid none } := by
  unfold finish_trans at h
  cases hr : release_hold_segs t._segs s.segs with
  | none => simp [hr] at h
  | some segs1 =>
    simp only [hr, Outcome.ok.injEq, true_and] at h
    exact ⟨segs1, rfl, h.symm⟩

theorem finish_trans_some (tid : Int) (t : Transcation) (s : State) (hs : Inv s)
    (ht : s.transs tid = some t) : ∃ s1, finish_trans tid t s = Outcome.ok () s1 := by
  have : ∃ segs1, release_hold_segs t._segs s.segs = some segs1 := by
    apply release_hold_segs_some
    intro b p hbp
    obtain ⟨seg, hseg, -⟩ := hs.trans.acquired tid t b p ht hbp
    exact ⟨seg, hseg⟩
  obtain ⟨segs1, h1⟩ := this
  refine ⟨{ s with segs := segs1, transs := upd s.transs tid none }, ?_⟩
  simp only [finish_trans, h1]

theorem Inv_finish_trans (tid : Int) (t : Transcation) (s s1 : State) (hs : Inv s)
    (ht : s.transs tid = some t) (h : finish_trans tid t s = Outcome.ok () s1) : Inv s1 := by
  obtain ⟨segs1, hr, rfl⟩ := finish_trans_ok tid t s s1 h
  obtain ⟨i1, i2⟩ := release_hold_segs_spec _ _ _ hr
  have hso : StatusOnly s.segs segs1 := by
    intro p
    by_cases hex : ∃ b, (b, p) ∈ t._segs
    · obtain ⟨seg, hseg, hseg1⟩ := i1 p hex
      obtain ⟨b, hb⟩ := hex
      obtain ⟨sg, hsg, hst⟩ := hs.trans.acquired tid t b p ht hb
      rw [hseg] at hsg; cases hsg
      right
      refine ⟨seg, Status.MAPPED, hseg, hseg1, ?_⟩
      rw [hst]; decide
    · rw [i2 p hex]
      exact StatusOnly.refl s.segs p
  have key : ∀ tid1 t1, upd s.transs tid none tid1 = some t1 →
      tid1 ≠ tid ∧ s.transs tid1 = some t1 := by
    intro tid1 t1 h1
    rw [upd_apply] at h1
    split at h1
    · cases h1
    · exact ⟨by assumption, h1⟩
  have hother : ∀ tid1 t1 b p, tid1 ≠ tid → s.transs tid1 = some t1 → (b, p) ∈ t1._segs →
      segs1 p = s.segs p := by
    intro tid1 t1 b p hne h1 hbp
    apply i2
    rintro ⟨b2, hb2⟩
    exact hne (hs.trans.exclusive tid1 t1 tid t b b2 p h1 ht hbp hb2)
  apply Inv_of_status s hs segs1 _ s.trans_id hso
  · exact
    { store := by
        intro tid1 t1 h1
        exact hs.trans.store tid1 t1 (key tid1 t1 h1).2
      acquired := by
        intro tid1 t1 b p h1 hbp
        obtain ⟨hne, h1⟩ := key tid1 t1 h1
        rw [hother tid1 t1 b p hne h1 hbp]
        exact hs.trans.acquired tid1 t1 b p h1 hbp
      exclusive := by
        intro tid1 t1 tid2 t2 b b2 p h1 h2 hbp hbp2
        exact hs.trans.exclusive tid1 t1 tid2 t2 b b2 p (key _ _ h1).2 (key _ _ h2).2 hbp hbp2
      held := by
        intro p seg1 hseg1 hst1
        have hnex : ¬ ∃ b, (b, p) ∈ t._segs := by
          intro hex
          obtain ⟨seg, -, hseg1'⟩ := i1 p hex
          rw [hseg1] at hseg1'; cases hseg1'
          cases hst1
        rw [i2 p hnex] at hseg1
        obtain ⟨tid1, t1, b, h1, hbp⟩ := hs.trans.held p seg1 hseg1 hst1
        have hne : tid1 ≠ tid := by
          intro heq; subst heq
          rw [ht] at h1; cases h1
          exact hnex ⟨b, hbp⟩
        exact ⟨tid1, t1, b, by rw [upd_ne _ _ hne]; exact h1, hbp⟩
      regions := by
        intro tid1 t1 r h1 hr1
        obtain ⟨hne, h1⟩ := key tid1 t1 h1
        obtain ⟨h1', h2, h3, h4, h5⟩ := hs.trans.regions tid1 t1 r h1 hr1
        refine ⟨h1', h2, h3, h4, ?_⟩
        intro seg1 hseg1
        obtain ⟨seg, hseg, heq, -⟩ := hso.of_new hseg1
        have := h5 seg hseg
        rw [heq]; exact this }
  · intro tid1 t1 h1
    exact hs.transs_le tid1 t1 (key tid1 t1 h1).2
  · exact hs.trans_id_nonneg

theorem abort_regions_frame :
    ∀ (rs : List Region) (s s1 : State), abort_regions rs s = Outcome.ok () s1 →
      s1 = { s with mem := s1.mem } := by
  intro rs
  induction rs with
  | nil =>
    intro s s1 h
    simp only [abort_regions, Outcome.ok.injEq, true_and] at h
    subst h; rfl
  | cons r rest ih =>
    intro s s1 h
    simp only [abort_regions] at h
    cases hp : s.segs r._seg with
    | none => simp [hp] at h
    | some seg =>
      simp only [hp] at h
      by_cases hsz : r._size ≠ (r._undo_log.length : Int)
      · simp [hsz] at h
      · simp only [hsz, if_false] at h
        cases hw : mem_write s seg.segbase r._offset r._undo_log with
        | none => simp [hw] at h
        | some s2 =>
          simp only [hw] at h
          have h2 := ih s2 s1 h
          rcases mem_write_some _ _ _ _ _ hw with ⟨-, rfl⟩ | ⟨-, buf, -, -, -, rfl⟩
          · exact h2
          · rw [h2]

theorem Inv_abort_regions :
    ∀ (rs : List Region) (s s1 : State), Inv s → abort_regions rs s = Outcome.ok () s1 →
      Inv s1 := by
  intro rs
  induction rs with
  | nil =>
    intro s s1 hs h
    simp only [abort_regions, Outcome.ok.injEq, true_and] at h
    subst h; exact hs
  | cons r rest ih =>
    intro s s1 hs h
    simp only [abort_regions] at h
    cases hp : s.segs r._seg with
    | none => simp [hp] at h
    | some seg =>
      simp only [hp] at h
      by_cases hsz : r._size ≠ (r._undo_log.length : Int)
      · simp [hsz] at h
      · simp only [hsz, if_false] at h
        cases hw : mem_write s seg.segbase r._offset r._undo_log with
        | none => simp [hw] at h
        | some s2 =>
          simp only [hw] at h
          exact ih s2 s1 (Inv_mem_write s hs _ _ _ s2 hw) h

theorem abort_regions_some (tid : Int) (t : Transcation) :
    ∀ (rs : List Region) (s : State), Inv s → s.transs tid = some t →
      (∀ r ∈ rs, r ∈ t._regions) → ∃ s1, abort_regions rs s = Outcome.ok () s1 := by
  intro rs
  induction rs with
  | nil => intro s _ _ _; exact ⟨s, rfl⟩
  | cons r rest ih =>
    intro s hs ht hsub
    obtain ⟨⟨b, hb⟩, h2, h3, h4, h5⟩ := hs.trans.regions tid t r ht (hsub r (List.mem_cons_self _ _))
    obtain ⟨seg, hseg, hst⟩ := hs.trans.acquired tid t b _ ht hb
    have hlive : seg.st ≠ Status.UNMAPPED := by rw [hst]; decide
    obtain ⟨buf, hbuf, hlen⟩ := hs.live.buf _ seg hseg hlive
    have h5' := h5 seg hseg
    have hw : ∃ s2, mem_write s seg.segbase r._offset r._undo_log = some s2 := by
      unfold mem_write
      by_cases h0 : r._undo_log.length = 0
      · simp [h0]
      · have hpos : 0 < r._size := by omega
        have := h4 hpos
        have hc : 0 ≤ r._offset ∧ r._offset + (r._undo_log.length : Int) ≤ (buf.length : Int) := by
          omega
        simp only [h0, if_false, hbuf, hc, and_self, if_true]
        exact ⟨_, rfl⟩
    obtain ⟨s2, hw⟩ := hw
    have hs2 := Inv_mem_write s hs _ _ _ s2 hw
    have ht2 : s2.transs tid = some t := by
      rcases mem_write_some _ _ _ _ _ hw with ⟨-, rfl⟩ | ⟨-, _, -, -, -, rfl⟩
      · exact ht
      · exact ht
    obtain ⟨s1, h1⟩ := ih s2 hs2 ht2 (fun r1 hr1 => hsub r1 (List.mem_cons_of_mem _ hr1))
    refine ⟨s1, ?_⟩
    simp only [abort_regions, hseg]
    have hsz : ¬ (r._size ≠ (r._undo_log.length : Int)) := by omega
    simp only [hsz, if_false, hw]
    exact h1

theorem rvm_abort_trans_ok (tid : Int) (s s1 : State)
    (h : rvm_abort_trans tid s = Outcome.ok () s1) :
    ∃ t s2, s.transs tid = some t ∧ abort_regions t._regions s = Outcome.ok () s2 ∧
      finish_trans tid t s2 = Outcome.ok () s1 := by
  unfold rvm_abort_trans at h
  cases ht : s.transs tid with
  | none => simp [ht] at h
  | some t =>
    simp only [ht] at h
    cases ha : abort_regions t._regions s with
    | ok v s2 =>
      simp only [ha] at h
      exact ⟨t, s2, rfl, ha, h⟩
    | fatal s2 => simp [ha] at h
    | undef => simp [ha] at h

theorem Inv_rvm_abort_trans (tid : Int) (s s1 : State) (hs : Inv s)
    (h : rvm_abort_trans tid s = Outcome.ok () s1) : Inv s1 := by
  obtain ⟨t, s2, ht, ha, hf⟩ := rvm_abort_trans_ok tid s s1 h
  have hs2 := Inv_abort_regions _ s s2 hs ha
  have hfr := abort_regions_frame _ s s2 ha
  have ht2 : s2.transs tid = some t := by rw [hfr]; exact ht
  exact Inv_finish_trans tid t s2 s1 hs2 ht2 hf

theorem rvm_abort_trans_some (tid : Int) (t : Transcation) (s : State) (hs : Inv s)
    (ht : s.transs tid = some t) : ∃ s1, rvm_abort_trans tid s = Outcome.ok () s1 := by
  obtain ⟨s2, ha⟩ := abort_regions_some tid t t._regions s hs ht (fun r hr => hr)
  have hs2 := Inv_abort_regions _ s s2 hs ha
  have hfr := abort_regions_frame _ s s2 ha
  have ht2 : s2.transs tid = some t := by rw [hfr]; exact ht
  obtain ⟨s1, hf⟩ := finish_trans_some tid t s2 hs2 ht2
  refine ⟨s1, ?_⟩
  simp only [rvm_abort_trans, ht, ha]
  exact hf

theorem upd_upd {α β : Type} [DecidableEq α] (f : α → β) (a : α) (b c : β) :
    upd (upd f a b) a c = upd f a c := by
  funext x
  simp only [upd]
  split <;> rfl

theorem seek_write (fs : FS) (fd : Int) (f : OpenFile) (off : Int) (bytes : List Byte)
    (hf : fs.fdt fd = some f) (hoff : 0 ≤ off) :
    (sys_lseek_set fs fd off).1 = off ∧
    sys_write (sys_lseek_set fs fd off).2 fd bytes =
      ((bytes.length : Int), fs.written fd f off.toNat bytes) := by
  have hno : ¬ off < 0 := by omega
  simp only [sys_lseek_set, hf, hno, if_false, sys_write, upd_same, upd_upd, FS.written,
    true_and]

theorem fsync_written (fs : FS) (fd : Int) (f : OpenFile) (off : Nat) (bytes : List Byte) :
    sys_fsync (fs.written fd f off bytes) fd = 0 := by
  simp [sys_fsync, FS.written]

theorem FS.Inv_written (fs : FS) (hfs : fs.Inv) (fd : Int) (f : OpenFile) (off : Nat)
    (bytes : List Byte) (hf : fs.fdt fd = some f)
    (hlen : bytes.length ≠ 0 → ((off + bytes.length : Nat) : Int) < 2147483648) :
    (fs.written fd f off bytes).Inv :=
  { fd_ge := hfs.fd_ge
    fd_lt := by
      intro fd1 f1 h1
      simp only [FS.written, upd_apply] at h1
      split at h1
      · rename_i heq; subst heq; exact hfs.fd_lt _ f hf
      · exact hfs.fd_lt fd1 f1 h1
    gen_lt := hfs.gen_lt
    open_lt := by
      intro fd1 f1 h1
      simp only [FS.written, upd_apply] at h1
      split at h1
      · cases h1; exact hfs.open_lt fd f hf
      · exact hfs.open_lt fd1 f1 h1
    len_lt := by
      intro i
      simp only [FS.written, upd_apply]
      split
      · rw [overwrite_length]
        have := hfs.len_lt f.ino
        split
        · exact this
        · rename_i h0
          have := hlen h0
          rw [Nat.cast_max]
          exact max_lt (hfs.len_lt f.ino) this
      · exact hfs.len_lt i }

theorem Inv_of_fs (s : State) (hs : Inv s) (fs1 : FS) (hfs : fs1.Inv)
    (hfd : ∀ fd f, s.fs.fdt fd = some f → ∃ f1, fs1.fdt fd = some f1 ∧ f1.ino = f.ino)
    (hlen : ∀ i, (s.fs.data i).length ≤ (fs1.data i).length) :
    Inv { s with fs := fs1 } :=
  { fs := hfs
    cat := hs.cat
    live :=
    { buf := hs.live.buf
      file := by
        intro p seg hp hst
        obtain ⟨f, hf, hpath, hsz⟩ := hs.live.file p seg hp hst
        obtain ⟨f1, hf1, hino⟩ := hfd _ f hf
        refine ⟨f1, hf1, by rw [hino]; exact hpath, ?_⟩
        rw [hino]
        have := hlen f.ino
        show seg.mapped_size ≤ ((fs1.data f.ino).length : Int)
        omega
      distinct := hs.live.distinct }
    trans := hs.trans
    addr_pos := hs.addr_pos
    rvm_id_nonneg := hs.rvm_id_nonneg
    trans_id_nonneg := hs.trans_id_nonneg
    mem_lt := hs.mem_lt
    segs_lt := hs.segs_lt
    size_lt := hs.size_lt
    rvms_le := hs.rvms_le
    transs_le := hs.transs_le
    store_dir := hs.store_dir
    store_inj := hs.store_inj }

theorem overwrite_length_ge (dst : List Byte) (off : Nat) (src : List Byte) :
    dst.length ≤ (overwrite dst off src).length := by
  rw [overwrite_length]
  split
  · exact le_refl _
  · exact le_max_left _ _

theorem region_facts (s : State) (hs : Inv s) (tid : Int) (t : Transcation) (r : Region)
    (ht : s.transs tid = some t) (hr : r ∈ t._regions) :
    ∃ b seg buf f bytes, (b, r._seg) ∈ t._segs ∧ s.segs r._seg = some seg ∧
      seg.st = Status.ACQUIRED ∧ s.mem seg.segbase = some buf ∧
      (buf.length : Int) = seg.mapped_size ∧ s.fs.fdt seg.fd = some f ∧
      f.ino.1 = seg.filepath ∧ seg.mapped_size ≤ (s.fs.data f.ino).length ∧
      0 ≤ r._size ∧ (r._undo_log.length : Int) = r._size ∧ (0 < r._size → 0 ≤ r._offset) ∧
      r._offset + r._size ≤ seg.mapped_size ∧ seg.mapped_size < 2147483648 ∧
      mem_read s seg.segbase r._offset r._size = some bytes ∧
      (bytes.length : Int) = r._size ∧ bytes = slice buf r._offset.toNat r._size.toNat := by
  obtain ⟨⟨b, hb⟩, h2, h3, h4, h5⟩ := hs.trans.regions tid t r ht hr
  obtain ⟨seg, hseg, hst⟩ := hs.trans.acquired tid t b _ ht hb
  have hlive : seg.st ≠ Status.UNMAPPED := by rw [hst]; decide
  obtain ⟨buf, hbuf, hlen⟩ := hs.live.buf _ seg hseg hlive
  obtain ⟨f, hf, hpath, hfl⟩ := hs.live.file _ seg hseg hlive
  have h5' := h5 seg hseg
  have hsz := hs.size_lt _ seg hseg hlive
  have hread : mem_read s seg.segbase r._offset r._size =
      some (slice buf r._offset.toNat r._size.toNat) := by
    unfold mem_read
    by_cases h0 : r._size = 0
    · simp [h0, slice, tabulate]
    · have hpos : 0 < r._size := by omega
      have := h4 hpos
      have hc : 0 ≤ r._offset ∧ 0 < r._size ∧ r._offset + r._size ≤ (buf.length : Int) := by
        omega
      simp only [h0, if_false, hbuf, hc, and_self, if_true]
  refine ⟨b, seg, buf, f, _, hb, hseg, hst, hbuf, hlen, hf, hpath, hfl, h2, h3, h4, h5', hsz,
    hread, ?_, rfl⟩
  simp [Int.toNat_of_nonneg h2]

theorem commit_regions_cons (r : Region) (rest : List Region) (s : State) (seg : Segment)
    (f : OpenFile) (bytes : List Byte) (hseg : s.segs r._seg = some seg)
    (hf : s.fs.fdt seg.fd = some f) (hoff : 0 ≤ r._offset)
    (hread : mem_read s seg.segbase r._offset r._size = some bytes)
    (hlen : (bytes.length : Int) = r._size) :
    commit_regions (r :: rest) s =
      commit_regions rest { s with fs := s.fs.written seg.fd f r._offset.toNat bytes } := by
  obtain ⟨h1, h2⟩ := seek_write s.fs seg.fd f r._offset bytes hf hoff
  have hne : ¬ (sys_lseek_set s.fs seg.fd r._offset).1 = -1 := by rw [h1]; omega
  simp only [commit_regions, hseg, hne, if_false, hread, h2, fsync_written, hlen,
    ne_eq, not_true_eq_false]

theorem commit_regions_neg (r : Region) (rest : List Region) (s : State) (seg : Segment)
    (f : OpenFile) (hseg : s.segs r._seg = some seg)
    (hf : s.fs.fdt seg.fd = some f) (hoff : r._offset < 0) :
    commit_regions (r :: rest) s = Outcome.fatal s := by
  simp only [commit_regions, hseg, sys_lseek_set, hf, hoff, if_true]

theorem Inv_commit_regions (tid : Int) (t : Transcation) :
    ∀ (rs : List Region) (s s1 : State), Inv s → s.transs tid = some t →
      (∀ r ∈ rs, r ∈ t._regions) → commit_regions rs s = Outcome.ok () s1 →
      Inv s1 ∧ s1 = { s with fs := s1.fs } := by
  intro rs
  induction rs with
  | nil =>
    intro s s1 hs _ _ h
    simp only [commit_regions, Outcome.ok.injEq, true_and] at h
    subst h; exact ⟨hs, rfl⟩
  | cons r rest ih =>
    intro s s1 hs ht hsub h
    obtain ⟨b, seg, buf, f, bytes, hb, hseg, hst, hbuf, hbl, hf, hpath, hfl, h2, h3, h4,
      h5, hsz, hread, hlen, -⟩ := region_facts s hs tid t r ht (hsub r (List.mem_cons_self _ _))
    by_cases hoff : 0 ≤ r._offset
    · rw [commit_regions_cons r rest s seg f bytes hseg hf hoff hread hlen] at h
      have hfs2 : (s.fs.written seg.fd f r._offset.toNat bytes).Inv := by
        apply FS.Inv_written s.fs hs.fs _ _ _ _ hf
        intro _
        rw [Nat.cast_add, Int.toNat_of_nonneg hoff]
        omega
      have hs2 : Inv { s with fs := s.fs.written seg.fd f r._offset.toNat bytes } := by
        apply Inv_of_fs s hs _ hfs2
        · intro fd1 f1 h1
          by_cases hfd : fd1 = seg.fd
          · subst hfd
            rw [hf] at h1; cases h1
            exact ⟨_, upd_same _ _ _, rfl⟩
          · exact ⟨f1, by simp only [FS.written]; rw [upd_ne _ _ hfd]; exact h1, rfl⟩
        · intro i
          simp only [FS.written, upd_apply]
          split
          · rename_i heq; subst heq; exact overwrite_length_ge _ _ _
          · exact le_refl _
      obtain ⟨i1, i2⟩ := ih _ s1 hs2 ht (fun r1 hr1 => hsub r1 (List.mem_cons_of_mem _ hr1)) h
      exact ⟨i1, by rw [i2]⟩
    · rw [commit_regions_neg r rest s seg f hseg hf (by omega)] at h
      cases h

theorem commit_regions_some (tid : Int) (t : Transcation) :
    ∀ (rs : List Region) (s : State), Inv s → s.transs tid = some t →
      (∀ r ∈ rs, r ∈ t._regions) → (∀ r ∈ rs, 0 ≤ r._offset) →
      ∃ s1, commit_regions rs s = Outcome.ok () s1 := by
  intro rs
  induction rs with
  | nil => intro s _ _ _ _; exact ⟨s, rfl⟩
  | cons r rest ih =>
    intro s hs ht hsub hoffs
    obtain ⟨b, seg, buf, f, bytes, hb, hseg, hst, hbuf, hbl, hf, hpath, hfl, h2, h3, h4,
      h5, hsz, hread, hlen, -⟩ := region_facts s hs tid t r ht (hsub r (List.mem_cons_self _ _))
    have hoff := hoffs r (List.mem_cons_self _ _)
    rw [commit_regions_cons r rest s seg f bytes hseg hf hoff hread hlen]
    have hstep : ∃ s2, commit_regions [r] s = Outcome.ok () s2 := by
      rw [commit_regions_cons r [] s seg f bytes hseg hf hoff hread hlen]
      exact ⟨_, rfl⟩
    obtain ⟨s2, hs2⟩ := hstep
    have hcopy := hs2
    rw [commit_regions_cons r [] s seg f bytes hseg hf hoff hread hlen] at hcopy
    simp only [commit_regions, Outcome.ok.injEq, true_and] at hcopy
    obtain ⟨i1, -⟩ := Inv_commit_regions tid t [r] s s2 hs ht
      (by intro r1 hr1; simp only [List.mem_singleton] at hr1; subst hr1
          exact hsub _ (List.mem_cons_self _ _)) hs2
    rw [hcopy]
    apply ih s2 i1 (by rw [← hcopy]; exact ht)
      (fun r1 hr1 => hsub r1 (List.mem_cons_of_mem _ hr1))
      (fun r1 hr1 => hoffs r1 (List.mem_cons_of_mem _ hr1))

theorem rvm_commit_trans_ok (tid : Int) (s s1 : State)
    (h : rvm_commit_trans tid s = Outcome.ok () s1) :
    ∃ t s2, s.transs tid = some t ∧ commit_regions t._regions s = Outcome.ok () s2 ∧
      finish_trans tid t s2 = Outcome.ok () s1 := by
  unfold rvm_commit_trans at h
  cases ht : s.transs tid with
  | none => simp [ht] at h
  | some t =>
    simp only [ht] at h
    cases ha : commit_regions t._regions s with
    | ok v s2 =>
      simp only [ha] at h
      exact ⟨t, s2, rfl, ha, h⟩
    | fatal s2 => simp [ha] at h
    | undef => simp [ha] at h

theorem Inv_rvm_commit_trans (tid : Int) (s s1 : State) (hs : Inv s)
    (h : rvm_commit_trans tid s = Outcome.ok () s1) : Inv s1 := by
  obtain ⟨t, s2, ht, ha, hf⟩ := rvm_commit_trans_ok tid s s1 h
  obtain ⟨hs2, hfr⟩ := Inv_commit_regions tid t _ s s2 hs ht (fun r hr => hr) ha
  have ht2 : s2.transs tid = some t := by rw [hfr]; exact ht
  exact Inv_finish_trans tid t s2 s1 hs2 ht2 hf

theorem rvm_unmap_ok (rvm segbase : Int) (s s1 : State)
    (h : rvm_unmap rvm segbase s = Outcome.ok () s1) :
    (s1 = s ∧ ∃ R, s.rvms rvm = some R ∧
      (R._base_seg_map segbase = none ∨
        ∃ p seg, R._base_seg_map segbase = some p ∧ s.segs p = some seg ∧
          seg.st = Status.UNMAPPED)) ∨
    (∃ R p seg buf, s.rvms rvm = some R ∧ R._base_seg_map segbase = some p ∧
      s.segs p = some seg ∧ seg.st = Status.MAPPED ∧ s.mem seg.segbase = some buf ∧
      s1 = { s with mem := upd s.mem seg.segbase none,
                    segs := upd s.segs p (some { seg with st := Status.UNMAPPED }),
                    rvms := upd s.rvms rvm (some
                      { R with _base_seg_map := upd R._base_seg_map segbase none }),
                    fs := sys_close s.fs seg.fd }) := by
  unfold rvm_unmap at h
  cases hR : s.rvms rvm with
  | none => simp [hR] at h
  | some R =>
    simp only [hR, RVM.find_seg_by_base] at h
    cases hb : R._base_seg_map segbase with
    | none =>
      simp only [hb, Outcome.ok.injEq, true_and] at h
      exact Or.inl ⟨h.symm, R, rfl, Or.inl hb⟩
    | some p =>
      simp only [hb] at h
      cases hp : s.segs p with
      | none => simp [hp] at h
      | some seg =>
        simp only [hp] at h
        by_cases hu : seg.st = Status.UNMAPPED
        · simp only [hu, if_true, Outcome.ok.injEq, true_and] at h
          exact Or.inl ⟨h.symm, R, rfl, Or.inr ⟨p, seg, hb, hp, hu⟩⟩
        · simp only [hu, if_false] at h
          by_cases hm : seg.st = Status.MAPPED
          · simp only [hm, ne_eq, not_true_eq_false, if_false] at h
            cases hbuf : s.mem seg.segbase with
            | none => simp [hbuf] at h
            | some buf =>
              simp only [hbuf, Outcome.ok.injEq, true_and] at h
              exact Or.inr ⟨R, p, seg, buf, rfl, hb, hp, hm, hbuf, h.symm⟩
          · simp [hm] at h

theorem FS.Inv_close (fs : FS) (hfs : fs.Inv) (fd : Int) : (sys_close fs fd).Inv :=
  { fd_ge := hfs.fd_ge
    fd_lt := by
      intro fd1 f1 h1
      simp only [sys_close, upd_apply] at h1
      split at h1
      · cases h1
      · exact hfs.fd_lt fd1 f1 h1
    gen_lt := hfs.gen_lt
    open_lt := by
      intro fd1 f1 h1
      simp only [sys_close, upd_apply] at h1
      split at h1
      · cases h1
      · exact hfs.open_lt fd1 f1 h1
    len_lt := hfs.len_lt }

theorem Inv_rvm_unmap (rvm segbase : Int) (s s1 : State) (hs : Inv s)
    (h : rvm_unmap rvm segbase s = Outcome.ok () s1) : Inv s1 := by
  rcases rvm_unmap_ok rvm segbase s s1 h with ⟨rfl, -⟩ |
    ⟨R, p, seg, buf, hR, hb, hp, hm, hbuf, rfl⟩
  · exact hs
  · obtain ⟨sg, n, hsg, hsb, -, hn⟩ := hs.cat.base_seg rvm R segbase p hR hb
    rw [hp] at hsg; cases hsg
    have hlive : seg.st ≠ Status.UNMAPPED := by rw [hm]; decide
    have key : ∀ id X, upd s.rvms rvm (some
        { R with _base_seg_map := upd R._base_seg_map segbase none }) id = some X →
        (id = rvm ∧ X = { R with _base_seg_map := upd R._base_seg_map segbase none }) ∨
        (id ≠ rvm ∧ s.rvms id = some X) := by
      intro id X hX
      rw [upd_apply] at hX
      split at hX
      · left; exact ⟨by assumption, by cases hX; rfl⟩
      · right; exact ⟨by assumption, hX⟩
    have old : ∀ id X, upd s.rvms rvm (some
        { R with _base_seg_map := upd R._base_seg_map segbase none }) id = some X →
        ∃ X0, s.rvms id = some X0 ∧ X._name_seg_map = X0._name_seg_map ∧
          X._backing_store = X0._backing_store ∧
          (∀ b q, X._base_seg_map b = some q → X0._base_seg_map b = some q ∧
            (id = rvm → b ≠ segbase)) ∧
          (∀ b q, X0._base_seg_map b = some q → (id = rvm → b ≠ segbase) →
            X._base_seg_map b = some q) := by
      intro id X hX
      rcases key id X hX with ⟨rfl, rfl⟩ | ⟨hne, hX⟩
      · refine ⟨R, hR, rfl, rfl, ?_, ?_⟩
        · intro b q hbq
          simp only [upd_apply] at hbq
          split at hbq
          · cases hbq
          · exact ⟨hbq, fun _ => by assumption⟩
        · intro b q hbq hne
          simp only
          rw [upd_ne _ _ (hne rfl)]; exact hbq
      · exact ⟨X, hX, rfl, rfl, fun b q hbq => ⟨hbq, fun h => absurd h hne⟩,
          fun b q hbq _ => hbq⟩
    have hseg : ∀ q sg, upd s.segs p (some { seg with st := Status.UNMAPPED }) q = some sg →
        sg.st ≠ Status.UNMAPPED → q ≠ p ∧ s.segs q = some sg := by
      intro q sg hq hst
      rw [upd_apply] at hq
      split at hq
      · cases hq; exact absurd rfl hst
      · exact ⟨by assumption, hq⟩
    have hseg2 : ∀ q sg, s.segs q = some sg → q ≠ p →
        upd s.segs p (some { seg with st := Status.UNMAPPED }) q = some sg := by
      intro q sg hq hne
      rw [upd_ne _ _ hne]; exact hq
    have hacq : ∀ tid t b q, s.transs tid = some t → (b, q) ∈ t._segs → q ≠ p := by
      intro tid t b q ht hbq hqp
      subst hqp
      obtain ⟨sg, hsg, hst⟩ := hs.trans.acquired tid t b q ht hbq
      rw [hp] at hsg; cases hsg
      rw [hm] at hst; cases hst
    exact
    { fs := FS.Inv_close s.fs hs.fs _
      cat :=
      { name_seg := by
          intro id X n1 q hX hn1
          obtain ⟨X0, hX0, hname, hdir, -, -⟩ := old id X hX
          rw [hname] at hn1
          obtain ⟨sg, hsg, hpath⟩ := hs.cat.name_seg id X0 n1 q hX0 hn1
          have hpath' : sg.filepath = X.get_filepath n1 := by
            rw [hpath]; simp only [RVM.get_filepath, hdir]
          by_cases hqp : q = p
          · subst hqp
            rw [hp] at hsg; cases hsg
            exact ⟨_, upd_same _ _ _, hpath'⟩
          · exact ⟨sg, hseg2 q sg hsg hqp, hpath'⟩
        name_base := by
          intro id X n1 q sg hX hn1 hq hst
          obtain ⟨X0, hX0, hname, hdir, -, hback⟩ := old id X hX
          obtain ⟨hqp, hq0⟩ := hseg q sg hq hst
          rw [hname] at hn1
          have := hs.cat.name_base id X0 n1 q sg hX0 hn1 hq0 hst
          apply hback _ _ this
          intro _
          have := (hs.live.distinct q p sg seg hq0 hp hst hlive hqp).1
          rw [hsb] at this; exact this
        name_inj := by
          intro id X n1 q id1 X1 n2 hX hn1 hX1 hn2
          obtain ⟨X0, hX0, hname, -, -, -⟩ := old id X hX
          obtain ⟨X10, hX10, hname1, -, -, -⟩ := old id1 X1 hX1
          rw [hname] at hn1
          rw [hname1] at hn2
          exact hs.cat.name_inj id X0 n1 q id1 X10 n2 hX0 hn1 hX10 hn2
        base_seg := by
          intro id X b q hX hbq
          obtain ⟨X0, hX0, hname, -, hfwd, -⟩ := old id X hX
          obtain ⟨hbq0, hbne⟩ := hfwd b q hbq
          obtain ⟨sg, n1, hsg, hsgb, hsgst, hn1⟩ := hs.cat.base_seg id X0 b q hX0 hbq0
          have hqp : q ≠ p := by
            intro hqp; subst hqp
            rw [hp] at hsg; cases hsg
            obtain ⟨hid, -⟩ := hs.cat.name_inj id X0 n1 q rvm R n hX0 hn1 hR hn
            exact hbne hid (by rw [← hsgb, hsb])
          exact ⟨sg, n1, hseg2 q sg hsg hqp, hsgb, hsgst, by rw [hname]; exact hn1⟩ }
      live :=
      { buf := by
          intro q sg hq hst
          obtain ⟨hqp, hq0⟩ := hseg q sg hq hst
          obtain ⟨b, hb1, hb2⟩ := hs.live.buf q sg hq0 hst
          have := (hs.live.distinct q p sg seg hq0 hp hst hlive hqp).1
          exact ⟨b, by show upd s.mem _ _ _ = _; rw [upd_ne _ _ this]; exact hb1, hb2⟩
        file := by
          intro q sg hq hst
          obtain ⟨hqp, hq0⟩ := hseg q sg hq hst
          obtain ⟨f, hf1, hf2, hf3⟩ := hs.live.file q sg hq0 hst
          have := (hs.live.distinct q p sg seg hq0 hp hst hlive hqp).2
          exact ⟨f, by simp only [sys_close]; rw [upd_ne _ _ this]; exact hf1, hf2, hf3⟩
        distinct := by
          intro q1 q2 sg1 sg2 h1 h2 hst1 hst2 hne
          obtain ⟨-, h10⟩ := hseg q1 sg1 h1 hst1
          obtain ⟨-, h20⟩ := hseg q2 sg2 h2 hst2
          exact hs.live.distinct q1 q2 sg1 sg2 h10 h20 hst1 hst2 hne }
      trans :=
      { store := by
          intro tid t ht
          obtain ⟨id, X0, hX0, hall⟩ := hs.trans.store tid t ht
          by_cases hid : id = rvm
          · subst hid
            rw [hR] at hX0; cases hX0
            refine ⟨id, _, upd_same _ _ _, ?_⟩
            intro b q hbq
            have h1 := hall b q hbq
            simp only
            rw [upd_ne]; exact h1
            intro hbs; subst hbs
            rw [hb] at h1; cases h1
            exact hacq tid t _ _ ht hbq rfl
          · exact ⟨id, X0, by show upd s.rvms _ _ _ = _; rw [upd_ne _ _ hid]; exact hX0, hall⟩
        acquired := by
          intro tid t b q ht hbq
          obtain ⟨sg, hsg, hst⟩ := hs.trans.acquired tid t b q ht hbq
          exact ⟨sg, hseg2 q sg hsg (hacq tid t b q ht hbq), hst⟩
        exclusive := hs.trans.exclusive
        held := by
          intro q sg hq hst
          have hst' : sg.st ≠ Status.UNMAPPED := by rw [hst]; decide
          exact hs.trans.held q sg (hseg q sg hq hst').2 hst
        regions := by
          intro tid t r ht hr
          obtain ⟨⟨b, hb1⟩, h2, h3, h4, h5⟩ := hs.trans.regions tid t r ht hr
          refine ⟨⟨b, hb1⟩, h2, h3, h4, ?_⟩
          intro sg hsg
          have hne := hacq tid t b _ ht hb1
          have hsg1 : upd s.segs p (some { seg with st := Status.UNMAPPED }) r._seg = some sg :=
            hsg
          rw [upd_ne _ _ hne] at hsg1
          exact h5 sg hsg1 }
      addr_pos := hs.addr_pos
      rvm_id_nonneg := hs.rvm_id_nonneg
      trans_id_nonneg := hs.trans_id_nonneg
      mem_lt := by
        intro a b1 hab
        simp only [upd_apply] at hab
        split at hab
        · cases hab
        · exact hs.mem_lt a b1 hab
      segs_lt := by
        intro q sg hq
        simp only [upd_apply] at hq
        split at hq
        · rename_i heq; subst heq; exact hs.segs_lt _ seg hp
        · exact hs.segs_lt q sg hq
      size_lt := by
        intro q sg hq hst
        exact hs.size_lt q sg (hseg q sg hq hst).2 hst
      rvms_le := by
        intro id X hX
        obtain ⟨X0, hX0, -, -, -, -⟩ := old id X hX
        exact hs.rvms_le id X0 hX0
      transs_le := hs.transs_le
      store_dir := by
        intro id X hX
        obtain ⟨X0, hX0, -, hdir, -, -⟩ := old id X hX
        rw [hdir]; exact hs.store_dir id X0 hX0
      store_inj := by
        intro id X id1 X1 hX hX1 heq
        obtain ⟨X0, hX0, -, hdir, -, -⟩ := old id X hX
        obtain ⟨X10, hX10, -, hdir1, -, -⟩ := old id1 X1 hX1
        rw [hdir, hdir1] at heq
        exact hs.store_inj id X0 id1 X10 hX0 hX10 heq }

theorem rvm_destroy_ok (rvm : Int) (segname : String) (s s1 : State)
    (h : rvm_destroy rvm segname s = Outcome.ok () s1) :
    ∃ R, s.rvms rvm = some R ∧
      ((∃ p seg, R._name_seg_map segname = some p ∧ s.segs p = some seg ∧
          seg.st ≠ Status.UNMAPPED ∧ s1 = s) ∨
       (∃ p seg, R._name_seg_map segname = some p ∧ s.segs p = some seg ∧
          seg.st = Status.UNMAPPED ∧
          s1 = { s with segs := upd s.segs p none,
                        rvms := upd s.rvms rvm (some
                          { R with _name_seg_map := upd R._name_seg_map segname none }),
                        fs := sys_remove s.fs (R.get_filepath segname) }) ∨
       (R._name_seg_map segname = none ∧
          s1 = { s with fs := sys_remove s.fs (R.get_filepath segname) })) := by
  unfold rvm_destroy at h
  cases hR : s.rvms rvm with
  | none => simp [hR] at h
  | some R =>
    simp only [hR, RVM.find_seg_by_name] at h
    refine ⟨R, rfl, ?_⟩
    cases hn : R._name_seg_map segname with
    | none =>
      simp only [hn, Outcome.ok.injEq, true_and] at h
      exact Or.inr (Or.inr ⟨rfl, h.symm⟩)
    | some p =>
      simp only [hn] at h
      cases hp : s.segs p with
      | none => simp [hp] at h
      | some seg =>
        simp only [hp] at h
        by_cases hu : seg.st = Status.UNMAPPED
        · simp only [hu, ne_eq, not_true_eq_false, if_false, Outcome.ok.injEq, true_and] at h
          exact Or.inr (Or.inl ⟨p, seg, rfl, hp, hu, h.symm⟩)
        · simp only [hu, ne_eq, not_false_eq_true, if_true, Outcome.ok.injEq, true_and] at h
          exact Or.inl ⟨p, seg, rfl, hp, hu, h.symm⟩

theorem FS.Inv_unlink (fs : FS) (hfs : fs.Inv) (path : String) : (sys_remove fs path).Inv :=
  { fd_ge := hfs.fd_ge
    fd_lt := hfs.fd_lt
    gen_lt := by
      intro path1 g h1
      simp only [sys_remove, upd_apply] at h1
      split at h1
      · cases h1
      · exact hfs.gen_lt path1 g h1
    open_lt := hfs.open_lt
    len_lt := hfs.len_lt }

theorem Inv_remove (s : State) (hs : Inv s) (path : String) :
    Inv { s with fs := sys_remove s.fs path } :=
  Inv_of_fs s hs _ (FS.Inv_unlink s.fs hs.fs path) (fun _ f hf => ⟨f, hf, rfl⟩)
    (fun _ => le_refl _)

theorem Inv_forget (s : State) (hs : Inv s) (rvm : Int) (R : RVM) (segname : String) (p : Nat)
    (seg : Segment) (hR : s.rvms rvm = some R) (hn : R._name_seg_map segname = some p)
    (hp : s.segs p = some seg) (hu : seg.st = Status.UNMAPPED) :
    Inv { s with segs := upd s.segs p none,
                 rvms := upd s.rvms rvm (some
                   { R with _name_seg_map := upd R._name_seg_map segname none }) } := by
  have old : ∀ id X, upd s.rvms rvm (some
      { R with _name_seg_map := upd R._name_seg_map segname none }) id = some X →
      ∃ X0, s.rvms id = some X0 ∧ X._base_seg_map = X0._base_seg_map ∧
        X._backing_store = X0._backing_store ∧
        (∀ n q, X._name_seg_map n = some q → X0._name_seg_map n = some q ∧ q ≠ p) ∧
        (∀ n q, X0._name_seg_map n = some q → q ≠ p → X._name_seg_map n = some q) := by
    intro id X hX
    rw [upd_apply] at hX
    split at hX
    · rename_i hid
      cases hX; subst hid
      refine ⟨R, hR, rfl, rfl, ?_, ?_⟩
      · intro n q hnq
        simp only [upd_apply] at hnq
        split at hnq
        · cases hnq
        · rename_i hne
          refine ⟨hnq, ?_⟩
          intro hqp; subst hqp
          exact hne (hs.cat.name_inj id R n q id R segname hR hnq hR hn).2
      · intro n q hnq hqp
        simp only
        rw [upd_ne]; exact hnq
        intro hns; subst hns
        rw [hn] at hnq; cases hnq; exact hqp rfl
    · rename_i hid
      refine ⟨X, hX, rfl, rfl, ?_, fun n q hnq _ => hnq⟩
      intro n q hnq
      refine ⟨hnq, ?_⟩
      intro hqp; subst hqp
      exact hid (hs.cat.name_inj id X n q rvm R segname hX hnq hR hn).1
  have hseg : ∀ q sg, upd s.segs p none q = some sg → q ≠ p ∧ s.segs q = some sg := by
    intro q sg hq
    rw [upd_apply] at hq
    split at hq
    · cases hq
    · exact ⟨by assumption, hq⟩
  have hseg2 : ∀ q sg, s.segs q = some sg → q ≠ p → upd s.segs p none q = some sg := by
    intro q sg hq hne
    rw [upd_ne _ _ hne]; exact hq
  have hlive : ∀ q sg, s.segs q = some sg → sg.st ≠ Status.UNMAPPED → q ≠ p := by
    intro q sg hq hst hqp
    subst hqp
    rw [hp] at hq; cases hq
    exact hst hu
  exact
  { fs := hs.fs
    cat :=
    { name_seg := by
        intro id X n1 q hX hn1
        obtain ⟨X0, hX0, -, hdir, hfwd, -⟩ := old id X hX
        obtain ⟨hn0, hqp⟩ := hfwd n1 q hn1
        obtain ⟨sg, hsg, hpath⟩ := hs.cat.name_seg id X0 n1 q hX0 hn0
        refine ⟨sg, hseg2 q sg hsg hqp, ?_⟩
        rw [hpath]; simp only [RVM.get_filepath, hdir]
      name_base := by
        intro id X n1 q sg hX hn1 hq hst
        obtain ⟨X0, hX0, hbase, -, hfwd, -⟩ := old id X hX
        obtain ⟨hn0, hqp⟩ := hfwd n1 q hn1
        rw [hbase]
        exact hs.cat.name_base id X0 n1 q sg hX0 hn0 (hseg q sg hq).2 hst
      name_inj := by
        intro id X n1 q id1 X1 n2 hX hn1 hX1 hn2
        obtain ⟨X0, hX0, -, -, hfwd, -⟩ := old id X hX
        obtain ⟨X10, hX10, -, -, hfwd1, -⟩ := old id1 X1 hX1
        exact hs.cat.name_inj id X0 n1 q id1 X10 n2 hX0 (hfwd n1 q hn1).1 hX10 (hfwd1 n2 q hn2).1
      base_seg := by
        intro id X b q hX hbq
        obtain ⟨X0, hX0, hbase, -, -, hback⟩ := old id X hX
        rw [hbase] at hbq
        obtain ⟨sg, n1, hsg, hsgb, hsgst, hn1⟩ := hs.cat.base_seg id X0 b q hX0 hbq
        have hqp := hlive q sg hsg hsgst
        exact ⟨sg, n1, hseg2 q sg hsg hqp, hsgb, hsgst, hback n1 q hn1 hqp⟩ }
    live :=
    { buf := by
        intro q sg hq hst
        exact hs.live.buf q sg (hseg q sg hq).2 hst
      file := by
        intro q sg hq hst
        exact hs.live.file q sg (hseg q sg hq).2 hst
      distinct := by
        intro q1 q2 sg1 sg2 h1 h2 hst1 hst2 hne
        exact hs.live.distinct q1 q2 sg1 sg2 (hseg q1 sg1 h1).2 (hseg q2 sg2 h2).2 hst1 hst2 hne }
    trans :=
    { store := by
        intro tid t ht
        obtain ⟨id, X0, hX0, hall⟩ := hs.trans.store tid t ht
        by_cases hid : id = rvm
        · subst hid
          rw [hR] at hX0; cases hX0
          exact ⟨id, _, upd_same _ _ _, hall⟩
        · exact ⟨id, X0, by show upd s.rvms _ _ _ = _; rw [upd_ne _ _ hid]; exact hX0, hall⟩
      acquired := by
        intro tid t b q ht hbq
        obtain ⟨sg, hsg, hst⟩ := hs.trans.acquired tid t b q ht hbq
        exact ⟨sg, hseg2 q sg hsg (hlive q sg hsg (by rw [hst]; decide)), hst⟩
      exclusive := hs.trans.exclusive
      held := by
        intro q sg hq hst
        exact hs.trans.held q sg (hseg q sg hq).2 hst
      regions := by
        intro tid t r ht hr
        obtain ⟨h1, h2, h3, h4, h5⟩ := hs.trans.regions tid t r ht hr
        refine ⟨h1, h2, h3, h4, ?_⟩
        intro sg hsg
        exact h5 sg (hseg _ sg hsg).2 }
    addr_pos := hs.addr_pos
    rvm_id_nonneg := hs.rvm_id_nonneg
    trans_id_nonneg := hs.trans_id_nonneg
    mem_lt := hs.mem_lt
    segs_lt := by
      intro q sg hq
      exact hs.segs_lt q sg (hseg q sg hq).2
    size_lt := by
      intro q sg hq hst
      exact hs.size_lt q sg (hseg q sg hq).2 hst
    rvms_le := by
      intro id X hX
      obtain ⟨X0, hX0, -, -, -, -⟩ := old id X hX
      exact hs.rvms_le id X0 hX0
    transs_le := hs.transs_le
    store_dir := by
      intro id X hX
      obtain ⟨X0, hX0, -, hdir, -, -⟩ := old id X hX
      rw [hdir]; exact hs.store_dir id X0 hX0
    store_inj := by
      intro id X id1 X1 hX hX1 heq
      obtain ⟨X0, hX0, -, hdir, -, -⟩ := old id X hX
      obtain ⟨X10, hX10, -, hdir1, -, -⟩ := old id1 X1 hX1
      rw [hdir, hdir1] at heq
      exact hs.store_inj id X0 id1 X10 hX0 hX10 heq }

theorem Inv_rvm_destroy (rvm : Int) (segname : String) (s s1 : State) (hs : Inv s)
    (h : rvm_destroy rvm segname s = Outcome.ok () s1) : Inv s1 := by
  obtain ⟨R, hR, hcase⟩ := rvm_destroy_ok rvm segname s s1 h
  rcases hcase with ⟨p, seg, -, -, -, rfl⟩ | ⟨p, seg, hn, hp, hu, rfl⟩ | ⟨-, rfl⟩
  · exact hs
  · exact Inv_remove _ (Inv_forget s hs rvm R segname p seg hR hn hp hu) _
  · exact Inv_remove s hs _

theorem take_length_of_le (l : List Byte) (n : Nat) (h : n ≤ l.length) :
    (l.take n).length = n := by
  simp [List.length_take, h]

theorem map_segment_eq (rvm : Int) (R : RVM) (segname : String) (N : Int) (p : Nat)
    (seg : Segment) (s : State) (hfs : s.fs.Inv) (hN0 : 0 ≤ N) (hN : isInt N) :
    map_segment rvm R segname N p seg s =
      Outcome.ok s.next_addr (map_state s rvm R segname N p) := by
  have hfd := hfs.fd_ge
  have hfd1 : ¬ s.fs.next_fd = -1 := by omega
  have hNn : ¬ N < 0 := by omega
  unfold map_state map_seg
  cases hd : s.fs.dir (R.get_filepath segname) with
  | some g =>
    have hlen := hfs.len_lt (R.get_filepath segname, g)
    have hw : wrap32 ((s.fs.data (R.get_filepath segname, g)).length : Int) =
        (s.fs.data (R.get_filepath segname, g)).length := by
      apply wrap32_of_isInt; unfold isInt; omega
    have hw1 : ¬ ((s.fs.data (R.get_filepath segname, g)).length : Int) = -1 := by omega
    by_cases hgt : N > (s.fs.data (R.get_filepath segname, g)).length
    · have h1 : ¬ (N - 1 < 0) := by omega
      have h2 : ¬ (N - 1 = -1) := by omega
      have hz : ¬ ((0:Int) < 0) := by omega
      have hol : (overwrite (s.fs.data (R.get_filepath segname, g)) (N - 1).toNat [0]).length
          = N.toNat := by
        rw [overwrite_length]
        simp only [List.length_singleton, one_ne_zero, if_false]
        have : (N - 1).toNat + 1 = N.toNat := by omega
        rw [this]
        apply max_eq_right
        omega
      have hle : N.toNat ≤
          (overwrite (s.fs.data (R.get_filepath segname, g)) (N - 1).toNat [0]).length := by
        rw [hol]
      simp only [map_segment, sys_open, hd, sys_lseek_end, upd_same, upd_upd, hw, hw1, hfd1,
        hgt, if_false, if_true, map_load, hNn, sys_lseek_set, hz, h1, h2, ne_eq,
        not_true_eq_false, sys_read, sys_write, List.length_singleton, Nat.cast_one,
        Int.toNat_zero, List.drop_zero, take_length_of_le _ _ hle, Int.toNat_of_nonneg hN0,
        Nat.sub_self, List.replicate_zero, List.append_nil, map_fs, map_buf, map_fs_ext,
        FS.file_at]

    · have hz : ¬ ((0:Int) < 0) := by omega
      have hle : N.toNat ≤ (s.fs.data (R.get_filepath segname, g)).length := by omega
      simp only [map_segment, sys_open, hd, sys_lseek_end, upd_same, upd_upd, hw, hw1, hfd1,
        hgt, if_false, map_load, hNn, sys_lseek_set, hz, ne_eq, not_true_eq_false, sys_read,
        Int.toNat_zero, List.drop_zero, take_length_of_le _ _ hle, Int.toNat_of_nonneg hN0,
        Nat.sub_self, List.replicate_zero, List.append_nil, map_fs, map_buf, map_fs_ext,
        FS.file_at]
  | none =>
    have hw : wrap32 0 = 0 := by decide
    have hz : ¬ ((0:Int) < 0) := by omega
    have hw1 : ¬ ((0:Int) = -1) := by omega
    by_cases hgt : N > 0
    · have h1 : ¬ (N - 1 < 0) := by omega
      have h2 : ¬ (N - 1 = -1) := by omega
      have hol : (overwrite [] (N - 1).toNat [0]).length = N.toNat := by
        rw [overwrite_length]
        simp only [List.length_singleton, one_ne_zero, if_false, List.length_nil]
        have : (N - 1).toNat + 1 = N.toNat := by omega
        rw [this]
        apply max_eq_right
        omega
      have hle : N.toNat ≤ (overwrite [] (N - 1).toNat [0]).length := by
        rw [hol]
      simp only [map_segment, sys_open, hd, sys_lseek_end, upd_same, upd_upd, hw, hw1, hfd1,
        hgt, if_false, if_true, map_load, hNn, sys_lseek_set, hz, h1, h2, ne_eq,
        not_true_eq_false, sys_read, sys_write, List.length_singleton, Nat.cast_one,
        Int.toNat_zero, List.drop_zero, take_length_of_le _ _ hle, Int.toNat_of_nonneg hN0,
        Nat.sub_self, List.replicate_zero, List.append_nil, map_fs, map_buf, map_fs_ext,
        FS.file_at, List.length_nil, Nat.cast_zero]
    · have hN1 : N = 0 := by omega
      subst hN1
      simp only [map_segment, sys_open, hd, sys_lseek_end, upd_same, upd_upd, hw, hw1, hfd1,
        hgt, if_false, if_true, map_load, hNn, sys_lseek_set, hz, ne_eq,
        not_true_eq_false, sys_read, sys_write, List.length_singleton, Nat.cast_one,
        Int.toNat_zero, List.drop_zero, List.take_zero,
        Nat.sub_self, List.replicate_zero, List.append_nil, map_fs, map_buf, map_fs_ext,
        FS.file_at, List.length_nil, Nat.cast_zero]

theorem byteAt_nil (j : Nat) : byteAt [] j = 0 := by
  simp [byteAt]

theorem byteAt_singleton_zero (j : Nat) : byteAt [(0 : Byte)] j = 0 := by
  cases j with
  | zero => rfl
  | succ j => simp [byteAt]

theorem map_fs_spec (fs : FS) (hfs : fs.Inv) (path : String) (N : Int) (hN0 : 0 ≤ N) :
    MapSpec fs path N (map_fs fs path N) (map_buf fs path N) := by
  have hz : ¬ ((0:Int) < 0) := by omega
  cases hd : fs.dir path with
  | some g =>
    have hlen := hfs.len_lt (path, g)
    have hg := hfs.gen_lt path g hd
    have hw : wrap32 ((fs.data (path, g)).length : Int) = (fs.data (path, g)).length := by
      apply wrap32_of_isInt; unfold isInt; omega
    by_cases hgt : N > (fs.data (path, g)).length
    · have h1 : ¬ (N - 1 < 0) := by omega
      have hNt : (N - 1).toNat + 1 = N.toNat := by omega
      have hfs1 : map_fs fs path N =
          { fs with data := upd fs.data (path, g) (overwrite (fs.data (path, g)) (N - 1).toNat [0]),
                    fdt := upd fs.fdt fs.next_fd (some { ino := (path, g), pos :=
                      ((overwrite (fs.data (path, g)) (N - 1).toNat [0]).take N.toNat).length }),
                    next_fd := fs.next_fd + 1 } := by
        simp only [map_fs, map_fs_ext, sys_open, hd, sys_lseek_end, upd_same, upd_upd, hw, hgt,
          if_true, sys_lseek_set, h1, hz, if_false, sys_write, sys_read, Int.toNat_zero,
          List.drop_zero, Nat.zero_add]
      have hbuf : map_buf fs path N =
          (overwrite (fs.data (path, g)) (N - 1).toNat [0]).take N.toNat := by
        simp only [map_buf, map_fs_ext, sys_open, hd, sys_lseek_end, upd_same, upd_upd, hw, hgt,
          if_true, sys_lseek_set, h1, hz, if_false, sys_write, sys_read, Int.toNat_zero,
          List.drop_zero]
      rw [hfs1, hbuf]
      exact
      { dir_path := by simp [FS.ino_at, hd]
        dir_other := by intro q _; rfl
        data_len := by
          simp only [FS.ino_at, hd, FS.file_at, upd_same, overwrite_length,
            List.length_singleton, one_ne_zero, if_false, hNt]
        data_old := by
          intro j hj
          simp only [FS.ino_at, hd, FS.file_at] at hj ⊢
          simp only [upd_same, byteAt_overwrite, List.length_singleton]
          have : ¬ ((N - 1).toNat ≤ j ∧ j < (N - 1).toNat + 1) := by omega
          rw [if_neg this]
        data_zero := by
          intro j hj
          simp only [FS.ino_at, hd, FS.file_at] at hj ⊢
          simp only [upd_same, byteAt_overwrite, List.length_singleton]
          split
          · exact byteAt_singleton_zero _
          · exact byteAt_ge _ _ hj
        data_other := by
          intro i hi
          simp only [FS.ino_at, hd] at hi
          simp only [upd_ne _ _ hi]
        fdt_new := by
          simp only [FS.ino_at, hd, upd_same]
          exact ⟨_, rfl⟩
        fdt_other := by intro fd hfd; simp only [upd_ne _ _ hfd]
        next_fd := rfl
        next_gen := le_refl _
        gen_lt := by simp only [FS.ino_at, hd]; exact hg
        buf_eq := by simp only [FS.ino_at, hd, upd_same] }
    · have hfs1 : map_fs fs path N =
          { fs with fdt := upd fs.fdt fs.next_fd (some { ino := (path, g), pos :=
                      ((fs.data (path, g)).take N.toNat).length }),
                    next_fd := fs.next_fd + 1 } := by
        simp only [map_fs, map_fs_ext, sys_open, hd, sys_lseek_end, upd_same, upd_upd, hw, hgt,
          sys_lseek_set, hz, if_false, sys_read, Int.toNat_zero,
          List.drop_zero, Nat.zero_add]
      have hbuf : map_buf fs path N = (fs.data (path, g)).take N.toNat := by
        simp only [map_buf, map_fs_ext, sys_open, hd, sys_lseek_end, upd_same, upd_upd, hw, hgt,
          sys_lseek_set, hz, if_false, sys_read, Int.toNat_zero, List.drop_zero]
      rw [hfs1, hbuf]
      exact
      { dir_path := by simp [FS.ino_at, hd]
        dir_other := by intro q _; rfl
        data_len := by
          simp only [FS.ino_at, hd, FS.file_at]
          symm; apply max_eq_left; omega
        data_old := by intro j _; simp only [FS.ino_at, hd, FS.file_at]
        data_zero := by
          intro j hj
          simp only [FS.ino_at, hd, FS.file_at] at hj ⊢
          exact byteAt_ge _ _ hj
        data_other := by intro i _; rfl
        fdt_new := by
          simp only [FS.ino_at, hd, upd_same]
          exact ⟨_, rfl⟩
        fdt_other := by intro fd hfd; simp only [upd_ne _ _ hfd]
        next_fd := rfl
        next_gen := le_refl _
        gen_lt := by simp only [FS.ino_at, hd]; exact hg
        buf_eq := by simp only [FS.ino_at, hd] }
  | none =>
    have hw : wrap32 0 = 0 := by decide
    by_cases hgt : N > 0
    · have h1 : ¬ (N - 1 < 0) := by omega
      have hNt : (N - 1).toNat + 1 = N.toNat := by omega
      have hfs1 : map_fs fs path N =
          { fs with dir := upd fs.dir path (some fs.next_gen),
                    data := upd fs.data (path, fs.next_gen) (overwrite [] (N - 1).toNat [0]),
                    fdt := upd fs.fdt fs.next_fd (some { ino := (path, fs.next_gen), pos :=
                      ((overwrite [] (N - 1).toNat [0]).take N.toNat).length }),
                    next_gen := fs.next_gen + 1,
                    next_fd := fs.next_fd + 1 } := by
        simp only [map_fs, map_fs_ext, sys_open, hd, sys_lseek_end, upd_same, upd_upd, hw, hgt,
          if_true, sys_lseek_set, h1, hz, if_false, sys_write, sys_read, Int.toNat_zero,
          List.drop_zero, Nat.zero_add, List.length_nil, Nat.cast_zero]
      have hbuf : map_buf fs path N = (overwrite [] (N - 1).toNat [0]).take N.toNat := by
        simp only [map_buf, map_fs_ext, sys_open, hd, sys_lseek_end, upd_same, upd_upd, hw, hgt,
          if_true, sys_lseek_set, h1, hz, if_false, sys_write, sys_read, Int.toNat_zero,
          List.drop_zero, List.length_nil, Nat.cast_zero]
      rw [hfs1, hbuf]
      exact
      { dir_path := by simp [FS.ino_at, hd]
        dir_other := by intro q hq; simp only [upd_ne _ _ hq]
        data_len := by
          simp only [FS.ino_at, hd, FS.file_at, upd_same, overwrite_length,
            List.length_singleton, one_ne_zero, if_false, hNt, List.length_nil]
        data_old := by
          intro j hj
          simp only [FS.ino_at, hd, FS.file_at, List.length_nil] at hj
          omega
        data_zero := by
          intro j _
          simp only [FS.ino_at, hd, upd_same, byteAt_overwrite, List.length_singleton]
          split
          · exact byteAt_singleton_zero _
          · exact byteAt_nil _
        data_other := by
          intro i hi
          simp only [FS.ino_at, hd] at hi
          simp only [upd_ne _ _ hi]
        fdt_new := by
          simp only [FS.ino_at, hd, upd_same]
          exact ⟨_, rfl⟩
        fdt_other := by intro fd hfd; simp only [upd_ne _ _ hfd]
        next_fd := rfl
        next_gen := Nat.le_succ _
        gen_lt := by simp only [FS.ino_at, hd]; exact Nat.lt_succ_self _
        buf_eq := by simp only [FS.ino_at, hd, upd_same] }
    · have hN1 : N = 0 := by omega
      subst hN1
      have hfs1 : map_fs fs path 0 =
          { fs with dir := upd fs.dir path (some fs.next_gen),
                    data := upd fs.data (path, fs.next_gen) [],
                    fdt := upd fs.fdt fs.next_fd (some { ino := (path, fs.next_gen), pos := 0 }),
                    next_gen := fs.next_gen + 1,
                    next_fd := fs.next_fd + 1 } := by
        simp only [map_fs, map_fs_ext, sys_open, hd, sys_lseek_end, upd_same, upd_upd, hw, hgt,
          sys_lseek_set, hz, if_false, sys_read, Int.toNat_zero,
          List.drop_zero, Nat.zero_add, List.length_nil, Nat.cast_zero, List.take_zero]
      have hbuf : map_buf fs path 0 = [] := by
        simp only [map_buf, map_fs_ext, sys_open, hd, sys_lseek_end, upd_same, upd_upd, hw, hgt,
          sys_lseek_set, hz, if_false, sys_read, Int.toNat_zero, List.drop_zero,
          List.length_nil, Nat.cast_zero, List.take_zero]
      rw [hfs1, hbuf]
      exact
      { dir_path := by simp [FS.ino_at, hd]
        dir_other := by intro q hq; simp only [upd_ne _ _ hq]
        data_len := by
          simp [FS.ino_at, hd, FS.file_at]
        data_old := by
          intro j hj
          simp only [FS.ino_at, hd, FS.file_at, List.length_nil] at hj
          omega
        data_zero := by
          intro j _
          simp only [FS.ino_at, hd, upd_same]
          exact byteAt_nil _
        data_other := by
          intro i hi
          simp only [FS.ino_at, hd] at hi
          simp only [upd_ne _ _ hi]
        fdt_new := by
          simp only [FS.ino_at, hd, upd_same]
          exact ⟨_, rfl⟩
        fdt_other := by intro fd hfd; simp only [upd_ne _ _ hfd]
        next_fd := rfl
        next_gen := Nat.le_succ _
        gen_lt := by simp only [FS.ino_at, hd]; exact Nat.lt_succ_self _
        buf_eq := by simp [FS.ino_at, hd] }

theorem map_segment_neg (rvm : Int) (R : RVM) (segname : String) (N : Int) (p : Nat)
    (seg : Segment) (s : State) (hfs : s.fs.Inv) (hN0 : N < 0) :
    ∃ s2, map_segment rvm R segname N p seg s = Outcome.fatal s2 := by
  have hfd := hfs.fd_ge
  have hfd1 : ¬ s.fs.next_fd = -1 := by omega
  cases hd : s.fs.dir (R.get_filepath segname) with
  | some g =>
    have hlen := hfs.len_lt (R.get_filepath segname, g)
    have hw : wrap32 ((s.fs.data (R.get_filepath segname, g)).length : Int) =
        (s.fs.data (R.get_filepath segname, g)).length := by
      apply wrap32_of_isInt; unfold isInt; omega
    have hw1 : ¬ ((s.fs.data (R.get_filepath segname, g)).length : Int) = -1 := by omega
    have hgt : ¬ N > (s.fs.data (R.get_filepath segname, g)).length := by omega
    simp only [map_segment, sys_open, hd, sys_lseek_end, upd_same, upd_upd, hw, hw1, hfd1,
      hgt, if_false, map_load, hN0, if_true]
    exact ⟨_, rfl⟩
  | none =>
    have hw : wrap32 0 = 0 := by decide
    have hw1 : ¬ ((0:Int) = -1) := by omega
    have hgt : ¬ N > 0 := by omega
    simp only [map_segment, sys_open, hd, sys_lseek_end, upd_same, upd_upd, hw, hw1, hfd1,
      hgt, if_false, map_load, hN0, if_true, List.length_nil, Nat.cast_zero]
    exact ⟨_, rfl⟩

theorem FS.Inv_map (fs : FS) (hfs : fs.Inv) (path : String) (N : Int) (fs1 : FS)
    (buf : List Byte) (hN : N < 2147483648) (h : MapSpec fs path N fs1 buf) : fs1.Inv :=
  { fd_ge := by have := hfs.fd_ge; rw [h.next_fd]; omega
    fd_lt := by
      intro fd f hf
      rw [h.next_fd]
      by_cases hfd : fd = fs.next_fd
      · subst hfd; have := hfs.fd_ge; omega
      · rw [h.fdt_other fd hfd] at hf
        have := hfs.fd_lt fd f hf; omega
    gen_lt := by
      intro q g hq
      by_cases hqp : q = path
      · subst hqp
        rw [h.dir_path] at hq; cases hq
        exact h.gen_lt
      · rw [h.dir_other q hqp] at hq
        exact lt_of_lt_of_le (hfs.gen_lt q g hq) h.next_gen
    open_lt := by
      intro fd f hf
      by_cases hfd : fd = fs.next_fd
      · subst hfd
        obtain ⟨pos, hpos⟩ := h.fdt_new
        rw [hpos] at hf; cases hf
        exact h.gen_lt
      · rw [h.fdt_other fd hfd] at hf
        exact lt_of_lt_of_le (hfs.open_lt fd f hf) h.next_gen
    len_lt := by
      intro i
      by_cases hi : i = fs.ino_at path
      · subst hi
        rw [h.data_len, Nat.cast_max]
        apply max_lt
        · unfold FS.file_at
          split
          · exact hfs.len_lt _
          · simp
        · omega
      · rw [h.data_other i hi]; exact hfs.len_lt i }

theorem Inv_new_segment (s : State) (hs : Inv s) : Inv (new_segment s) := by
  have hfresh : s.segs s.next_seg = none := by
    cases h : s.segs s.next_seg with
    | none => rfl
    | some sg => have := hs.segs_lt _ sg h; omega
  have hseg : ∀ q sg, upd s.segs s.next_seg (some ({} : Segment)) q = some sg →
      sg.st ≠ Status.UNMAPPED → q ≠ s.next_seg ∧ s.segs q = some sg := by
    intro q sg hq hst
    rw [upd_apply] at hq
    split at hq
    · cases hq; exact absurd rfl hst
    · exact ⟨by assumption, hq⟩
  have hseg2 : ∀ q sg, s.segs q = some sg →
      upd s.segs s.next_seg (some ({} : Segment)) q = some sg := by
    intro q sg hq
    rw [upd_ne]; exact hq
    intro heq; subst heq
    rw [hfresh] at hq; cases hq
  exact
  { fs := hs.fs
    cat :=
    { name_seg := by
        intro id X n q hX hn
        obtain ⟨sg, hsg, hpath⟩ := hs.cat.name_seg id X n q hX hn
        exact ⟨sg, hseg2 q sg hsg, hpath⟩
      name_base := by
        intro id X n q sg hX hn hq hst
        exact hs.cat.name_base id X n q sg hX hn (hseg q sg hq hst).2 hst
      name_inj := hs.cat.name_inj
      base_seg := by
        intro id X b q hX hb
        obtain ⟨sg, n, hsg, h1, h2, h3⟩ := hs.cat.base_seg id X b q hX hb
        exact ⟨sg, n, hseg2 q sg hsg, h1, h2, h3⟩ }
    live :=
    { buf := by
        intro q sg hq hst
        exact hs.live.buf q sg (hseg q sg hq hst).2 hst
      file := by
        intro q sg hq hst
        exact hs.live.file q sg (hseg q sg hq hst).2 hst
      distinct := by
        intro q1 q2 sg1 sg2 h1 h2 hst1 hst2 hne
        exact hs.live.distinct q1 q2 sg1 sg2 (hseg q1 sg1 h1 hst1).2 (hseg q2 sg2 h2 hst2).2
          hst1 hst2 hne }
    trans :=
    { store := hs.trans.store
      acquired := by
        intro tid t b q ht hbq
        obtain ⟨sg, hsg, hst⟩ := hs.trans.acquired tid t b q ht hbq
        exact ⟨sg, hseg2 q sg hsg, hst⟩
      exclusive := hs.trans.exclusive
      held := by
        intro q sg hq hst
        have hst1 : sg.st ≠ Status.UNMAPPED := by rw [hst]; decide
        exact hs.trans.held q sg (hseg q sg hq hst1).2 hst
      regions := by
        intro tid t r ht hr
        obtain ⟨⟨b, hb⟩, h2, h3, h4, h5⟩ := hs.trans.regions tid t r ht hr
        refine ⟨⟨b, hb⟩, h2, h3, h4, ?_⟩
        intro sg hsg
        obtain ⟨sg0, hsg0, hst0⟩ := hs.trans.acquired tid t b _ ht hb
        have := hseg2 _ sg0 hsg0
        have hsg1 : upd s.segs s.next_seg (some ({} : Segment)) r._seg = some sg := hsg
        rw [this] at hsg1
        have heq : sg0 = sg := Option.some.inj hsg1
        rw [← heq]
        exact h5 sg0 hsg0 }
    addr_pos := hs.addr_pos
    rvm_id_nonneg := hs.rvm_id_nonneg
    trans_id_nonneg := hs.trans_id_nonneg
    mem_lt := hs.mem_lt
    segs_lt := by
      intro q sg hq
      show q < s.next_seg + 1
      have hq1 : upd s.segs s.next_seg (some ({} : Segment)) q = some sg := hq
      rw [upd_apply] at hq1
      split at hq1
      · omega
      · have := hs.segs_lt q sg hq1; omega
    size_lt := by
      intro q sg hq hst
      exact hs.size_lt q sg (hseg q sg hq hst).2 hst
    rvms_le := hs.rvms_le
    transs_le := hs.transs_le
    store_dir := hs.store_dir
    store_inj := hs.store_inj }

theorem ino_at_fst (fs : FS) (path : String) : (fs.ino_at path).1 = path := by
  unfold FS.ino_at
  split <;> rfl

theorem MapSpec.buf_length {fs : FS} {path : String} {N : Int} {fs1 : FS} {buf : List Byte}
    (h : MapSpec fs path N fs1 buf) : buf.length = N.toNat := by
  rw [h.buf_eq, List.length_take, h.data_len]
  exact min_eq_left (le_max_right _ _)

theorem MapSpec.old_length {fs : FS} {path : String} {N : Int} {fs1 : FS} {buf : List Byte}
    (h : MapSpec fs path N fs1 buf) (hfs : fs.Inv) (fd : Int) (f : OpenFile)
    (hf : fs.fdt fd = some f) : (fs.data f.ino).length ≤ (fs1.data f.ino).length := by
  by_cases hi : f.ino = fs.ino_at path
  · rw [hi, h.data_len]
    have : fs.data (fs.ino_at path) = fs.file_at path := by
      unfold FS.ino_at FS.file_at
      cases hd : fs.dir path with
      | some g => rfl
      | none =>
        exfalso
        have := hfs.open_lt fd f hf
        rw [hi] at this
        simp only [FS.ino_at, hd] at this
        omega
    rw [this]
    exact le_max_left _ _
  · rw [h.data_other _ hi]

theorem Inv_map_state (s : State) (hs : Inv s) (rvm : Int) (R : RVM) (segname : String)
    (N : Int) (p : Nat) (seg0 : Segment) (fs1 : FS) (buf : List Byte) (segN : Segment)
    (hNbase : segN.segbase = s.next_addr) (hNsize : segN.mapped_size = N)
    (hNfd : segN.fd = s.fs.next_fd) (hNst : segN.st = Status.MAPPED)
    (hNpath : segN.filepath = R.get_filepath segname)
    (hR : s.rvms rvm = some R) (hp : s.segs p = some seg0) (hu : seg0.st = Status.UNMAPPED)
    (huniq : ∀ id X n, s.rvms id = some X → X._name_seg_map n = some p →
      id = rvm ∧ n = segname)
    (hname : ∀ q, R._name_seg_map segname = some q → q = p)
    (hN0 : 0 ≤ N) (hN : N < 2147483648)
    (hm : MapSpec s.fs (R.get_filepath segname) N fs1 buf) :
    Inv { s with mem := upd s.mem s.next_addr (some buf),
                 next_addr := s.next_addr + 1,
                 segs := upd s.segs p (some segN),
                 rvms := upd s.rvms rvm (some
                   { R with
                     _name_seg_map := upd R._name_seg_map segname (some p),
                     _base_seg_map := upd R._base_seg_map s.next_addr (some p) }),
                 fs := fs1 } := by
  have hAfresh : s.mem s.next_addr = none := by
    cases h : s.mem s.next_addr with
    | none => rfl
    | some b => have := (hs.mem_lt _ b h).2; omega
  have hlive_addr : ∀ q sg, s.segs q = some sg → sg.st ≠ Status.UNMAPPED →
      sg.segbase ≠ s.next_addr ∧ sg.fd ≠ s.fs.next_fd ∧ q ≠ p := by
    intro q sg hq hst
    obtain ⟨b, hb, -⟩ := hs.live.buf q sg hq hst
    obtain ⟨f, hf, -, -⟩ := hs.live.file q sg hq hst
    have h1 := (hs.mem_lt _ b hb).2
    have h2 := (hs.fs.fd_lt _ f hf).2
    refine ⟨by omega, by omega, ?_⟩
    intro hqp; subst hqp
    rw [hp] at hq; cases hq
    exact hst hu
  have hseg : ∀ q sg, upd s.segs p (some
        segN) q = some sg →
      (q = p ∧ sg = segN) ∨
      (q ≠ p ∧ s.segs q = some sg) := by
    intro q sg hq
    rw [upd_apply] at hq
    split at hq
    · left; exact ⟨by assumption, by cases hq; rfl⟩
    · right; exact ⟨by assumption, hq⟩
  have hseg2 : ∀ q sg, s.segs q = some sg → q ≠ p → upd s.segs p (some
        segN) q = some sg := by
    intro q sg hq hne
    rw [upd_ne _ _ hne]; exact hq
  have old : ∀ id X, upd s.rvms rvm (some
      { R with _name_seg_map := upd R._name_seg_map segname (some p),
               _base_seg_map := upd R._base_seg_map s.next_addr (some p) }) id = some X →
      ∃ X0, s.rvms id = some X0 ∧ X._backing_store = X0._backing_store ∧
        (∀ n q, X._name_seg_map n = some q →
          (id = rvm ∧ n = segname ∧ q = p) ∨ (X0._name_seg_map n = some q ∧ q ≠ p)) ∧
        (∀ b q, X._base_seg_map b = some q →
          (id = rvm ∧ b = s.next_addr ∧ q = p) ∨ X0._base_seg_map b = some q) ∧
        (∀ n q, X0._name_seg_map n = some q → X._name_seg_map n = some q) ∧
        (∀ b q, X0._base_seg_map b = some q → X._base_seg_map b = some q) ∧
        (id = rvm → X._name_seg_map segname = some p ∧ X._base_seg_map s.next_addr = some p) := by
    intro id X hX
    rw [upd_apply] at hX
    split at hX
    · rename_i hid
      cases hX; subst hid
      refine ⟨R, hR, rfl, ?_, ?_, ?_, ?_, ?_⟩
      · intro n q hnq
        simp only [upd_apply] at hnq
        split at hnq
        · rename_i hns
          cases hnq; exact Or.inl ⟨rfl, hns, rfl⟩
        · rename_i hns
          by_cases hqp : q = p
          · subst hqp
            exact absurd (huniq id R n hR hnq).2 hns
          · exact Or.inr ⟨hnq, hqp⟩
      · intro b q hbq
        simp only [upd_apply] at hbq
        split at hbq
        · rename_i hba
          cases hbq; exact Or.inl ⟨rfl, hba, rfl⟩
        · exact Or.inr hbq
      · intro n q hnq
        simp only [upd_apply]
        split
        · rename_i hns; subst hns
          rw [hname q hnq]
        · exact hnq
      · intro b q hbq
        simp only [upd_apply]
        split
        · rename_i hba
          exfalso
          obtain ⟨sg, n, hsg, hsgb, hsgst, -⟩ := hs.cat.base_seg id R b q hR hbq
          have := (hlive_addr q sg hsg hsgst).1
          rw [hsgb] at this
          exact this hba
        · exact hbq
      · intro _
        exact ⟨upd_same _ _ _, upd_same _ _ _⟩
    · rename_i hid
      refine ⟨X, hX, rfl, ?_, fun b q hbq => Or.inr hbq, fun n q hnq => hnq,
        fun b q hbq => hbq, fun h => absurd h hid⟩
      intro n q hnq
      right
      refine ⟨hnq, ?_⟩
      intro hqp; subst hqp
      exact hid (huniq id X n hX hnq).1
  have hacq : ∀ tid t b q, s.transs tid = some t → (b, q) ∈ t._segs →
      ∃ sg, s.segs q = some sg ∧ sg.st = Status.ACQUIRED ∧ q ≠ p := by
    intro tid t b q ht hbq
    obtain ⟨sg, hsg, hst⟩ := hs.trans.acquired tid t b q ht hbq
    exact ⟨sg, hsg, hst, (hlive_addr q sg hsg (by rw [hst]; decide)).2.2⟩
  have hbl := hm.buf_length
  exact
  { fs := FS.Inv_map s.fs hs.fs _ N fs1 buf hN hm
    cat :=
    { name_seg := by
        intro id X n q hX hn
        obtain ⟨X0, hX0, hdir, hnm, -, -, -, -⟩ := old id X hX
        rcases hnm n q hn with ⟨rfl, rfl, rfl⟩ | ⟨hn0, hqp⟩
        · refine ⟨_, upd_same _ _ _, ?_⟩
          rw [hR] at hX0; cases hX0
          rw [hNpath]
          simp only [RVM.get_filepath, hdir]
        · obtain ⟨sg, hsg, hpath⟩ := hs.cat.name_seg id X0 n q hX0 hn0
          refine ⟨sg, hseg2 q sg hsg hqp, ?_⟩
          rw [hpath]; simp only [RVM.get_filepath, hdir]
      name_base := by
        intro id X n q sg hX hn hq hst
        obtain ⟨X0, hX0, hdir, hnm, -, -, hbfwd, hnew⟩ := old id X hX
        rcases hnm n q hn with ⟨rfl, rfl, rfl⟩ | ⟨hn0, hqp⟩
        · rcases hseg _ sg hq with ⟨-, rfl⟩ | ⟨hne, -⟩
          · rw [hNbase]; exact (hnew rfl).2
          · exact absurd rfl hne
        · rcases hseg _ sg hq with ⟨heq, -⟩ | ⟨-, hq0⟩
          · exact absurd heq hqp
          · exact hbfwd _ _ (hs.cat.name_base id X0 n q sg hX0 hn0 hq0 hst)
      name_inj := by
        intro id X n q id1 X1 n1 hX hn hX1 hn1
        obtain ⟨X0, hX0, -, hnm, -, -, -, -⟩ := old id X hX
        obtain ⟨X10, hX10, -, hnm1, -, -, -, -⟩ := old id1 X1 hX1
        rcases hnm n q hn with ⟨rfl, rfl, rfl⟩ | ⟨hn0, hqp⟩
        · rcases hnm1 n1 _ hn1 with ⟨rfl, rfl, -⟩ | ⟨-, hqp1⟩
          · exact ⟨rfl, rfl⟩
          · exact absurd rfl hqp1
        · rcases hnm1 n1 _ hn1 with ⟨-, -, rfl⟩ | ⟨hn10, -⟩
          · exact absurd rfl hqp
          · exact hs.cat.name_inj id X0 n q id1 X10 n1 hX0 hn0 hX10 hn10
      base_seg := by
        intro id X b q hX hb
        obtain ⟨X0, hX0, -, -, hbm, hnfwd, -, hnew⟩ := old id X hX
        rcases hbm b q hb with ⟨rfl, rfl, rfl⟩ | hb0
        · exact ⟨_, segname, upd_same _ _ _, hNbase, by rw [hNst]; decide, (hnew rfl).1⟩
        · obtain ⟨sg, n, hsg, hsgb, hsgst, hn⟩ := hs.cat.base_seg id X0 b q hX0 hb0
          exact ⟨sg, n, hseg2 q sg hsg (hlive_addr q sg hsg hsgst).2.2, hsgb, hsgst,
            hnfwd n q hn⟩ }
    live :=
    { buf := by
        intro q sg hq hst
        rcases hseg q sg hq with ⟨-, rfl⟩ | ⟨-, hq0⟩
        · refine ⟨buf, by rw [hNbase]; exact upd_same _ _ _, ?_⟩
          rw [hbl, hNsize]; exact Int.toNat_of_nonneg hN0
        · obtain ⟨b, hb1, hb2⟩ := hs.live.buf q sg hq0 hst
          have := (hlive_addr q sg hq0 hst).1
          exact ⟨b, by show upd s.mem _ _ _ = _; rw [upd_ne _ _ this]; exact hb1, hb2⟩
      file := by
        intro q sg hq hst
        rcases hseg q sg hq with ⟨-, rfl⟩ | ⟨-, hq0⟩
        · obtain ⟨pos, hpos⟩ := hm.fdt_new
          refine ⟨_, by rw [hNfd]; exact hpos, by rw [hNpath]; exact ino_at_fst _ _, ?_⟩
          show sg.mapped_size ≤
            ((fs1.data (s.fs.ino_at (R.get_filepath segname))).length : Int)
          rw [hm.data_len, Nat.cast_max, hNsize]
          apply le_max_of_le_right
          omega
        · obtain ⟨f, hf1, hf2, hf3⟩ := hs.live.file q sg hq0 hst
          have := (hlive_addr q sg hq0 hst).2.1
          refine ⟨f, by show fs1.fdt _ = _; rw [hm.fdt_other _ this]; exact hf1, hf2, ?_⟩
          have := hm.old_length hs.fs _ f hf1
          show sg.mapped_size ≤ ((fs1.data f.ino).length : Int)
          omega
      distinct := by
        intro q1 q2 sg1 sg2 h1 h2 hst1 hst2 hne
        rcases hseg q1 sg1 h1 with ⟨rfl, rfl⟩ | ⟨hne1, h10⟩
        · rcases hseg q2 sg2 h2 with ⟨rfl, -⟩ | ⟨-, h20⟩
          · exact absurd rfl hne
          · have := hlive_addr q2 sg2 h20 hst2
            rw [hNbase, hNfd]
            exact ⟨fun h => this.1 h.symm, fun h => this.2.1 h.symm⟩
        · rcases hseg q2 sg2 h2 with ⟨rfl, rfl⟩ | ⟨-, h20⟩
          · have := hlive_addr q1 sg1 h10 hst1
            rw [hNbase, hNfd]
            exact ⟨this.1, this.2.1⟩
          · exact hs.live.distinct q1 q2 sg1 sg2 h10 h20 hst1 hst2 hne }
    trans :=
    { store := by
        intro tid t ht
        obtain ⟨id, X0, hX0, hall⟩ := hs.trans.store tid t ht
        by_cases hid : id = rvm
        · subst hid
          rw [hR] at hX0; cases hX0
          refine ⟨id, _, upd_same _ _ _, ?_⟩
          intro b q hbq
          have h1 := hall b q hbq
          obtain ⟨X00, hX00, -, -, -, -, hbfwd, -⟩ := old id _ (upd_same _ _ _)
          rw [hR] at hX00; cases hX00
          exact hbfwd b q h1
        · exact ⟨id, X0, by show upd s.rvms _ _ _ = _; rw [upd_ne _ _ hid]; exact hX0, hall⟩
      acquired := by
        intro tid t b q ht hbq
        obtain ⟨sg, hsg, hst, hqp⟩ := hacq tid t b q ht hbq
        exact ⟨sg, hseg2 q sg hsg hqp, hst⟩
      exclusive := hs.trans.exclusive
      held := by
        intro q sg hq hst
        rcases hseg q sg hq with ⟨-, rfl⟩ | ⟨-, hq0⟩
        · rw [hNst] at hst; cases hst
        · exact hs.trans.held q sg hq0 hst
      regions := by
        intro tid t r ht hr
        obtain ⟨⟨b, hb⟩, h2, h3, h4, h5⟩ := hs.trans.regions tid t r ht hr
        refine ⟨⟨b, hb⟩, h2, h3, h4, ?_⟩
        intro sg hsg
        obtain ⟨sg0, hsg0, -, hqp⟩ := hacq tid t b _ ht hb
        rcases hseg _ sg hsg with ⟨heq, -⟩ | ⟨-, hq0⟩
        · exact absurd heq hqp
        · exact h5 sg hq0 }
    addr_pos := by
      have := hs.addr_pos
      show 0 < s.next_addr + 1
      omega
    rvm_id_nonneg := hs.rvm_id_nonneg
    trans_id_nonneg := hs.trans_id_nonneg
    mem_lt := by
      intro a b1 hab
      have h0 := hs.addr_pos
      show 0 < a ∧ a < s.next_addr + 1
      have hab1 : upd s.mem s.next_addr (some buf) a = some b1 := hab
      rw [upd_apply] at hab1
      split at hab1
      · omega
      · have := hs.mem_lt a b1 hab1; omega
    segs_lt := by
      intro q sg hq
      rcases hseg q sg hq with ⟨rfl, -⟩ | ⟨-, hq0⟩
      · exact hs.segs_lt _ seg0 hp
      · exact hs.segs_lt q sg hq0
    size_lt := by
      intro q sg hq hst
      rcases hseg q sg hq with ⟨-, rfl⟩ | ⟨-, hq0⟩
      · rw [hNsize]; exact hN
      · exact hs.size_lt q sg hq0 hst
    rvms_le := by
      intro id X hX
      obtain ⟨X0, hX0, -, -, -, -, -, -⟩ := old id X hX
      exact hs.rvms_le id X0 hX0
    transs_le := hs.transs_le
    store_dir := by
      intro id X hX
      obtain ⟨X0, hX0, hdir, -, -, -, -, -⟩ := old id X hX
      rw [hdir]; exact hs.store_dir id X0 hX0
    store_inj := by
      intro id X id1 X1 hX hX1 heq
      obtain ⟨X0, hX0, hdir, -, -, -, -, -⟩ := old id X hX
      obtain ⟨X10, hX10, hdir1, -, -, -, -, -⟩ := old id1 X1 hX1
      rw [hdir, hdir1] at heq
      exact hs.store_inj id X0 id1 X10 hX0 hX10 heq }

theorem rvm_map_ok (rvm : Int) (segname : String) (N : Int) (s : State) (v : Int) (s1 : State)
    (hs : Inv s) (hN : isInt N) (h : rvm_map rvm segname N s = Outcome.ok v s1) :
    ∃ R, s.rvms rvm = some R ∧
      ((∃ p seg, R._name_seg_map segname = some p ∧ s.segs p = some seg ∧
          seg.st ≠ Status.UNMAPPED ∧ v = -1 ∧ s1 = s) ∨
       (∃ p seg, R._name_seg_map segname = some p ∧ s.segs p = some seg ∧
          seg.st = Status.UNMAPPED ∧ 0 ≤ N ∧ v = s.next_addr ∧
          s1 = map_state s rvm R segname N p) ∨
       (R._name_seg_map segname = none ∧ 0 ≤ N ∧ v = s.next_addr ∧
          s1 = map_state (new_segment s) rvm R segname N s.next_seg)) := by
  unfold rvm_map at h
  cases hR : s.rvms rvm with
  | none => simp [hR] at h
  | some R =>
    simp only [hR, RVM.find_seg_by_name] at h
    refine ⟨R, rfl, ?_⟩
    cases hn : R._name_seg_map segname with
    | none =>
      simp only [hn] at h
      by_cases hN0 : 0 ≤ N
      · rw [map_segment_eq rvm R segname N _ _ (new_segment s) hs.fs hN0 hN] at h
        simp only [Outcome.ok.injEq] at h
        exact Or.inr (Or.inr ⟨rfl, hN0, h.1.symm, h.2.symm⟩)
      · obtain ⟨s2, h2⟩ := map_segment_neg rvm R segname N s.next_seg {} (new_segment s) hs.fs
          (by omega)
        rw [h2] at h; cases h
    | some p =>
      simp only [hn] at h
      cases hp : s.segs p with
      | none => simp [hp] at h
      | some seg =>
        simp only [hp] at h
        by_cases hu : seg.st = Status.UNMAPPED
        · simp only [hu, ne_eq, not_true_eq_false, if_false] at h
          by_cases hN0 : 0 ≤ N
          · rw [map_segment_eq rvm R segname N _ _ s hs.fs hN0 hN] at h
            simp only [Outcome.ok.injEq] at h
            exact Or.inr (Or.inl ⟨p, seg, rfl, hp, hu, hN0, h.1.symm, h.2.symm⟩)
          · obtain ⟨s2, h2⟩ := map_segment_neg rvm R segname N p seg s hs.fs (by omega)
            rw [h2] at h; cases h
        · simp only [hu, ne_eq, not_false_eq_true, if_true, Outcome.ok.injEq] at h
          exact Or.inl ⟨p, seg, rfl, hp, hu, h.1.symm, h.2.symm⟩

theorem Inv_rvm_map (rvm : Int) (segname : String) (N : Int) (s : State) (v : Int) (s1 : State)
    (hs : Inv s) (hN : isInt N) (h : rvm_map rvm segname N s = Outcome.ok v s1) : Inv s1 := by
  obtain ⟨R, hR, hcase⟩ := rvm_map_ok rvm segname N s v s1 hs hN h
  rcases hcase with ⟨p, seg, -, -, -, -, rfl⟩ | ⟨p, seg, hn, hp, hu, hN0, -, rfl⟩ |
    ⟨hn, hN0, -, rfl⟩
  · exact hs
  · apply Inv_map_state s hs rvm R segname N p seg _ _ _ rfl rfl rfl rfl rfl hR hp hu
    · intro id X n hX hnp
      exact hs.cat.name_inj id X n p rvm R segname hX hnp hR hn
    · intro q hq
      rw [hn] at hq; cases hq; rfl
    · exact hN0
    · exact hN.2
    · exact map_fs_spec s.fs hs.fs _ N hN0
  · have hs' := Inv_new_segment s hs
    apply Inv_map_state (new_segment s) hs' rvm R segname N s.next_seg {} _ _ _
      rfl rfl rfl rfl rfl hR
    · exact upd_same _ _ _
    · rfl
    · intro id X n hX hnp
      exfalso
      obtain ⟨sg, hsg, -⟩ := hs.cat.name_seg id X n _ hX hnp
      have := hs.segs_lt _ sg hsg
      omega
    · intro q hq
      rw [hn] at hq; cases hq
    · exact hN0
    · exact hN.2
    · exact map_fs_spec s.fs hs.fs _ N hN0

theorem Inv_step (op : Op) (s s1 : State) (hs : Inv s) (hop : op.wellTyped)
    (h : step op s = some s1) : Inv s1 := by
  cases op with
  | init directory =>
    simp only [step] at h
    cases ho : rvm_init directory s with
    | ok v s2 =>
      rw [ho] at h; simp only [Outcome.returned, Option.some.injEq] at h; subst h
      exact Inv_rvm_init directory s hs v s2 ho
    | fatal s2 => rw [ho] at h; cases h
    | undef => rw [ho] at h; cases h
  | map rvm segname size_to_create =>
    simp only [step] at h
    cases ho : rvm_map rvm segname size_to_create s with
    | ok v s2 =>
      rw [ho] at h; simp only [Outcome.returned, Option.some.injEq] at h; subst h
      exact Inv_rvm_map rvm segname size_to_create s v s2 hs hop ho
    | fatal s2 => rw [ho] at h; cases h
    | undef => rw [ho] at h; cases h
  | unmap rvm segbase =>
    simp only [step] at h
    cases ho : rvm_unmap rvm segbase s with
    | ok v s2 =>
      rw [ho] at h; simp only [Outcome.returned, Option.some.injEq] at h; subst h
      exact Inv_rvm_unmap rvm segbase s s2 hs ho
    | fatal s2 => rw [ho] at h; cases h
    | undef => rw [ho] at h; cases h
  | destroy rvm segname =>
    simp only [step] at h
    cases ho : rvm_destroy rvm segname s with
    | ok v s2 =>
      rw [ho] at h; simp only [Outcome.returned, Option.some.injEq] at h; subst h
      exact Inv_rvm_destroy rvm segname s s2 hs ho
    | fatal s2 => rw [ho] at h; cases h
    | undef => rw [ho] at h; cases h
  | begin_trans rvm numsegs segbases =>
    simp only [step] at h
    cases ho : rvm_begin_trans rvm numsegs segbases s with
    | ok v s2 =>
      rw [ho] at h; simp only [Outcome.returned, Option.some.injEq] at h; subst h
      exact Inv_rvm_begin_trans rvm numsegs segbases s v s2 hs ho
    | fatal s2 => rw [ho] at h; cases h
    | undef => rw [ho] at h; cases h
  | about_to_modify tid segbase offset size =>
    simp only [step] at h
    cases ho : rvm_about_to_modify tid segbase offset size s with
    | ok v s2 =>
      rw [ho] at h; simp only [Outcome.returned, Option.some.injEq] at h; subst h
      exact Inv_rvm_about_to_modify tid segbase offset size s s2 hs hop.1 ho
    | fatal s2 => rw [ho] at h; cases h
    | undef => rw [ho] at h; cases h
  | commit_trans tid =>
    simp only [step] at h
    cases ho : rvm_commit_trans tid s with
    | ok v s2 =>
      rw [ho] at h; simp only [Outcome.returned, Option.some.injEq] at h; subst h
      exact Inv_rvm_commit_trans tid s s2 hs ho
    | fatal s2 => rw [ho] at h; cases h
    | undef => rw [ho] at h; cases h
  | abort_trans tid =>
    simp only [step] at h
    cases ho : rvm_abort_trans tid s with
    | ok v s2 =>
      rw [ho] at h; simp only [Outcome.returned, Option.some.injEq] at h; subst h
      exact Inv_rvm_abort_trans tid s s2 hs ho
    | fatal s2 => rw [ho] at h; cases h
    | undef => rw [ho] at h; cases h
  | truncate_log rvm =>
    simp only [step, rvm_truncate_log, Outcome.returned, Option.some.injEq] at h
    subst h; exact hs
  | write segbase offset bytes =>
    simp only [step] at h
    exact Inv_caller_write s hs segbase offset bytes s1 h

theorem Reachable.inv {s : State} (h : Reachable s) : Inv s := by
  induction h with
  | start fs hfs => exact Inv_start fs hfs
  | step s op s1 _ hop hstep ih => exact Inv_step op s s1 ih hop hstep

theorem reachable_run {s : State} (hs : Reachable s) :
    ∀ (ops : List Op) (s1 : State), (∀ op ∈ ops, op.wellTyped) → run ops s = some s1 →
      Reachable s1 := by
  intro ops
  induction ops generalizing s with
  | nil =>
    intro s1 _ h
    simp only [run, Option.some.injEq] at h
    subst h; exact hs
  | cons op rest ih =>
    intro s1 hty h
    simp only [run] at h
    cases hst : step op s with
    | none => rw [hst] at h; cases h
    | some s2 =>
      rw [hst] at h
      exact ih (Reachable.step s op s2 hs (hty op (List.mem_cons_self _ _)) hst) s1
        (fun o ho => hty o (List.mem_cons_of_mem _ ho)) h

theorem FS.empty_initial : FS.empty.initial :=
  { no_fd := fun _ => rfl
    fd_ge := by decide
    gen_lt := by intro path g h; cases h
    len_lt := by intro i; simp [FS.empty] }

theorem ex_mapped_reachable : Reachable ex_mapped := by
  apply reachable_run (Reachable.start FS.empty FS.empty_initial)
    [Op.init "db", Op.map 1 "accounts" 16]
  · intro op hop
    simp only [List.mem_cons, List.mem_singleton, List.not_mem_nil, or_false] at hop
    rcases hop with rfl | rfl
    · trivial
    · show isInt 16
      unfold isInt; omega
  · rfl

theorem ex_begun_reachable : Reachable ex_begun := by
  apply reachable_run ex_mapped_reachable [Op.begin_trans 1 1 [1]]
  · intro op hop
    simp only [List.mem_singleton] at hop
    subst hop
    show isInt 1 ∧ (1 : Int) ≤ ([1] : List Int).length
    unfold isInt; simp
  · rfl

theorem ex_written_reachable : Reachable ex_written := by
  apply reachable_run ex_begun_reachable [Op.about_to_modify 1 1 0 8, Op.write 1 0 digits]
  · intro op hop
    simp only [List.mem_cons, List.mem_singleton, List.not_mem_nil, or_false] at hop
    rcases hop with rfl | rfl
    · show isInt 0 ∧ isInt 8
      unfold isInt; omega
    · trivial
  · rfl

/-! ## C8: mapping a name that is already mapped -/

/-- C8. Mapping a name whose segment exists with status MAPPED or ACQUIRED
returns the error value `(void*)-1` and leaves the whole state as it was:
buffers, handles, declared sizes, statuses, both catalogs and the files, for
every requested size. -/
theorem map_twice_unchanged (s : State) (rvm : Int) (R : RVM) (segname : String) (p : Nat)
    (seg : Segment) (size_to_create : Int)
    (hR : s.rvms rvm = some R) (hn : R._name_seg_map segname = some p)
    (hp : s.segs p = some seg)
    (hst : seg.st = Status.MAPPED ∨ seg.st = Status.ACQUIRED) :
    rvm_map rvm segname size_to_create s = Outcome.ok (-1) s := by
  have hu : seg.st ≠ Status.UNMAPPED := by
    rcases hst with h | h <;> rw [h] <;> decide
  simp only [rvm_map, hR, RVM.find_seg_by_name, hn, hp, hu, ne_eq, not_false_eq_true, if_true]

/-- Witness of C8: in `ex_begun` the segment `accounts` is ACQUIRED, and
mapping it again with size 32 fails without a change. -/
theorem map_twice_unchanged_witness :
    (∃ R seg, ex_begun.rvms 1 = some R ∧ R._name_seg_map "accounts" = some 0 ∧
      ex_begun.segs 0 = some seg ∧ seg.st = Status.ACQUIRED) ∧
    rvm_map 1 "accounts" 32 ex_begun = Outcome.ok (-1) ex_begun :=
  ⟨⟨_, _, rfl, rfl, rfl, rfl⟩,
    map_twice_unchanged ex_begun 1 _ "accounts" 0 _ 32 rfl rfl rfl (Or.inr rfl)⟩

/-! ## C6 and C7: `rvm_begin_trans` -/

theorem begin_check_all (R : RVM) (s : State) :
    ∀ (n : Nat) (l : List Int), n ≤ l.length →
      (∀ b ∈ l.take n, ∃ p seg, R._base_seg_map b = some p ∧ s.segs p = some seg ∧
        seg.st = Status.MAPPED) →
      begin_check R s n l = some true := by
  intro n
  induction n with
  | zero => intro l _ _; rfl
  | succ n ih =>
    intro l hn h
    cases l with
    | nil => simp at hn
    | cons b rest =>
      obtain ⟨p, seg, hb, hp, hst⟩ := h b (by simp)
      simp only [begin_check, RVM.find_seg_by_base, hb, hp, hst, ne_eq, not_true_eq_false,
        if_false]
      apply ih rest (by simpa using hn)
      intro b1 hb1
      exact h b1 (by simp [List.take_succ_cons, hb1])

/-- C6. `rvm_begin_trans` is all-or-nothing on failure: when one of the
`numsegs` handles is unknown to the store, or resolves to a segment that is
not MAPPED, the call returns `-1` and the state is unchanged (no status
changes, no transaction is registered, no id is used up). -/
theorem begin_all_or_nothing (s : State) (hs : Reachable s) (rvm : Int) (R : RVM)
    (numsegs : Int) (segbases : List Int)
    (hR : s.rvms rvm = some R) (hn : numsegs ≤ segbases.length)
    (hbad : ∃ b ∈ segbases.take numsegs.toNat, R._base_seg_map b = none ∨
      ∃ p seg, R._base_seg_map b = some p ∧ s.segs p = some seg ∧ seg.st ≠ Status.MAPPED) :
    rvm_begin_trans rvm numsegs segbases s = Outcome.ok (-1) s := by
  have hi := hs.inv
  have hbase : ∀ b p, R._base_seg_map b = some p → ∃ seg, s.segs p = some seg := by
    intro b p hbp
    obtain ⟨seg, n, h1, -, -, -⟩ := hi.cat.base_seg rvm R b p hR hbp
    exact ⟨seg, h1⟩
  have hlen : numsegs.toNat ≤ segbases.length := by omega
  have hc := begin_check_false R s hbase numsegs.toNat segbases hlen hbad
  simp only [rvm_begin_trans, hR, hc]

/-- Witness of C6: in `ex_begun` the handle `1` is ACQUIRED and the handle `7`
is unknown; beginning a transaction over `[1, 7]` fails without a change. -/
theorem begin_all_or_nothing_witness :
    rvm_begin_trans 1 2 [1, 7] ex_begun = Outcome.ok (-1) ex_begun :=
  begin_all_or_nothing ex_begun ex_begun_reachable 1 _ 2 [1, 7] rfl (by decide)
    ⟨7, by decide, Or.inl rfl⟩

/-- What a successful `rvm_begin_trans` establishes. -/
theorem rvm_begin_trans_spec (s : State) (hs : Reachable s) (rvm : Int) (R : RVM)
    (numsegs : Int) (segbases : List Int)
    (hR : s.rvms rvm = some R) (hn : numsegs ≤ segbases.length)
    (hall : ∀ b ∈ segbases.take numsegs.toNat, ∃ p seg, R._base_seg_map b = some p ∧
      s.segs p = some seg ∧ seg.st = Status.MAPPED) :
    ∃ s1 t, rvm_begin_trans rvm numsegs segbases s = Outcome.ok (s.trans_id + 1) s1 ∧
      s.trans_id + 1 ≠ -1 ∧
      s.transs (s.trans_id + 1) = none ∧
      s1.transs (s.trans_id + 1) = some t ∧
      t._regions = [] ∧
      (∀ b p, (b, p) ∈ t._segs ↔
        (b ∈ segbases.take numsegs.toNat ∧ R._base_seg_map b = some p)) ∧
      (∀ b ∈ segbases.take numsegs.toNat, ∃ p seg, R._base_seg_map b = some p ∧
        s.segs p = some seg ∧ s1.segs p = some { seg with st := Status.ACQUIRED }) ∧
      (∀ p, (¬ ∃ b ∈ segbases.take numsegs.toNat, R._base_seg_map b = some p) →
        s1.segs p = s.segs p) ∧
      (∀ tid, tid ≠ s.trans_id + 1 → s1.transs tid = s.transs tid) ∧
      s1.mem = s.mem ∧ s1.fs = s.fs ∧ s1.rvms = s.rvms := by
  have hi := hs.inv
  have hlen : numsegs.toNat ≤ segbases.length := by omega
  have hc := begin_check_all R s numsegs.toNat segbases hlen hall
  have hnone : s.transs (s.trans_id + 1) = none := by
    cases hr : s.transs (s.trans_id + 1) with
    | none => rfl
    | some t => have := (hi.transs_le _ _ hr).2; omega
  obtain ⟨⟨segs1, m⟩, ha⟩ := begin_acquire_some R numsegs.toNat segbases s.segs [] hlen
    (by
      intro b hb
      obtain ⟨p, seg, h1, h2, -⟩ := hall b hb
      exact ⟨p, seg, h1, h2⟩)
  have hbase : ∀ b p, R._base_seg_map b = some p →
      ∃ seg, s.segs p = some seg ∧ seg.segbase = b := by
    intro b p hbp
    obtain ⟨seg, n, h1, h2, -, -⟩ := hi.cat.base_seg rvm R b p hR hbp
    exact ⟨seg, h1, h2⟩
  obtain ⟨i1, i2, i3, i4, i5⟩ := begin_acquire_spec R _ _ _ _ _ _ hbase ha
  refine ⟨{ s with trans_id := s.trans_id + 1, segs := segs1,
                   transs := upd s.transs (s.trans_id + 1)
                     (some { _regions := [], _segs := m }) },
    { _regions := [], _segs := m }, ?_, ?_, hnone, upd_same _ _ _, rfl, ?_, ?_, i2, ?_,
    rfl, rfl, rfl⟩
  · simp only [rvm_begin_trans, hR, hc, hnone, ha]
  · have := hi.trans_id_nonneg; omega
  · intro b p
    constructor
    · intro hbp
      rcases i3 b p hbp with h1 | h1
      · simp at h1
      · exact h1
    · intro h1
      exact i5 b p h1.1 h1.2
  · intro b hb
    obtain ⟨p, seg, h1, h2, -⟩ := hall b hb
    obtain ⟨sg, hsg, hsg1⟩ := i1 p ⟨b, hb, h1⟩
    rw [h2] at hsg; cases hsg
    exact ⟨p, seg, h1, h2, hsg1⟩
  · intro tid htid
    exact upd_ne _ _ htid

theorem finish_trans_fs (tid : Int) (t : Transcation) (s s1 : State)
    (h : finish_trans tid t s = Outcome.ok () s1) : s1.fs = s.fs := by
  obtain ⟨segs1, -, rfl⟩ := finish_trans_ok tid t s s1 h
  rfl

theorem rvm_abort_trans_fs (tid : Int) (s s1 : State)
    (h : rvm_abort_trans tid s = Outcome.ok () s1) : s1.fs = s.fs := by
  obtain ⟨t, s2, -, ha, hf⟩ := rvm_abort_trans_ok tid s s1 h
  rw [finish_trans_fs tid t s2 s1 hf, abort_regions_frame _ s s2 ha]

theorem mem_write_fs (s : State) (base off : Int) (bytes : List Byte) (s1 : State)
    (h : mem_write s base off bytes = some s1) : s1.fs = s.fs := by
  rcases mem_write_some s base off bytes s1 h with ⟨-, rfl⟩ | ⟨-, buf, -, -, -, rfl⟩ <;> rfl

theorem rvm_begin_trans_fs (rvm numsegs : Int) (l : List Int) (s : State) (v : Int)
    (s1 : State) (h : rvm_begin_trans rvm numsegs l s = Outcome.ok v s1) : s1.fs = s.fs := by
  unfold rvm_begin_trans at h
  cases hR : s.rvms rvm with
  | none => simp [hR] at h
  | some R =>
    simp only [hR] at h
    cases hc : begin_check R s numsegs.toNat l with
    | none => simp [hc] at h
    | some b =>
      cases b with
      | false =>
        simp only [hc, Outcome.ok.injEq] at h
        rw [← h.2]
      | true =>
        simp only [hc] at h
        split at h
        · cases h
        · simp only [Outcome.ok.injEq] at h
          rw [← h.2]

theorem step_quiet_fs (op : Op) (hq : op.quiet) (s s1 : State) (h : step op s = some s1) :
    s1.fs = s.fs := by
  cases op with
  | init directory => exact absurd hq (by simp [Op.quiet])
  | map rvm segname size_to_create => exact absurd hq (by simp [Op.quiet])
  | unmap rvm segbase => exact absurd hq (by simp [Op.quiet])
  | destroy rvm segname => exact absurd hq (by simp [Op.quiet])
  | commit_trans tid => exact absurd hq (by simp [Op.quiet])
  | truncate_log rvm => exact absurd hq (by simp [Op.quiet])
  | begin_trans rvm numsegs segbases =>
    simp only [step] at h
    cases ho : rvm_begin_trans rvm numsegs segbases s with
    | ok v s2 =>
      rw [ho] at h; simp only [Outcome.returned, Option.some.injEq] at h; subst h
      exact rvm_begin_trans_fs rvm numsegs segbases s v s2 ho
    | fatal s2 => rw [ho] at h; cases h
    | undef => rw [ho] at h; cases h
  | about_to_modify tid segbase offset size =>
    simp only [step] at h
    cases ho : rvm_about_to_modify tid segbase offset size s with
    | ok v s2 =>
      rw [ho] at h; simp only [Outcome.returned, Option.some.injEq] at h; subst h
      obtain ⟨t, p, seg, bytes, -, -, -, -, -, -, rfl⟩ :=
        rvm_about_to_modify_ok tid segbase offset size s s2 ho
      rfl
    | fatal s2 => rw [ho] at h; cases h
    | undef => rw [ho] at h; cases h
  | abort_trans tid =>
    simp only [step] at h
    cases ho : rvm_abort_trans tid s with
    | ok v s2 =>
      rw [ho] at h; simp only [Outcome.returned, Option.some.injEq] at h; subst h
      exact rvm_abort_trans_fs tid s s2 ho
    | fatal s2 => rw [ho] at h; cases h
    | undef => rw [ho] at h; cases h
  | write segbase offset bytes =>
    simp only [step, caller_write] at h
    cases hw : mem_write s segbase offset bytes with
    | none => rw [hw] at h; cases h
    | some s2 =>
      rw [hw] at h; simp only [Outcome.returned, Option.some.injEq] at h; subst h
      exact mem_write_fs s segbase offset bytes s2 hw

theorem run_quiet_fs :
    ∀ (ops : List Op) (s s1 : State), (∀ op ∈ ops, op.quiet) → run ops s = some s1 →
      s1.fs = s.fs := by
  intro ops
  induction ops with
  | nil =>
    intro s s1 _ h
    simp only [run, Option.some.injEq] at h
    subst h; rfl
  | cons op rest ih =>
    intro s s1 hq h
    simp only [run] at h
    cases hst : step op s with
    | none => rw [hst] at h; cases h
    | some s2 =>
      rw [hst] at h
      rw [ih s2 s1 (fun o ho => hq o (List.mem_cons_of_mem _ ho)) h,
        step_quiet_fs op (hq op (List.mem_cons_self _ _)) s s2 hst]

/-- C5. `rvm_abort_trans` changes no file: aborting a live transaction
returns, and the file system (directory, contents and length of every file,
descriptor table) is the same after the call as before it.  Moreover any
sequence of transaction beginnings, range declarations, aborts and writes of
the caller into buffers leaves the file system unchanged, so after the abort
the files are as they were when the transaction began. -/
theorem abort_keeps_files (s : State) (hs : Reachable s) (tid : Int) (t : Transcation)
    (ht : s.transs tid = some t) :
    ∃ s1, rvm_abort_trans tid s = Outcome.ok () s1 ∧ s1.fs = s.fs ∧
      ∀ (s0 : State) (ops : List Op), (∀ op ∈ ops, op.quiet) → run ops s0 = some s →
        s1.fs = s0.fs := by
  obtain ⟨s1, h1⟩ := rvm_abort_trans_some tid t s hs.inv ht
  have hfs := rvm_abort_trans_fs tid s s1 h1
  refine ⟨s1, h1, hfs, ?_⟩
  intro s0 ops hq hrun
  rw [hfs]
  exact run_quiet_fs ops s0 s hq hrun

/-- Witness of C5: aborting the transaction `1` of `ex_written`, which was
reached from `ex_mapped` by begin, declare and a write of the caller. -/
theorem abort_keeps_files_witness :
    ∃ s1, rvm_abort_trans 1 ex_written = Outcome.ok () s1 ∧ s1.fs = ex_written.fs ∧
      s1.fs = ex_mapped.fs := by
  obtain ⟨s1, h1, h2, h3⟩ := abort_keeps_files ex_written ex_written_reachable 1 _ rfl
  refine ⟨s1, h1, h2, ?_⟩
  apply h3 ex_mapped [Op.begin_trans 1 1 [1], Op.about_to_modify 1 1 0 8, Op.write 1 0 digits]
  · intro op hop
    simp only [List.mem_cons, List.mem_singleton, List.not_mem_nil, or_false] at hop
    rcases hop with rfl | rfl | rfl <;> trivial
  · rfl

/-! ## C10: when `rvm_about_to_modify` terminates the process -/

theorem rvm_about_to_modify_fatal (tid base off size : Int) (s s1 : State)
    (h : rvm_about_to_modify tid base off size s = Outcome.fatal s1) : s1 = s := by
  unfold rvm_about_to_modify at h
  cases ht : s.transs tid with
  | none =>
    simp only [ht, Outcome.fatal.injEq] at h
    exact h.symm
  | some t =>
    simp only [ht] at h
    unfold Transcation.modify at h
    cases hf : segs_find t._segs base with
    | none =>
      simp only [hf, Outcome.fatal.injEq] at h
      exact h.symm
    | some p =>
      cases hp : s.segs p with
      | none => simp [hf, hp] at h
      | some seg =>
        simp only [hf, hp] at h
        by_cases hc : seg.mapped_size < wrap32 (off + size)
        · simp only [hc, if_true, Outcome.fatal.injEq] at h
          exact h.symm
        · simp only [hc, if_false] at h
          unfold Region.create at h
          by_cases hsz : size < 0
          · simp only [hsz, if_true, Outcome.fatal.injEq] at h
            exact h.symm
          · simp only [hsz, if_false] at h
            cases hr : mem_read s seg.segbase off size with
            | none => simp [hr] at h
            | some bytes => simp [hr] at h

/-- C10, as it stands, fails: in `ex_begun` the handle `1` is in the acquired
set of the transaction `1`, its segment has the declared size 16, and
`offset + length = -1` does not exceed it, yet `rvm_about_to_modify(1, 1, 0,
-1)` terminates the process (`operator new` is called with a negative size). -/
theorem modify_fatal_counterexample :
    (∃ t seg, ex_begun.transs 1 = some t ∧ segs_find t._segs 1 = some 0 ∧
      ex_begun.segs 0 = some seg ∧ ¬ (seg.mapped_size < 0 + (-1))) ∧
    rvm_about_to_modify 1 1 0 (-1) ex_begun = Outcome.fatal ex_begun :=
  ⟨⟨_, _, rfl, rfl, rfl, by decide⟩, rfl⟩

/-- C10, amended. For a length that is not negative and an `offset + length`
that is a value of `int`, `rvm_about_to_modify(T, handle, offset, length)`
terminates the process if and only if `handle` is not in the acquired set of
`T` or `offset + length` exceeds the declared mapped size of its segment; and
whenever the call terminates the process, for any arguments, the state is
the one before the call: no buffer byte is changed and no region is
appended. -/
theorem modify_fatal_iff (s : State) (hs : Reachable s) (tid : Int) (t : Transcation)
    (ht : s.transs tid = some t) (segbase offset size : Int)
    (hoff : isInt offset) (h0 : 0 ≤ size) (hsum : offset + size < 2147483648) :
    ((∃ s1, rvm_about_to_modify tid segbase offset size s = Outcome.fatal s1) ↔
      (segs_find t._segs segbase = none ∨
        ∃ p seg, segs_find t._segs segbase = some p ∧ s.segs p = some seg ∧
          seg.mapped_size < offset + size)) ∧
    (∀ tid1 b o n s1, rvm_about_to_modify tid1 b o n s = Outcome.fatal s1 → s1 = s) := by
  refine ⟨?_, fun tid1 b o n s1 h => rvm_about_to_modify_fatal tid1 b o n s s1 h⟩
  have hw : wrap32 (offset + size) = offset + size := by
    apply wrap32_of_isInt
    unfold isInt at hoff ⊢
    omega
  have hsz : ¬ size < 0 := by omega
  cases hf : segs_find t._segs segbase with
  | none =>
    constructor
    · intro _; exact Or.inl rfl
    · intro _
      exact ⟨s, by simp only [rvm_about_to_modify, ht, Transcation.modify, hf]⟩
  | some p =>
    obtain ⟨seg, hp, -⟩ := hs.inv.trans.acquired tid t segbase p ht (segs_find_mem _ _ _ hf)
    constructor
    · rintro ⟨s1, h⟩
      right
      refine ⟨p, seg, rfl, hp, ?_⟩
      by_contra hc
      simp only [rvm_about_to_modify, ht, Transcation.modify, hf, hp, hw, hc, if_false,
        Region.create, hsz] at h
      cases hr : mem_read s seg.segbase offset size with
      | none => simp [hr] at h
      | some bytes => simp [hr] at h
    · intro h
      rcases h with h | ⟨p1, seg1, h1, h2, h3⟩
      · cases h
      · cases h1
        rw [hp] at h2; cases h2
        exact ⟨s, by
          simp only [rvm_about_to_modify, ht, Transcation.modify, hf, hp, hw, h3, if_true]⟩

/-- Witness of the amended C10: in `ex_begun`, declaring 8 bytes at offset 10
of the 16-byte segment terminates the process and changes nothing. -/
theorem modify_fatal_iff_witness :
    (∃ s1, rvm_about_to_modify 1 1 10 8 ex_begun = Outcome.fatal s1) ∧
    (∀ s1, rvm_about_to_modify 1 1 10 8 ex_begun = Outcome.fatal s1 → s1 = ex_begun) := by
  have h := modify_fatal_iff ex_begun ex_begun_reachable 1 _ rfl 1 10 8
    (by unfold isInt; omega) (by omega) (by omega)
  refine ⟨h.1.mpr (Or.inr ⟨0, _, rfl, rfl, by decide⟩), fun s1 h1 => h.2 1 1 10 8 s1 h1⟩

/-! ## C9: what a successful `rvm_map` establishes -/

theorem MapSpec.file_at_eq {fs : FS} {path : String} {N : Int} {fs1 : FS} {buf : List Byte}
    (h : MapSpec fs path N fs1 buf) : fs1.file_at path = fs1.data (fs.ino_at path) := by
  have h1 := h.dir_path
  have h2 := ino_at_fst fs path
  unfold FS.file_at
  rw [h1]
  show fs1.data (path, (fs.ino_at path).2) = fs1.data (fs.ino_at path)
  congr 1
  exact Prod.ext h2.symm rfl

theorem rvm_map_some (s : State) (hs : Inv s) (rvm : Int) (R : RVM) (segname : String)
    (N : Int) (hR : s.rvms rvm = some R) (hN0 : 0 ≤ N) (hN : N < 2147483648)
    (hname : R._name_seg_map segname = none ∨
      ∃ p seg, R._name_seg_map segname = some p ∧ s.segs p = some seg ∧
        seg.st = Status.UNMAPPED) :
    ∃ s0 p, rvm_map rvm segname N s = Outcome.ok s.next_addr (map_state s0 rvm R segname N p) ∧
      (s0 = s ∨ s0 = new_segment s) := by
  have hint : isInt N := by unfold isInt; omega
  rcases hname with hn | ⟨p, seg, hn, hp, hu⟩
  · refine ⟨new_segment s, s.next_seg, ?_, Or.inr rfl⟩
    simp only [rvm_map, hR, RVM.find_seg_by_name, hn]
    exact map_segment_eq rvm R segname N _ _ (new_segment s) hs.fs hN0 hint
  · refine ⟨s, p, ?_, Or.inl rfl⟩
    simp only [rvm_map, hR, RVM.find_seg_by_name, hn, hp, hu, ne_eq, not_true_eq_false,
      if_false]
    exact map_segment_eq rvm R segname N _ _ s hs.fs hN0 hint

/-- What a successful `rvm_map` establishes. -/
theorem rvm_map_spec (s : State) (hs : Reachable s) (rvm : Int) (R : RVM) (segname : String)
    (N : Int) (hR : s.rvms rvm = some R) (hN0 : 0 ≤ N) (hN : N < 2147483648)
    (hname : R._name_seg_map segname = none ∨
      ∃ p seg, R._name_seg_map segname = some p ∧ s.segs p = some seg ∧
        seg.st = Status.UNMAPPED) :
    ∃ s1 R1 p seg buf f,
      rvm_map rvm segname N s = Outcome.ok s.next_addr s1 ∧
      s.next_addr ≠ -1 ∧ s.mem s.next_addr = none ∧
      (s1.fs.file_at (R.get_filepath segname)).length =
        max (s.fs.file_at (R.get_filepath segname)).length N.toNat ∧
      (∀ j, j < (s.fs.file_at (R.get_filepath segname)).length →
        byteAt (s1.fs.file_at (R.get_filepath segname)) j =
          byteAt (s.fs.file_at (R.get_filepath segname)) j) ∧
      (∀ j, (s.fs.file_at (R.get_filepath segname)).length ≤ j → j < N.toNat →
        byteAt (s1.fs.file_at (R.get_filepath segname)) j = 0) ∧
      s1.mem s.next_addr = some buf ∧ (buf.length : Int) = N ∧
      buf = (s1.fs.file_at (R.get_filepath segname)).take N.toNat ∧
      s1.rvms rvm = some R1 ∧ R1._backing_store = R._backing_store ∧
      R1._name_seg_map segname = some p ∧ R1._base_seg_map s.next_addr = some p ∧
      s1.segs p = some seg ∧ seg.st = Status.MAPPED ∧ seg.mapped_size = N ∧
      seg.segbase = s.next_addr ∧ seg.filepath = R.get_filepath segname ∧
      s1.fs.fdt seg.fd = some f ∧ f.ino.1 = R.get_filepath segname ∧
      s1.fs.dir (R.get_filepath segname) = some f.ino.2 := by
  have hi := hs.inv
  obtain ⟨s0, p, hmap, hs0⟩ := rvm_map_some s hi rvm R segname N hR hN0 hN hname
  have hfs0 : s0.fs = s.fs := by rcases hs0 with rfl | rfl <;> rfl
  have hmem0 : s0.mem = s.mem := by rcases hs0 with rfl | rfl <;> rfl
  have haddr0 : s0.next_addr = s.next_addr := by rcases hs0 with rfl | rfl <;> rfl
  have hm := map_fs_spec s.fs hi.fs (R.get_filepath segname) N hN0
  have hfresh : s.mem s.next_addr = none := by
    cases h : s.mem s.next_addr with
    | none => rfl
    | some b => have := (hi.mem_lt _ b h).2; omega
  have hfile := hm.file_at_eq
  obtain ⟨pos, hpos⟩ := hm.fdt_new
  have hrvms : (map_state s0 rvm R segname N p).rvms rvm = some
      ⟨R._backing_store, upd R._name_seg_map segname (some p),
        upd R._base_seg_map s0.next_addr (some p)⟩ := upd_same _ _ _
  have hsegs : (map_state s0 rvm R segname N p).segs p = some (map_seg s0 R segname N) :=
    upd_same _ _ _
  have hmem1 : (map_state s0 rvm R segname N p).mem s.next_addr =
      some (map_buf s.fs (R.get_filepath segname) N) := by
    simp only [map_state, hfs0, hmem0, haddr0, upd_same]
  have hfs1 : (map_state s0 rvm R segname N p).fs = map_fs s.fs (R.get_filepath segname) N := by
    simp only [map_state, hfs0]
  refine ⟨map_state s0 rvm R segname N p,
    ⟨R._backing_store, upd R._name_seg_map segname (some p),
      upd R._base_seg_map s0.next_addr (some p)⟩, p, map_seg s0 R segname N,
    map_buf s.fs (R.get_filepath segname) N,
    ⟨s.fs.ino_at (R.get_filepath segname), pos⟩, hmap, ?_⟩
  refine ⟨by have := hi.addr_pos; omega, hfresh, ?_⟩
  rw [hfs1, hfile]
  refine ⟨hm.data_len, hm.data_old, fun j hj _ => hm.data_zero j hj, hmem1, ?_, hm.buf_eq,
    hrvms, rfl, upd_same _ _ _, ?_, hsegs, rfl, rfl, haddr0, rfl, ?_, ino_at_fst _ _,
    hm.dir_path⟩
  · rw [hm.buf_length]; exact Int.toNat_of_nonneg hN0
  · rw [← haddr0]; exact upd_same _ _ _
  · show (map_fs s.fs (R.get_filepath segname) N).fdt s0.fs.next_fd = _
    rw [hfs0]; exact hpos

theorem Region.ino_written (s : State) (r : Region) (fd : Int) (f : OpenFile) (off : Nat)
    (bytes : List Byte) (hf : s.fs.fdt fd = some f) :
    r.ino { s with fs := s.fs.written fd f off bytes } = r.ino s := by
  unfold Region.ino
  cases hseg : s.segs r._seg with
  | none => simp only [hseg]
  | some seg =>
    simp only [hseg]
    by_cases hfd : seg.fd = fd
    · simp only [FS.written, hfd, upd_same, hf]
    · simp only [FS.written, upd_ne _ _ hfd]

theorem commit_regions_data (tid : Int) (t : Transcation) :
    ∀ (rs : List Region) (s s1 : State), Inv s → s.transs tid = some t →
      (∀ r ∈ rs, r ∈ t._regions) → commit_regions rs s = Outcome.ok () s1 →
      s1.fs.dir = s.fs.dir ∧
      (∀ i, (s.fs.data i).length ≤ (s1.fs.data i).length) ∧
      (∀ (i : Ino) (B : List Byte), (∀ r ∈ rs, r.ino s = some i → r.buf s = some B) →
        ∀ j, ((∃ r ∈ rs, r.ino s = some i ∧ r.covers j) →
            byteAt (s1.fs.data i) j = byteAt B j) ∧
          ((¬ ∃ r ∈ rs, r.ino s = some i ∧ r.covers j) →
            byteAt (s1.fs.data i) j = byteAt (s.fs.data i) j)) := by
  intro rs
  induction rs with
  | nil =>
    intro s s1 _ _ _ h
    simp only [commit_regions, Outcome.ok.injEq, true_and] at h
    subst h
    refine ⟨rfl, fun _ => le_refl _, ?_⟩
    intro i B _ j
    constructor
    · rintro ⟨r, hr, -⟩
      simp at hr
    · intro _; rfl
  | cons r rest ih =>
    intro s s1 hs ht hsub h
    obtain ⟨b, seg, buf, f, bytes, hb, hseg, hst, hbuf, hbl, hf, hpath, hfl, h2, h3, h4,
      h5, hsz, hread, hlen, hbytes⟩ :=
      region_facts s hs tid t r ht (hsub r (List.mem_cons_self _ _))
    by_cases hoff : 0 ≤ r._offset
    · have hstep := commit_regions_cons r rest s seg f bytes hseg hf hoff hread hlen
      have hone : commit_regions [r] s =
          Outcome.ok () { s with fs := s.fs.written seg.fd f r._offset.toNat bytes } := by
        rw [commit_regions_cons r [] s seg f bytes hseg hf hoff hread hlen]
        rfl
      obtain ⟨hs2, -⟩ := Inv_commit_regions tid t [r] s _ hs ht
        (by intro r1 hr1; simp only [List.mem_singleton] at hr1; subst hr1
            exact hsub _ (List.mem_cons_self _ _)) hone
      rw [hstep] at h
      obtain ⟨i1, i2, i3⟩ := ih _ s1 hs2 ht
        (fun r1 hr1 => hsub r1 (List.mem_cons_of_mem _ hr1)) h
      refine ⟨i1, ?_, ?_⟩
      · intro i
        refine le_trans ?_ (i2 i)
        simp only [FS.written, upd_apply]
        split
        · rename_i heq; subst heq; exact overwrite_length_ge _ _ _
        · exact le_refl _
      · intro i B hB j
        have hB2 : ∀ r1 ∈ rest,
            r1.ino { s with fs := s.fs.written seg.fd f r._offset.toNat bytes } = some i →
            r1.buf { s with fs := s.fs.written seg.fd f r._offset.toNat bytes } = some B := by
          intro r1 hr1 hi1
          rw [Region.ino_written s r1 _ _ _ _ hf] at hi1
          exact hB r1 (List.mem_cons_of_mem _ hr1) hi1
        obtain ⟨k1, k2⟩ := i3 i B hB2 j
        have hrino : r.ino s = some f.ino := by
          simp only [Region.ino, hseg, hf]
        have hblen : bytes.length = r._size.toNat := by omega
        have hmid : ∀ (hfi : f.ino = i), r.covers j →
            byteAt ((s.fs.written seg.fd f r._offset.toNat bytes).data i) j = byteAt B j := by
          intro hfi hcov
          have hBr := hB r (List.mem_cons_self _ _) (by rw [hrino, hfi])
          simp only [Region.buf, hseg, hbuf, Option.some.injEq] at hBr
          subst hBr
          subst hfi
          simp only [FS.written, upd_same]
          rw [byteAt_overwrite, hblen]
          unfold Region.covers at hcov
          rw [if_pos hcov, hbytes, byteAt_slice]
          have hj : j - r._offset.toNat < r._size.toNat := by omega
          rw [if_pos hj]
          congr 1
          omega
        have hmid2 : ¬ (f.ino = i ∧ r.covers j) →
            byteAt ((s.fs.written seg.fd f r._offset.toNat bytes).data i) j =
              byteAt (s.fs.data i) j := by
          intro hhere
          simp only [FS.written, upd_apply]
          split
          · rename_i heq
            subst heq
            rw [byteAt_overwrite, hblen]
            have : ¬ (r._offset.toNat ≤ j ∧ j < r._offset.toNat + r._size.toNat) := by
              intro hc
              exact hhere ⟨rfl, hc⟩
            rw [if_neg this]
          · rfl
        by_cases hex : ∃ r1 ∈ rest,
            r1.ino { s with fs := s.fs.written seg.fd f r._offset.toNat bytes } = some i ∧
              r1.covers j
        · have hval := k1 hex
          constructor
          · intro _; exact hval
          · intro hneg
            exfalso
            obtain ⟨r1, hr1, hi1, hc1⟩ := hex
            rw [Region.ino_written s r1 _ _ _ _ hf] at hi1
            exact hneg ⟨r1, List.mem_cons_of_mem _ hr1, hi1, hc1⟩
        · have hval := k2 hex
          have hex' : ¬ ∃ r1 ∈ rest, r1.ino s = some i ∧ r1.covers j := by
            rintro ⟨r1, hr1, hi1, hc1⟩
            apply hex
            refine ⟨r1, hr1, ?_, hc1⟩
            rw [Region.ino_written s r1 _ _ _ _ hf]; exact hi1
          constructor
          · rintro ⟨r1, hr1, hi1, hc1⟩
            rcases List.mem_cons.mp hr1 with heq | hr1
            · subst heq
              rw [hrino] at hi1
              rw [hval]
              exact hmid (Option.some.inj hi1) hc1
            · exact absurd ⟨r1, hr1, hi1, hc1⟩ hex'
          · intro hneg
            rw [hval]
            apply hmid2
            rintro ⟨hfi, hcov⟩
            exact hneg ⟨r, List.mem_cons_self _ _, by rw [hrino, hfi], hcov⟩
    · rw [commit_regions_neg r rest s seg f hseg hf (by omega)] at h
      cases h

/-! ## C1: what a commit writes -/

theorem finish_trans_mem (tid : Int) (t : Transcation) (s s1 : State)
    (h : finish_trans tid t s = Outcome.ok () s1) : s1.mem = s.mem := by
  obtain ⟨segs1, -, rfl⟩ := finish_trans_ok tid t s s1 h
  rfl

theorem ex_written_trans : ex_written.transs 1 = some ex_trans := rfl

theorem ex_written_seg : ex_written.segs 0 = some ex_seg := rfl

theorem byteAt_take (l : List Byte) (n j : Nat) :
    byteAt (l.take n) j = if j < n then byteAt l j else 0 := by
  have := byteAt_take_drop l 0 n j
  simpa using this

theorem blit_nil (dst : List Byte) (off : Nat) : blit dst off [] = dst := by
  apply list_ext_byteAt
  · exact blit_length _ _ _
  · intro i _
    rw [byteAt_blit]
    have : ¬ (off ≤ i ∧ i < off + ([] : List Byte).length ∧ i < dst.length) := by
      simp only [List.length_nil]; omega
    rw [if_neg this]

theorem get_filepath_congr (R R1 : RVM) (segname : String)
    (h : R1._backing_store = R._backing_store) :
    R1.get_filepath segname = R.get_filepath segname := by
  simp only [RVM.get_filepath, h]

theorem segs_find_of_mem (m : List (Int × Nat)) (k : Int) (v : Nat) (h : (k, v) ∈ m)
    (huniq : ∀ v1, (k, v1) ∈ m → v1 = v) : segs_find m k = some v := by
  cases hf : segs_find m k with
  | none => exact absurd h (segs_find_none m k hf v)
  | some v1 => rw [huniq v1 (segs_find_mem m k v1 hf)]

theorem mem_read_eq (s : State) (base off n : Int) (buf : List Byte)
    (hbuf : s.mem base = some buf) (hoff : 0 ≤ off) (hn : 0 ≤ n)
    (hle : off + n ≤ buf.length) :
    mem_read s base off n = some (slice buf off.toNat n.toNat) := by
  unfold mem_read
  by_cases h0 : n = 0
  · simp [h0, slice, tabulate]
  · have hc : 0 ≤ off ∧ 0 < n ∧ off + n ≤ (buf.length : Int) := by omega
    simp only [h0, if_false, hbuf, hc, and_self, if_true]

theorem mem_write_eq (s : State) (base off : Int) (bytes buf : List Byte)
    (hbuf : s.mem base = some buf) (hoff : 0 ≤ off)
    (hle : off + bytes.length ≤ buf.length) :
    mem_write s base off bytes =
      some { s with mem := upd s.mem base (some (blit buf off.toNat bytes)) } := by
  unfold mem_write
  by_cases h0 : bytes.length = 0
  · have hnil : bytes = [] := List.eq_nil_of_length_eq_zero h0
    subst hnil
    simp only [List.length_nil, if_true, blit_nil]
    have : upd s.mem base (some buf) = s.mem := by
      funext a
      rw [upd_apply]
      split
      · rename_i h; rw [h, hbuf]
      · rfl
    rw [this]
  · have hc : 0 ≤ off ∧ off + (bytes.length : Int) ≤ (buf.length : Int) := ⟨hoff, hle⟩
    simp only [h0, if_false, hbuf, hc, and_self, if_true]

theorem rvm_about_to_modify_eq (tid base off size : Int) (s : State) (t : Transcation)
    (p : Nat) (seg : Segment) (bytes : List Byte)
    (ht : s.transs tid = some t) (hf : segs_find t._segs base = some p)
    (hp : s.segs p = some seg) (hc : ¬ (seg.mapped_size < wrap32 (off + size)))
    (hsz : 0 ≤ size) (hr : mem_read s seg.segbase off size = some bytes) :
    rvm_about_to_modify tid base off size s =
      Outcome.ok () { s with transs := upd s.transs tid (some
        { t with _regions := t._regions ++ [⟨p, off, size, bytes⟩] }) } := by
  have hsz1 : ¬ size < 0 := by omega
  simp only [rvm_about_to_modify, ht, Transcation.modify, hf, hp, hc, if_false, Region.create,
    hsz1, hr]

theorem rvm_unmap_eq (rvm segbase : Int) (s : State) (R : RVM) (p : Nat) (seg : Segment)
    (buf : List Byte) (hR : s.rvms rvm = some R) (hb : R._base_seg_map segbase = some p)
    (hp : s.segs p = some seg) (hst : seg.st = Status.MAPPED)
    (hbuf : s.mem seg.segbase = some buf) :
    rvm_unmap rvm segbase s =
      Outcome.ok ()
        { s with mem := upd s.mem seg.segbase none,
                 segs := upd s.segs p (some { seg with st := Status.UNMAPPED }),
                 rvms := upd s.rvms rvm (some
                   { R with _base_seg_map := upd R._base_seg_map segbase none }),
                 fs := sys_close s.fs seg.fd } := by
  have h1 : ¬ seg.st = Status.UNMAPPED := by rw [hst]; decide
  have h2 : ¬ (Status.MAPPED = Status.UNMAPPED) := by decide
  simp only [rvm_unmap, hR, RVM.find_seg_by_base, hb, hp, h1, if_false, hst, ne_eq,
    not_true_eq_false, hbuf, h2]

theorem rvm_commit_trans_spec (s : State) (hi : Inv s) (tid : Int) (t : Transcation)
    (ht : s.transs tid = some t) (hoffs : ∀ r ∈ t._regions, 0 ≤ r._offset) :
    ∃ s1, rvm_commit_trans tid s = Outcome.ok () s1 ∧ s1.mem = s.mem ∧ s1.rvms = s.rvms ∧
      s1.fs.dir = s.fs.dir ∧
      (∀ i, (s.fs.data i).length ≤ (s1.fs.data i).length) ∧
      (∀ (i : Ino) (B : List Byte),
        (∀ r ∈ t._regions, r.ino s = some i → r.buf s = some B) →
        ∀ j, ((∃ r ∈ t._regions, r.ino s = some i ∧ r.covers j) →
            byteAt (s1.fs.data i) j = byteAt B j) ∧
          ((¬ ∃ r ∈ t._regions, r.ino s = some i ∧ r.covers j) →
            byteAt (s1.fs.data i) j = byteAt (s.fs.data i) j)) ∧
      (∀ p, (∃ b, (b, p) ∈ t._segs) →
        ∃ seg, s.segs p = some seg ∧ s1.segs p = some { seg with st := Status.MAPPED }) ∧
      (∀ p, (¬ ∃ b, (b, p) ∈ t._segs) → s1.segs p = s.segs p) ∧
      s1.transs = upd s.transs tid none := by
  obtain ⟨s2, hc⟩ := commit_regions_some tid t t._regions s hi ht (fun r hr => hr) hoffs
  obtain ⟨hs2, hfr⟩ := Inv_commit_regions tid t _ s s2 hi ht (fun r hr => hr) hc
  have ht2 : s2.transs tid = some t := by rw [hfr]; exact ht
  obtain ⟨s1, hf⟩ := finish_trans_some tid t s2 hs2 ht2
  obtain ⟨d1, d2, d3⟩ := commit_regions_data tid t _ s s2 hi ht (fun r hr => hr) hc
  obtain ⟨segs1, hrel, hs1⟩ := finish_trans_ok tid t s2 s1 hf
  obtain ⟨r1, r2⟩ := release_hold_segs_spec _ _ _ hrel
  have hsegs2 : s2.segs = s.segs := by rw [hfr]
  have hmem2 : s2.mem = s.mem := by rw [hfr]
  have hrvms2 : s2.rvms = s.rvms := by rw [hfr]
  have htr2 : s2.transs = s.transs := by rw [hfr]
  refine ⟨s1, ?_, ?_, ?_, ?_, ?_, ?_, ?_, ?_, ?_⟩
  · simp only [rvm_commit_trans, ht, hc]
    exact hf
  · rw [hs1]; exact hmem2
  · rw [hs1]; exact hrvms2
  · rw [hs1]; exact d1
  · rw [hs1]; exact d2
  · rw [hs1]; exact d3
  · intro p hex
    obtain ⟨seg, h1, h2⟩ := r1 p hex
    rw [hs1]
    exact ⟨seg, by rw [← hsegs2]; exact h1, h2⟩
  · intro p hnex
    rw [hs1]
    show segs1 p = s.segs p
    rw [r2 p hnex, hsegs2]
  · rw [hs1]
    show upd s2.transs tid none = upd s.transs tid none
    rw [htr2]

/-! ## Outcomes of successful calls, by their effect on the state -/

theorem rvm_about_to_modify_abs (tid base off size : Int) (s : State) (t : Transcation)
    (p : Nat) (seg : Segment) (bytes : List Byte)
    (ht : s.transs tid = some t) (hf : segs_find t._segs base = some p)
    (hp : s.segs p = some seg) (hc : ¬ (seg.mapped_size < wrap32 (off + size)))
    (hsz : 0 ≤ size) (hr : mem_read s seg.segbase off size = some bytes) :
    ∃ s1 t1, rvm_about_to_modify tid base off size s = Outcome.ok () s1 ∧
      s1.mem = s.mem ∧ s1.fs = s.fs ∧ s1.rvms = s.rvms ∧ s1.segs = s.segs ∧
      s1.transs = upd s.transs tid (some t1) ∧
      t1._regions = t._regions ++ [⟨p, off, size, bytes⟩] ∧ t1._segs = t._segs :=
  ⟨_, _, rvm_about_to_modify_eq tid base off size s t p seg bytes ht hf hp hc hsz hr,
    rfl, rfl, rfl, rfl, rfl, rfl, rfl⟩

theorem caller_write_abs (s : State) (base off : Int) (bytes buf : List Byte)
    (hbuf : s.mem base = some buf) (hoff : 0 ≤ off)
    (hle : off + bytes.length ≤ buf.length) :
    ∃ s1, caller_write base off bytes s = Outcome.ok () s1 ∧
      s1.mem = upd s.mem base (some (blit buf off.toNat bytes)) ∧ s1.fs = s.fs ∧
      s1.rvms = s.rvms ∧ s1.segs = s.segs ∧ s1.transs = s.transs := by
  have h : caller_write base off bytes s = Outcome.ok ()
      { s with mem := upd s.mem base (some (blit buf off.toNat bytes)) } := by
    unfold caller_write
    rw [mem_write_eq s base off bytes buf hbuf hoff hle]
  exact ⟨_, h, rfl, rfl, rfl, rfl, rfl⟩

theorem rvm_unmap_abs (rvm segbase : Int) (s : State) (R : RVM) (p : Nat) (seg : Segment)
    (buf : List Byte) (hR : s.rvms rvm = some R) (hb : R._base_seg_map segbase = some p)
    (hp : s.segs p = some seg) (hst : seg.st = Status.MAPPED)
    (hbuf : s.mem seg.segbase = some buf) :
    ∃ s1 R1, rvm_unmap rvm segbase s = Outcome.ok () s1 ∧
      s1.rvms rvm = some R1 ∧ R1._backing_store = R._backing_store ∧
      R1._name_seg_map = R._name_seg_map ∧
      s1.segs p = some { seg with st := Status.UNMAPPED } ∧
      s1.fs.dir = s.fs.dir ∧ s1.fs.data = s.fs.data :=
  ⟨_, _, rvm_unmap_eq rvm segbase s R p seg buf hR hb hp hst hbuf,
    upd_same _ _ _, rfl, rfl, upd_same _ _ _, rfl, rfl⟩

/-! ## C3: the commit round trip -/

theorem step_map_of_ok {rvm : Int} {segname : String} {N : Int} {s : State} {v : Int}
    {s1 : State} (h : rvm_map rvm segname N s = Outcome.ok v s1) :
    step (Op.map rvm segname N) s = some s1 := by
  simp only [step, h, Outcome.returned]

theorem step_begin_of_ok {rvm numsegs : Int} {l : List Int} {s : State} {v : Int}
    {s1 : State} (h : rvm_begin_trans rvm numsegs l s = Outcome.ok v s1) :
    step (Op.begin_trans rvm numsegs l) s = some s1 := by
  simp only [step, h, Outcome.returned]

theorem step_modify_of_ok {tid base off size : Int} {s s1 : State}
    (h : rvm_about_to_modify tid base off size s = Outcome.ok () s1) :
    step (Op.about_to_modify tid base off size) s = some s1 := by
  simp only [step, h, Outcome.returned]

theorem step_write_of_ok {base off : Int} {bytes : List Byte} {s s1 : State}
    (h : caller_write base off bytes s = Outcome.ok () s1) :
    step (Op.write base off bytes) s = some s1 := by
  simp only [step, h, Outcome.returned]

theorem step_commit_of_ok {tid : Int} {s s1 : State}
    (h : rvm_commit_trans tid s = Outcome.ok () s1) :
    step (Op.commit_trans tid) s = some s1 := by
  simp only [step, h, Outcome.returned]

theorem step_unmap_of_ok {rvm base : Int} {s s1 : State}
    (h : rvm_unmap rvm base s = Outcome.ok () s1) :
    step (Op.unmap rvm base) s = some s1 := by
  simp only [step, h, Outcome.returned]

/-- C3. The commit round trip: in a reachable state with a store `rvm` in
which the name is absent or UNMAPPED, `rvm_map` with size `N` returns a handle
`H`; `rvm_begin_trans` on `[H]` returns a transaction `T`;
`rvm_about_to_modify(T, H, offset, length)` with `0 ≤ offset`, `0 ≤ length`
and `offset + length ≤ N` returns; the caller writes the bytes `w` at `woff`
inside the declared range; `rvm_commit_trans(T)` returns; `rvm_unmap` returns;
and `rvm_map` of the same name with size `N` returns a new buffer of `N` bytes
that holds exactly `w` at `woff`. -/
theorem commit_round_trip (s : State) (hs : Reachable s) (rvm : Int) (R : RVM)
    (segname : String) (N : Int) (hR : s.rvms rvm = some R) (hN0 : 0 ≤ N)
    (hN : N < 2147483648)
    (hname : R._name_seg_map segname = none ∨
      ∃ p seg, R._name_seg_map segname = some p ∧ s.segs p = some seg ∧
        seg.st = Status.UNMAPPED)
    (offset length : Int) (hoff : 0 ≤ offset) (hlen : 0 ≤ length) (hsum : offset + length ≤ N)
    (woff : Int) (w : List Byte) (hwoff : offset ≤ woff)
    (hw : woff + (w.length : Int) ≤ offset + length) :
    ∃ s1 s2 s3 s4 s5 s6 s7 buf,
      rvm_map rvm segname N s = Outcome.ok s.next_addr s1 ∧
      rvm_begin_trans rvm 1 [s.next_addr] s1 = Outcome.ok (s1.trans_id + 1) s2 ∧
      rvm_about_to_modify (s1.trans_id + 1) s.next_addr offset length s2 = Outcome.ok () s3 ∧
      caller_write s.next_addr woff w s3 = Outcome.ok () s4 ∧
      rvm_commit_trans (s1.trans_id + 1) s4 = Outcome.ok () s5 ∧
      rvm_unmap rvm s.next_addr s5 = Outcome.ok () s6 ∧
      rvm_map rvm segname N s6 = Outcome.ok s6.next_addr s7 ∧
      s6.next_addr ≠ -1 ∧
      s7.mem s6.next_addr = some buf ∧ (buf.length : Int) = N ∧
      slice buf woff.toNat w.length = w := by
  have hNint : isInt N := by unfold isInt; omega
  -- the first map
  obtain ⟨s1, R1, p, seg1, buf1, f1, hmap, -, -, hflen, -, -, hmem1, hbuf1len, -, hR1, hback1,
    hname1, hbase1, hseg1, hst1, hmsz1, hsb1, hpath1, hfd1, hino1, hdir1⟩ :=
    rvm_map_spec s hs rvm R segname N hR hN0 hN hname
  have hs1 : Reachable s1 :=
    Reachable.step s _ s1 hs (show (Op.map rvm segname N).wellTyped from hNint)
      (step_map_of_ok hmap)
  -- begin
  have hall : ∀ b ∈ ([s.next_addr] : List Int).take (1 : Int).toNat,
      ∃ p seg, R1._base_seg_map b = some p ∧ s1.segs p = some seg ∧
        seg.st = Status.MAPPED := by
    intro b hb
    have : b = s.next_addr := by simpa using hb
    subst this
    exact ⟨p, seg1, hbase1, hseg1, hst1⟩
  obtain ⟨s2, t2, hbegin, -, -, ht2, hregs2, hsegs2, hacq2, -, -, hmem2, hfs2, hrvms2⟩ :=
    rvm_begin_trans_spec s1 hs1 rvm R1 1 [s.next_addr] hR1 (by simp) hall
  have hs2 : Reachable s2 :=
    Reachable.step s1 _ s2 hs1
      (show (Op.begin_trans rvm 1 [s.next_addr]).wellTyped from
        ⟨by unfold isInt; omega, by simp⟩)
      (step_begin_of_ok hbegin)
  obtain ⟨p', seg', hb', hseg', hseg2⟩ := hacq2 s.next_addr (by simp)
  rw [hbase1] at hb'
  have hpp : p = p' := Option.some.inj hb'
  subst hpp
  rw [hseg1] at hseg'
  have hss : seg1 = seg' := Option.some.inj hseg'
  subst hss
  -- declare
  have hfind : segs_find t2._segs s.next_addr = some p := by
    apply segs_find_of_mem
    · exact (hsegs2 _ _).mpr ⟨by simp, hbase1⟩
    · intro v1 hv1
      have := ((hsegs2 _ _).mp hv1).2
      rw [hbase1] at this
      exact (Option.some.inj this).symm
  have hmem2H : s2.mem s.next_addr = some buf1 := by rw [hmem2]; exact hmem1
  have hwrap : wrap32 (offset + length) = offset + length := by
    apply wrap32_of_isInt; unfold isInt; omega
  have hread : mem_read s2 s.next_addr offset length =
      some (slice buf1 offset.toNat length.toNat) :=
    mem_read_eq s2 _ _ _ buf1 hmem2H hoff hlen (by omega)
  obtain ⟨s3, t3, hmod, hmem3, hfs3, hrvms3, hsegs3, htr3, hregs3, hsegs3t⟩ :=
    rvm_about_to_modify_abs (s1.trans_id + 1) s.next_addr offset length s2 t2 p
    { seg1 with st := Status.ACQUIRED } (slice buf1 offset.toNat length.toNat) ht2 hfind hseg2
    (by show ¬ (seg1.mapped_size < wrap32 (offset + length)); rw [hwrap, hmsz1]; omega)
    hlen (by show mem_read s2 seg1.segbase offset length = _; rw [hsb1]; exact hread)
  have hs3 : Reachable s3 := Reachable.step s2 _ _ hs2
      (show (Op.about_to_modify (s1.trans_id + 1) s.next_addr offset length).wellTyped from
        ⟨by unfold isInt; omega, by unfold isInt; omega⟩)
      (step_modify_of_ok hmod)
  -- the write of the caller
  have hb1 : (buf1.length : Int) = N := hbuf1len
  obtain ⟨s4, hwr, hmem4, hfs4, hrvms4, hsegs4, htr4⟩ :=
    caller_write_abs s3 s.next_addr woff w buf1 (by rw [hmem3]; exact hmem2H) (by omega) (by omega)
  have hs4 : Reachable s4 := Reachable.step _ _ _ hs3
    (show (Op.write s.next_addr woff w).wellTyped from trivial) (step_write_of_ok hwr)
  -- commit
  have ht4 : s4.transs (s1.trans_id + 1) = some t3 := by
    rw [htr4, htr3]; exact upd_same _ _ _
  have hregs4 : t3._regions = [⟨p, offset, length, slice buf1 offset.toNat length.toNat⟩] := by
    rw [hregs3, hregs2]; rfl
  have hoffs : ∀ r ∈ t3._regions, 0 ≤ r._offset := by
    intro r hr
    rw [hregs4] at hr
    simp only [List.mem_singleton] at hr
    subst hr
    exact hoff
  obtain ⟨s5, hcommit, hmem5, hrvms5, hdir5, hlen5, hdata5, hrel5, -, -⟩ :=
    rvm_commit_trans_spec s4 hs4.inv (s1.trans_id + 1) t3 ht4 hoffs
  have hs5 : Reachable s5 := Reachable.step _ _ _ hs4
    (show (Op.commit_trans (s1.trans_id + 1)).wellTyped from trivial)
    (step_commit_of_ok hcommit)
  have hseg4 : s4.segs p = some { seg1 with st := Status.ACQUIRED } := by
    rw [hsegs4, hsegs3]; exact hseg2
  obtain ⟨seg5, hseg5a, hseg5⟩ :=
    hrel5 p ⟨s.next_addr, by rw [hsegs3t]; exact (hsegs2 _ _).mpr ⟨by simp, hbase1⟩⟩
  rw [hseg4] at hseg5a
  have hseg5eq := Option.some.inj hseg5a
  subst hseg5eq
  -- unmap
  have hR5 : s5.rvms rvm = some R1 := by
    rw [hrvms5, hrvms4, hrvms3, hrvms2]; exact hR1
  have hmem5H : s5.mem s.next_addr = some (blit buf1 woff.toNat w) := by
    rw [hmem5, hmem4]; exact upd_same _ _ _
  obtain ⟨s6, R6, hunmap, hR6, hback6, hname6, hseg6, hdir6, hdata6⟩ :=
    rvm_unmap_abs rvm s.next_addr s5 R1 p _ _ hR5 hbase1 hseg5 rfl
      (by show s5.mem seg1.segbase = _; rw [hsb1]; exact hmem5H)
  have hs6 : Reachable s6 := Reachable.step _ _ _ hs5
    (show (Op.unmap rvm s.next_addr).wellTyped from trivial) (step_unmap_of_ok hunmap)
  -- the second map
  have hpath6 : R6.get_filepath segname = R.get_filepath segname :=
    get_filepath_congr R R6 segname (by rw [hback6, hback1])
  obtain ⟨s7, R7, p7, seg7, buf7, f7, hmap7, hne7, -, -, hold7, -, hmem7, hbuf7len, hbuf7, -⟩ :=
    rvm_map_spec s6 hs6 rvm R6 segname N hR6 hN0 hN
      (Or.inr ⟨p, _, by rw [hname6]; exact hname1, hseg6, rfl⟩)
  rw [hpath6] at hold7 hbuf7
  refine ⟨s1, s2, s3, s4, s5, s6, s7, buf7, hmap, hbegin, hmod, hwr, hcommit, hunmap, hmap7,
    hne7, hmem7, hbuf7len, ?_⟩
  -- the bytes
  have hf1ino : f1.ino = (R.get_filepath segname, f1.ino.2) := Prod.ext hino1 rfl
  have hfs41 : s4.fs = s1.fs := by rw [hfs4, hfs3, hfs2]
  have hfile6 : ∀ (fs : FS), fs.dir = s1.fs.dir →
      fs.file_at (R.get_filepath segname) = fs.data f1.ino := by
    intro fs hfs
    unfold FS.file_at
    rw [hfs, hdir1]
    show fs.data (R.get_filepath segname, f1.ino.2) = fs.data f1.ino
    rw [← hf1ino]
  have hrino : ∀ r ∈ t3._regions,
      r.ino s4 = some f1.ino ∧ r.buf s4 = some (blit buf1 woff.toNat w) := by
    intro r hr
    rw [hregs4] at hr
    simp only [List.mem_singleton] at hr
    subst hr
    constructor
    · simp only [Region.ino, hseg4, hfs41, hfd1]
    · simp only [Region.buf, hseg4, hsb1, hmem4, upd_same]
  have hdata := hdata5 f1.ino (blit buf1 woff.toNat w) (fun r hr _ => (hrino r hr).2)
  have hfile5 : s6.fs.file_at (R.get_filepath segname) = s5.fs.data f1.ino := by
    rw [hfile6 s6.fs (by rw [hdir6, hdir5, hfs41]), hdata6]
  have hlen1 : N.toNat ≤ (s1.fs.data f1.ino).length := by
    have := hfile6 s1.fs rfl
    rw [← this, hflen]
    exact le_max_right _ _
  have hlen5a : N.toNat ≤ (s5.fs.data f1.ino).length := by
    have h2 := hlen5 f1.ino
    rw [hfs41] at h2
    omega
  apply list_ext_byteAt
  · rw [slice_length]
  · intro i hi
    rw [slice_length] at hi
    rw [byteAt_slice, if_pos hi, hbuf7, byteAt_take]
    have hiN : woff.toNat + i < N.toNat := by omega
    rw [if_pos hiN]
    have hold := hold7 (woff.toNat + i) (by rw [hfile5]; omega)
    rw [hold, hfile5]
    have hcov : ∃ r ∈ t3._regions, r.ino s4 = some f1.ino ∧ r.covers (woff.toNat + i) := by
      refine ⟨⟨p, offset, length, slice buf1 offset.toNat length.toNat⟩, ?_, ?_, ?_⟩
      · rw [hregs4]; simp
      · exact (hrino _ (by rw [hregs4]; simp)).1
      · show offset.toNat ≤ woff.toNat + i ∧ woff.toNat + i < offset.toNat + length.toNat
        omega
    rw [(hdata (woff.toNat + i)).1 hcov, byteAt_blit]
    have hc : woff.toNat ≤ woff.toNat + i ∧ woff.toNat + i < woff.toNat + w.length ∧
        woff.toNat + i < buf1.length := by omega
    rw [if_pos hc]
    congr 1
    omega

theorem ex_init_reachable : Reachable ex_init := by
  apply reachable_run (Reachable.start FS.empty FS.empty_initial) [Op.init "db"]
  · intro op hop
    simp only [List.mem_singleton] at hop
    subst hop
    trivial
  · rfl

/-- Witness of C3: `init("db")`, `map(1, "accounts", 16)`, `begin`, declare
`(0, 8)`, write `12345678` at offset 0, commit, unmap and map again. -/
theorem commit_round_trip_witness :
    ∃ s1 s2 s3 s4 s5 s6 s7 buf,
      rvm_map 1 "accounts" 16 ex_init = Outcome.ok ex_init.next_addr s1 ∧
      rvm_begin_trans 1 1 [ex_init.next_addr] s1 = Outcome.ok (s1.trans_id + 1) s2 ∧
      rvm_about_to_modify (s1.trans_id + 1) ex_init.next_addr 0 8 s2 = Outcome.ok () s3 ∧
      caller_write ex_init.next_addr 0 digits s3 = Outcome.ok () s4 ∧
      rvm_commit_trans (s1.trans_id + 1) s4 = Outcome.ok () s5 ∧
      rvm_unmap 1 ex_init.next_addr s5 = Outcome.ok () s6 ∧
      rvm_map 1 "accounts" 16 s6 = Outcome.ok s6.next_addr s7 ∧
      s6.next_addr ≠ -1 ∧
      s7.mem s6.next_addr = some buf ∧ (buf.length : Int) = 16 ∧
      slice buf (0 : Int).toNat digits.length = digits :=
  commit_round_trip ex_init ex_init_reachable 1 (RVM.create "db") "accounts" 16 rfl
    (by decide) (by decide) (Or.inl rfl) 0 8 (by decide) (by decide) (by decide) 0 digits
    (by decide) (by decide)

/-! ## The calls that write no file keep the catalogs and the segment records -/

theorem StatusOnly.trans {a b c : Nat → Option Segment} (h1 : StatusOnly a b)
    (h2 : StatusOnly b c) : StatusOnly a c := by
  intro p
  rcases h1 p with ⟨ha, hb⟩ | ⟨seg, st, ha, hb, hiff⟩
  · rcases h2 p with ⟨-, hc⟩ | ⟨seg2, st2, hb2, -, -⟩
    · exact Or.inl ⟨ha, hc⟩
    · rw [hb] at hb2; cases hb2
  · rcases h2 p with ⟨hb2, -⟩ | ⟨seg2, st2, hb2, hc, hiff2⟩
    · rw [hb] at hb2; cases hb2
    · rw [hb] at hb2
      have heq := Option.some.inj hb2
      subst heq
      exact Or.inr ⟨seg, st2, ha, hc, hiff.trans hiff2⟩

theorem finish_StatusOnly (t : Transcation) (segs segs1 : Nat → Option Segment)
    (hacq : ∀ b p, (b, p) ∈ t._segs → ∃ seg, segs p = some seg ∧ seg.st = Status.ACQUIRED)
    (hr : release_hold_segs t._segs segs = some segs1) : StatusOnly segs segs1 := by
  obtain ⟨i1, i2⟩ := release_hold_segs_spec _ _ _ hr
  intro p
  by_cases hex : ∃ b, (b, p) ∈ t._segs
  · obtain ⟨seg, hseg, hseg1⟩ := i1 p hex
    obtain ⟨b, hb⟩ := hex
    obtain ⟨sg, hsg, hst⟩ := hacq b p hb
    rw [hseg] at hsg; cases hsg
    right
    refine ⟨seg, Status.MAPPED, hseg, hseg1, ?_⟩
    rw [hst]; decide
  · rw [i2 p hex]
    exact StatusOnly.refl segs p

theorem step_quiet_frame (op : Op) (hq : op.quiet) (s s1 : State) (hs : Inv s)
    (h : step op s = some s1) : s1.rvms = s.rvms ∧ StatusOnly s.segs s1.segs := by
  cases op with
  | init directory => exact absurd hq (by simp [Op.quiet])
  | map rvm segname size_to_create => exact absurd hq (by simp [Op.quiet])
  | unmap rvm segbase => exact absurd hq (by simp [Op.quiet])
  | destroy rvm segname => exact absurd hq (by simp [Op.quiet])
  | commit_trans tid => exact absurd hq (by simp [Op.quiet])
  | truncate_log rvm => exact absurd hq (by simp [Op.quiet])
  | begin_trans rvm numsegs segbases =>
    simp only [step] at h
    cases ho : rvm_begin_trans rvm numsegs segbases s with
    | ok v s2 =>
      rw [ho] at h; simp only [Outcome.returned, Option.some.injEq] at h; subst h
      rcases rvm_begin_trans_ok rvm numsegs segbases s v s2 hs ho with ⟨-, rfl⟩ |
        ⟨R, segs1, m, hR, hc, -, hnone, ha, rfl⟩
      · exact ⟨rfl, StatusOnly.refl _⟩
      · obtain ⟨-, hchk⟩ := begin_check_true R s _ _ hc
        have hbase : ∀ b p, R._base_seg_map b = some p →
            ∃ seg, s.segs p = some seg ∧ seg.segbase = b := by
          intro b p hbp
          obtain ⟨seg, n, h1, h2, -, -⟩ := hs.cat.base_seg rvm R b p hR hbp
          exact ⟨seg, h1, h2⟩
        obtain ⟨i1, i2, -, -, -⟩ := begin_acquire_spec R _ _ _ _ _ _ hbase ha
        exact ⟨rfl, begin_StatusOnly R s _ _ segs1 i1 i2 hchk⟩
    | fatal s2 => rw [ho] at h; cases h
    | undef => rw [ho] at h; cases h
  | about_to_modify tid segbase offset size =>
    simp only [step] at h
    cases ho : rvm_about_to_modify tid segbase offset size s with
    | ok v s2 =>
      rw [ho] at h; simp only [Outcome.returned, Option.some.injEq] at h; subst h
      obtain ⟨t, p, seg, bytes, -, -, -, -, -, -, rfl⟩ :=
        rvm_about_to_modify_ok tid segbase offset size s s2 ho
      exact ⟨rfl, StatusOnly.refl _⟩
    | fatal s2 => rw [ho] at h; cases h
    | undef => rw [ho] at h; cases h
  | abort_trans tid =>
    simp only [step] at h
    cases ho : rvm_abort_trans tid s with
    | ok v s2 =>
      rw [ho] at h; simp only [Outcome.returned, Option.some.injEq] at h; subst h
      obtain ⟨t, s3, ht, ha, hf⟩ := rvm_abort_trans_ok tid s s2 ho
      have hfr := abort_regions_frame _ _ _ ha
      obtain ⟨segs1, hr, rfl⟩ := finish_trans_ok tid t s3 _ hf
      have hsegs : s3.segs = s.segs := by rw [hfr]
      have hrvms : s3.rvms = s.rvms := by rw [hfr]
      refine ⟨hrvms, ?_⟩
      show StatusOnly s.segs segs1
      rw [← hsegs]
      apply finish_StatusOnly t _ _ _ hr
      intro b p hbp
      rw [hsegs]
      exact hs.trans.acquired tid t b p ht hbp
    | fatal s2 => rw [ho] at h; cases h
    | undef => rw [ho] at h; cases h
  | write segbase offset bytes =>
    simp only [step, caller_write] at h
    cases hw : mem_write s segbase offset bytes with
    | none => rw [hw] at h; cases h
    | some s2 =>
      rw [hw] at h; simp only [Outcome.returned, Option.some.injEq] at h; subst h
      rcases mem_write_some s segbase offset bytes s2 hw with ⟨-, rfl⟩ |
        ⟨-, buf, -, -, -, rfl⟩
      · exact ⟨rfl, StatusOnly.refl _⟩
      · exact ⟨rfl, StatusOnly.refl _⟩

theorem run_quiet_frame :
    ∀ (ops : List Op) (s s1 : State), Inv s → (∀ op ∈ ops, op.quiet) →
      (∀ op ∈ ops, op.wellTyped) → run ops s = some s1 →
      s1.rvms = s.rvms ∧ StatusOnly s.segs s1.segs := by
  intro ops
  induction ops with
  | nil =>
    intro s s1 _ _ _ h
    simp only [run, Option.some.injEq] at h
    subst h
    exact ⟨rfl, StatusOnly.refl _⟩
  | cons op rest ih =>
    intro s s1 hs hq hty h
    simp only [run] at h
    cases hst : step op s with
    | none => rw [hst] at h; cases h
    | some s2 =>
      rw [hst] at h
      obtain ⟨h1, h2⟩ := step_quiet_frame op (hq op (List.mem_cons_self _ _)) s s2 hs hst
      obtain ⟨h3, h4⟩ := ih s2 s1 (Inv_step op s s2 hs (hty op (List.mem_cons_self _ _)) hst)
        (fun o ho => hq o (List.mem_cons_of_mem _ ho))
        (fun o ho => hty o (List.mem_cons_of_mem _ ho)) h
      exact ⟨h3.trans h1, h2.trans h4⟩

theorem file_at_congr (fs fs1 : FS) (hdir : fs1.dir = fs.dir) (hdata : fs1.data = fs.data)
    (path : String) : fs1.file_at path = fs.file_at path := by
  unfold FS.file_at
  rw [hdir, hdata]

/-- C4. Uncommitted changes are discarded: in a reachable state with a store
`rvm` in which the name is absent or UNMAPPED, `rvm_map` with size `N` returns
a handle `H` and a buffer `buf`.  Whatever sequence of writes of the caller
into buffers, transaction beginnings, range declarations and aborts follows
(no commit, no other call), if `rvm_unmap(rvm, H)` then returns, `rvm_map` of
the same name with size `N` returns a buffer equal to `buf`, byte for byte. -/
theorem uncommitted_discarded (s : State) (hs : Reachable s) (rvm : Int) (R : RVM)
    (segname : String) (N : Int) (hR : s.rvms rvm = some R) (hN0 : 0 ≤ N)
    (hN : N < 2147483648)
    (hname : R._name_seg_map segname = none ∨
      ∃ p seg, R._name_seg_map segname = some p ∧ s.segs p = some seg ∧
        seg.st = Status.UNMAPPED)
    (ops : List Op) (hq : ∀ op ∈ ops, op.quiet) (hty : ∀ op ∈ ops, op.wellTyped) :
    ∃ s1 buf, rvm_map rvm segname N s = Outcome.ok s.next_addr s1 ∧
      s1.mem s.next_addr = some buf ∧ (buf.length : Int) = N ∧
      ∀ s2 s3, run ops s1 = some s2 → rvm_unmap rvm s.next_addr s2 = Outcome.ok () s3 →
        ∃ s4, rvm_map rvm segname N s3 = Outcome.ok s3.next_addr s4 ∧
          s3.next_addr ≠ -1 ∧ s4.mem s3.next_addr = some buf := by
  have hNint : isInt N := by unfold isInt; omega
  obtain ⟨s1, R1, p, seg1, buf1, f1, hmap, -, -, hflen, -, -, hmem1, hbuf1len, hbuf1, hR1,
    hback1, hname1, hbase1, hseg1, hst1, hmsz1, hsb1, hpath1, hfd1, hino1, hdir1⟩ :=
    rvm_map_spec s hs rvm R segname N hR hN0 hN hname
  refine ⟨s1, buf1, hmap, hmem1, hbuf1len, ?_⟩
  intro s2 s3 hrun hunmap
  have hs1 : Reachable s1 :=
    Reachable.step s _ s1 hs (show (Op.map rvm segname N).wellTyped from hNint)
      (step_map_of_ok hmap)
  have hs2 : Reachable s2 := reachable_run hs1 ops s2 hty hrun
  have hfs2 : s2.fs = s1.fs := run_quiet_fs ops s1 s2 hq hrun
  obtain ⟨hrvms2, hso⟩ := run_quiet_frame ops s1 s2 hs1.inv hq hty hrun
  obtain ⟨st, hseg2, hiff⟩ := hso.of_old hseg1
  have hR2 : s2.rvms rvm = some R1 := by rw [hrvms2]; exact hR1
  have hstne : st ≠ Status.UNMAPPED := by
    intro h
    have := hiff.mpr h
    rw [hst1] at this
    cases this
  -- the segment is MAPPED when `rvm_unmap` returns
  have hstm : st = Status.MAPPED := by
    cases st with
    | MAPPED => rfl
    | UNMAPPED => exact absurd rfl hstne
    | ACQUIRED =>
      have hf : rvm_unmap rvm s.next_addr s2 = Outcome.fatal s2 := by
        have h1 : ¬ (Status.ACQUIRED = Status.UNMAPPED) := by decide
        have h2 : ¬ (Status.ACQUIRED = Status.MAPPED) := by decide
        simp only [rvm_unmap, hR2, RVM.find_seg_by_base, hbase1, hseg2, h1, h2, ne_eq,
          not_false_eq_true, if_true, if_false]
      rw [hf] at hunmap
      cases hunmap
  subst hstm
  obtain ⟨b2, hb2, -⟩ := hs2.inv.live.buf p _ hseg2 hstne
  obtain ⟨s3a, R3, hunmap3, hR3, hback3, hname3, hseg3, hdir3, hdata3⟩ :=
    rvm_unmap_abs rvm s.next_addr s2 R1 p _ b2 hR2 hbase1 hseg2 rfl hb2
  rw [hunmap3] at hunmap
  have hs3eq : s3a = s3 := by
    injection hunmap
  subst hs3eq
  have hs3 : Reachable s3a := Reachable.step _ _ _ hs2
    (show (Op.unmap rvm s.next_addr).wellTyped from trivial) (step_unmap_of_ok hunmap3)
  -- the second map
  have hpath3 : R3.get_filepath segname = R.get_filepath segname :=
    get_filepath_congr R R3 segname (by rw [hback3, hback1])
  obtain ⟨s4, R4, p4, seg4, buf4, f4, hmap4, hne4, -, -, hold4, -, hmem4, hbuf4len, hbuf4, -⟩ :=
    rvm_map_spec s3a hs3 rvm R3 segname N hR3 hN0 hN
      (Or.inr ⟨p, _, by rw [hname3]; exact hname1, hseg3, rfl⟩)
  rw [hpath3] at hold4 hbuf4
  refine ⟨s4, hmap4, hne4, ?_⟩
  rw [hmem4]
  congr 1
  have hfile3 : s3a.fs.file_at (R.get_filepath segname) =
      s1.fs.file_at (R.get_filepath segname) := by
    rw [file_at_congr s2.fs s3a.fs hdir3 hdata3, hfs2]
  have hlen1 : N.toNat ≤ (s1.fs.file_at (R.get_filepath segname)).length := by
    rw [hflen]
    exact le_max_right _ _
  have hb1 : buf1.length = N.toNat := by omega
  have hb4 : buf4.length = N.toNat := by omega
  apply list_ext_byteAt
  · rw [hb1, hb4]
  · intro i hi
    rw [hb4] at hi
    rw [hbuf4, hbuf1, byteAt_take, byteAt_take, if_pos hi, if_pos hi]
    rw [hold4 i (by rw [hfile3]; omega), hfile3]

/-- Witness of C4: in `ex_init`, `map(1, "accounts", 16)`; then a transaction
is begun, the range `(0, 8)` is declared, the caller writes `12345678`, the
transaction is aborted and the caller writes again; after `rvm_unmap` the
segment is mapped anew with the sixteen zero bytes of the first map. -/
theorem uncommitted_discarded_witness :
    ∃ s4, rvm_map 1 "accounts" 16
        (exec [Op.begin_trans 1 1 [1], Op.about_to_modify 1 1 0 8, Op.write 1 0 digits,
          Op.abort_trans 1, Op.write 1 8 digits, Op.unmap 1 1] ex_mapped) =
        Outcome.ok 2 s4 ∧
      s4.mem 2 = some [0, 0, 0, 0, 0, 0, 0, 0, 0, 0, 0, 0, 0, 0, 0, 0] := by
  obtain ⟨s1, buf, hmap, hbuf, -, h⟩ :=
    uncommitted_discarded ex_init ex_init_reachable 1 (RVM.create "db") "accounts" 16 rfl
      (by decide) (by decide) (Or.inl rfl)
      [Op.begin_trans 1 1 [1], Op.about_to_modify 1 1 0 8, Op.write 1 0 digits,
        Op.abort_trans 1, Op.write 1 8 digits]
      (by intro op hop; simp only [List.mem_cons, List.mem_singleton, List.not_mem_nil,
            or_false] at hop
          rcases hop with rfl | rfl | rfl | rfl | rfl <;> trivial)
      (by intro op hop; simp only [List.mem_cons, List.mem_singleton, List.not_mem_nil,
            or_false] at hop
          rcases hop with rfl | rfl | rfl | rfl | rfl
          · exact ⟨by decide, by decide⟩
          · exact ⟨by decide, by decide⟩
          · trivial
          · trivial
          · trivial)
  have h1 : rvm_map 1 "accounts" 16 ex_init = Outcome.ok 1 ex_mapped := rfl
  rw [h1] at hmap
  have hs1 : ex_mapped = s1 := by injection hmap
  subst hs1
  have hbuf1 : ex_mapped.mem 1 = some [0, 0, 0, 0, 0, 0, 0, 0, 0, 0, 0, 0, 0, 0, 0, 0] := rfl
  have hb : ex_mapped.mem ex_init.next_addr = ex_mapped.mem 1 := rfl
  rw [hb, hbuf1] at hbuf
  have hbeq := Option.some.inj hbuf
  subst hbeq
  obtain ⟨s4, h4, -, h5⟩ := h
    (exec [Op.begin_trans 1 1 [1], Op.about_to_modify 1 1 0 8, Op.write 1 0 digits,
      Op.abort_trans 1, Op.write 1 8 digits] ex_mapped)
    (exec [Op.begin_trans 1 1 [1], Op.about_to_modify 1 1 0 8, Op.write 1 0 digits,
      Op.abort_trans 1, Op.write 1 8 digits, Op.unmap 1 1] ex_mapped) rfl rfl
  exact ⟨s4, h4, h5⟩

/-! ## C2: what `rvm_abort_trans` restores -/

theorem abort_regions_split :
    ∀ (a b : List Region) (s s1 : State), abort_regions (a ++ b) s = Outcome.ok () s1 →
      ∃ s2, abort_regions a s = Outcome.ok () s2 ∧ abort_regions b s2 = Outcome.ok () s1 := by
  intro a
  induction a with
  | nil =>
    intro b s s1 h
    exact ⟨s, rfl, h⟩
  | cons r rest ih =>
    intro b s s1 h
    simp only [List.cons_append, abort_regions] at h
    cases hp : s.segs r._seg with
    | none => simp [hp] at h
    | some seg =>
      simp only [hp] at h
      by_cases hsz : r._size ≠ (r._undo_log.length : Int)
      · simp [hsz] at h
      · simp only [hsz, if_false] at h
        cases hw : mem_write s seg.segbase r._offset r._undo_log with
        | none => simp [hw] at h
        | some s2 =>
          simp only [hw] at h
          obtain ⟨s3, h3, h4⟩ := ih b s2 s1 h
          refine ⟨s3, ?_, h4⟩
          simp only [abort_regions, hp, hsz, if_false, hw]
          exact h3

/-- The bytes of a buffer that no region of the list covers are the same after
`Transcation::abort` has run over the list, and the buffer keeps its length. -/
theorem abort_regions_keep (B : Int) (P : Nat → Prop) :
    ∀ (rs : List Region) (s s1 : State) (buf : List Byte),
      abort_regions rs s = Outcome.ok () s1 → s.mem B = some buf →
      (∀ r ∈ rs, ∀ seg, s.segs r._seg = some seg → seg.segbase = B → ∀ j, P j →
        ¬ (r._offset.toNat ≤ j ∧ j < r._offset.toNat + r._undo_log.length)) →
      ∃ buf1, s1.mem B = some buf1 ∧ buf1.length = buf.length ∧
        ∀ j, P j → byteAt buf1 j = byteAt buf j := by
  intro rs
  induction rs with
  | nil =>
    intro s s1 buf h hbuf _
    simp only [abort_regions, Outcome.ok.injEq, true_and] at h
    subst h
    exact ⟨buf, hbuf, rfl, fun _ _ => rfl⟩
  | cons r rest ih =>
    intro s s1 buf h hbuf hdis
    simp only [abort_regions] at h
    cases hp : s.segs r._seg with
    | none => simp [hp] at h
    | some seg =>
      simp only [hp] at h
      by_cases hsz : r._size ≠ (r._undo_log.length : Int)
      · simp [hsz] at h
      · simp only [hsz, if_false] at h
        cases hw : mem_write s seg.segbase r._offset r._undo_log with
        | none => simp [hw] at h
        | some s2 =>
          simp only [hw] at h
          rcases mem_write_some _ _ _ _ _ hw with ⟨-, rfl⟩ | ⟨-, buf0, hbuf0, h0, hle, rfl⟩
          · exact ih s2 s1 buf h hbuf
              (fun r1 hr1 => hdis r1 (List.mem_cons_of_mem _ hr1))
          · by_cases hB : seg.segbase = B
            · rw [hB] at hbuf0
              rw [hbuf] at hbuf0
              have hb := Option.some.inj hbuf0
              subst hb
              obtain ⟨buf1, h1, h2, h3⟩ := ih _ s1 (blit buf r._offset.toNat r._undo_log) h
                (by show upd s.mem seg.segbase _ B = _; rw [hB]; exact upd_same _ _ _)
                (fun r1 hr1 => hdis r1 (List.mem_cons_of_mem _ hr1))
              refine ⟨buf1, h1, by rw [h2, blit_length], ?_⟩
              intro j hj
              rw [h3 j hj, byteAt_blit]
              have hd := hdis r (List.mem_cons_self _ _) seg hp hB j hj
              have hc : ¬ (r._offset.toNat ≤ j ∧ j < r._offset.toNat + r._undo_log.length ∧
                  j < buf.length) := fun hx => hd ⟨hx.1, hx.2.1⟩
              rw [if_neg hc]
            · exact ih _ s1 buf h
                (by show upd s.mem seg.segbase _ B = _
                    rw [upd_ne _ _ (fun hx => hB hx.symm)]; exact hbuf)
                (fun r1 hr1 => hdis r1 (List.mem_cons_of_mem _ hr1))

/-- The segment a live transaction holds under a handle: it is ACQUIRED and
its buffer is at that handle. -/
theorem segs_find_seg (s : State) (hs : Inv s) (tid : Int) (t : Transcation)
    (ht : s.transs tid = some t) (b : Int) (p : Nat) (hf : segs_find t._segs b = some p) :
    ∃ seg, s.segs p = some seg ∧ seg.segbase = b ∧ seg.st = Status.ACQUIRED := by
  have hmem := segs_find_mem _ _ _ hf
  obtain ⟨id, R, hR, hall⟩ := hs.trans.store tid t ht
  obtain ⟨seg, n, hseg, hbase, -, -⟩ := hs.cat.base_seg id R b p hR (hall b p hmem)
  obtain ⟨seg1, hseg1, hst⟩ := hs.trans.acquired tid t b p ht hmem
  rw [hseg] at hseg1
  cases hseg1
  exact ⟨seg, hseg, hbase, hst⟩

/-- A run of writes of the caller and of declarations apart from the range
`[off, off + size)` of the buffer `base` appends to the regions of the
transaction `tid` only regions that do not meet that range. -/
theorem run_apart (tid base off size : Int) (p : Nat) :
    ∀ (ops : List Op) (s s2 : State) (t : Transcation), Inv s →
      (∀ op ∈ ops, op.wellTyped) → (∀ op ∈ ops, op.apart tid base off size) →
      run ops s = some s2 → s.transs tid = some t → segs_find t._segs base = some p →
      s2.segs = s.segs ∧
      ∃ t2 extra, s2.transs tid = some t2 ∧ t2._segs = t._segs ∧
        t2._regions = t._regions ++ extra ∧
        ∀ r ∈ extra, r._seg = p →
          (r._undo_log.length = 0 ∨ r._offset + (r._undo_log.length : Int) ≤ off ∨
            off + size ≤ r._offset) := by
  intro ops
  induction ops with
  | nil =>
    intro s s2 t _ _ _ h ht _
    simp only [run, Option.some.injEq] at h
    subst h
    exact ⟨rfl, t, [], ht, rfl, by simp, by intro r hr; cases hr⟩
  | cons op rest ih =>
    intro s s2 t hs hty hap h ht hfind
    simp only [run] at h
    cases hst : step op s with
    | none => rw [hst] at h; cases h
    | some s1 =>
      rw [hst] at h
      have hs1 : Inv s1 := Inv_step op s s1 hs (hty op (List.mem_cons_self _ _)) hst
      have hty1 : ∀ o ∈ rest, o.wellTyped := fun o ho => hty o (List.mem_cons_of_mem _ ho)
      have hap1 : ∀ o ∈ rest, o.apart tid base off size :=
        fun o ho => hap o (List.mem_cons_of_mem _ ho)
      have hop := hap op (List.mem_cons_self _ _)
      cases op with
      | init directory => exact absurd hop (by simp [Op.apart])
      | map rvm segname size_to_create => exact absurd hop (by simp [Op.apart])
      | unmap rvm segbase => exact absurd hop (by simp [Op.apart])
      | destroy rvm segname => exact absurd hop (by simp [Op.apart])
      | commit_trans tid1 => exact absurd hop (by simp [Op.apart])
      | truncate_log rvm => exact absurd hop (by simp [Op.apart])
      | begin_trans rvm numsegs segbases => exact absurd hop (by simp [Op.apart])
      | abort_trans tid1 => exact absurd hop (by simp [Op.apart])
      | about_to_modify tid1 b o z =>
        simp only [step] at hst
        cases ho : rvm_about_to_modify tid1 b o z s with
        | fatal s3 => rw [ho] at hst; cases hst
        | undef => rw [ho] at hst; cases hst
        | ok v s3 =>
          rw [ho] at hst; simp only [Outcome.returned, Option.some.injEq] at hst; subst hst
          obtain ⟨t1, p1, seg1, bytes, ht1, hf1, hseg1, -, hz, hread, hs3⟩ :=
            rvm_about_to_modify_ok tid1 b o z s s3 ho
          have hsegs3 : s3.segs = s.segs := by rw [hs3]
          have htr3 : s3.transs = upd s.transs tid1 (some
              { t1 with _regions := t1._regions ++ [⟨p1, o, z, bytes⟩] }) := by rw [hs3]
          by_cases htid : tid1 = tid
          · subst htid
            rw [ht] at ht1
            have hteq := Option.some.inj ht1
            subst hteq
            obtain ⟨h1, t2, extra, h2, h3, h4, h5⟩ := ih s3 s2
              { t with _regions := t._regions ++ [⟨p1, o, z, bytes⟩] } hs1 hty1 hap1 h
              (by rw [htr3]; exact upd_same _ _ _) hfind
            refine ⟨by rw [h1, hsegs3], t2, ⟨p1, o, z, bytes⟩ :: extra, h2, h3, ?_, ?_⟩
            · rw [h4]
              show (t._regions ++ [⟨p1, o, z, bytes⟩]) ++ extra = _
              rw [List.append_assoc]; rfl
            · intro r hr hrp
              rcases List.mem_cons.mp hr with rfl | hr
              · have hp1 : p1 = p := hrp
                subst hp1
                obtain ⟨sg, hsg, hsb, -⟩ := segs_find_seg s hs tid1 t ht b p1 hf1
                obtain ⟨sg1, hsg1, hsb1, -⟩ := segs_find_seg s hs tid1 t ht base p1 hfind
                rw [hsg] at hsg1
                have hsgeq := Option.some.inj hsg1
                subst hsgeq
                have hb : b = base := by rw [← hsb, hsb1]
                have hlen := mem_read_length s _ o z bytes hz hread
                have hop1 : z = 0 ∨ o + z ≤ off ∨ off + size ≤ o := hop rfl hb
                show bytes.length = 0 ∨ o + (bytes.length : Int) ≤ off ∨ off + size ≤ o
                omega
              · exact h5 r hr hrp
          · obtain ⟨h1, t2, extra, h2, h3, h4, h5⟩ := ih s3 s2 t hs1 hty1 hap1 h
              (by rw [htr3, upd_ne _ _ (fun hx => htid hx.symm)]; exact ht) hfind
            exact ⟨by rw [h1, hsegs3], t2, extra, h2, h3, h4, h5⟩
      | write segbase offset bytes =>
        simp only [step, caller_write] at hst
        cases hw : mem_write s segbase offset bytes with
        | none => rw [hw] at hst; cases hst
        | some s3 =>
          rw [hw] at hst; simp only [Outcome.returned, Option.some.injEq] at hst; subst hst
          have hfr : s3.segs = s.segs ∧ s3.transs = s.transs := by
            rcases mem_write_some s segbase offset bytes s3 hw with ⟨-, rfl⟩ |
              ⟨-, buf, -, -, -, rfl⟩
            · exact ⟨rfl, rfl⟩
            · exact ⟨rfl, rfl⟩
          obtain ⟨h1, t2, extra, h2, h3, h4, h5⟩ := ih s3 s2 t hs1 hty1 hap1 h
            (by rw [hfr.2]; exact ht) hfind
          exact ⟨by rw [h1, hfr.1], t2, extra, h2, h3, h4, h5⟩

theorem abort_regions_one (s : State) (r : Region) (seg : Segment) (buf : List Byte)
    (hseg : s.segs r._seg = some seg) (hbuf : s.mem seg.segbase = some buf)
    (hsz : r._size = (r._undo_log.length : Int)) (hoff : 0 ≤ r._offset)
    (hle : r._offset + (r._undo_log.length : Int) ≤ buf.length) :
    ∃ s1, abort_regions [r] s = Outcome.ok () s1 ∧ s1.segs = s.segs ∧
      s1.mem = upd s.mem seg.segbase (some (blit buf r._offset.toNat r._undo_log)) := by
  have hsz1 : ¬ (r._size ≠ (r._undo_log.length : Int)) := by omega
  have h : abort_regions [r] s = Outcome.ok ()
      { s with mem := upd s.mem seg.segbase (some (blit buf r._offset.toNat r._undo_log)) } := by
    simp only [abort_regions, hseg, hsz1, if_false,
      mem_write_eq s seg.segbase r._offset r._undo_log buf hbuf hoff hle]
  exact ⟨_, h, rfl, rfl⟩

/-- C2, amended. In a reachable state `rvm_about_to_modify(tid, base, off,
size)` returns, declaring the range `[off, off + size)` of the buffer `base`
whose bytes at that moment are `bytes`.  After any run of writes of the caller
into buffers and of further declarations, none of which declares in the same
transaction a range of at least one byte of the same buffer that meets
`[off, off + size)`, `rvm_abort_trans(tid)` returns and the buffer holds
`bytes` at `[off, off + size)` again. -/
theorem abort_restores_region (s : State) (hs : Reachable s) (tid base off size : Int)
    (hoff : isInt off) (hsize : isInt size) (s1 : State)
    (hdecl : rvm_about_to_modify tid base off size s = Outcome.ok () s1)
    (ops : List Op) (hty : ∀ op ∈ ops, op.wellTyped)
    (hap : ∀ op ∈ ops, op.apart tid base off size) (s2 : State)
    (hrun : run ops s1 = some s2) :
    ∃ bytes s3, mem_read s base off size = some bytes ∧ (bytes.length : Int) = size ∧
      rvm_abort_trans tid s2 = Outcome.ok () s3 ∧
      mem_read s3 base off size = some bytes := by
  obtain ⟨t, p, seg, bytes, ht, hfind, hseg, -, hz, hread, hs1eq⟩ :=
    rvm_about_to_modify_ok tid base off size s s1 hdecl
  obtain ⟨sg, hsg, hsb, hstA⟩ := segs_find_seg s hs.inv tid t ht base p hfind
  rw [hseg] at hsg
  have hsgeq := Option.some.inj hsg
  subst hsgeq
  rw [hsb] at hread
  have hlen : (bytes.length : Int) = size := mem_read_length s base off size bytes hz hread
  have hR1 : Reachable s1 := Reachable.step s _ s1 hs
    (show (Op.about_to_modify tid base off size).wellTyped from ⟨hoff, hsize⟩)
    (step_modify_of_ok hdecl)
  have hsegs1 : s1.segs = s.segs := by rw [hs1eq]
  have htr1 : s1.transs tid = some
      { t with _regions := t._regions ++ [⟨p, off, size, bytes⟩] } := by
    rw [hs1eq]; exact upd_same _ _ _
  obtain ⟨hsegs2, t2, extra, ht2, -, hregs2, hextra⟩ :=
    run_apart tid base off size p ops s1 s2 _ hR1.inv hty hap hrun htr1 hfind
  have hR2 : Reachable s2 := reachable_run hR1 ops s2 hty hrun
  obtain ⟨s3, habort⟩ := rvm_abort_trans_some tid t2 s2 hR2.inv ht2
  refine ⟨bytes, s3, hread, hlen, habort, ?_⟩
  rcases mem_read_some s base off size bytes hread with ⟨h0, -⟩ |
    ⟨hpos, buf, hbuf, hoff0, hle, hbytes⟩
  · have hb : bytes = [] := by
      apply List.eq_nil_of_length_eq_zero
      omega
    subst h0
    rw [hb]
    simp [mem_read]
  · obtain ⟨t2a, sa2, ht2a, hab, hfin⟩ := rvm_abort_trans_ok tid s2 s3 habort
    rw [ht2] at ht2a
    have ht2eq := Option.some.inj ht2a
    subst ht2eq
    have hmem3 : s3.mem = sa2.mem := finish_trans_mem tid t2 sa2 s3 hfin
    have hne : seg.st ≠ Status.UNMAPPED := by rw [hstA]; decide
    -- the buffer of the segment has the declared size all along
    obtain ⟨b0, hb0, hb0len⟩ := hs.inv.live.buf p seg hseg hne
    rw [hsb, hbuf] at hb0
    have hb0eq := Option.some.inj hb0
    subst hb0eq
    have hseg2 : s2.segs p = some seg := by rw [hsegs2, hsegs1]; exact hseg
    obtain ⟨buf2, hbuf2, hbuf2len⟩ := hR2.inv.live.buf p seg hseg2 hne
    rw [hsb] at hbuf2
    -- the regions declared before, the region, and the regions declared after
    have hregs : t2._regions = t._regions ++ ([⟨p, off, size, bytes⟩] ++ extra) := by
      rw [hregs2]
      show (t._regions ++ [⟨p, off, size, bytes⟩]) ++ extra = _
      rw [List.append_assoc]
    rw [hregs] at hab
    obtain ⟨sa, ha, hrest⟩ := abort_regions_split _ _ s2 sa2 hab
    obtain ⟨sb, hb, hc⟩ := abort_regions_split _ _ sa sa2 hrest
    have hsega : sa.segs = s2.segs := by
      rw [abort_regions_frame _ _ _ ha]
    obtain ⟨bufa, hbufa, hbufalen, -⟩ := abort_regions_keep base (fun _ => False)
      t._regions s2 sa buf2 ha hbuf2 (fun _ _ _ _ _ _ hj => absurd hj id)
    obtain ⟨sb1, hb1, hsegb, hmemb⟩ := abort_regions_one sa ⟨p, off, size, bytes⟩ seg bufa
      (by show sa.segs p = some seg; rw [hsega]; exact hseg2)
      (by rw [hsb]; exact hbufa) hlen.symm hoff0
      (by show off + (bytes.length : Int) ≤ bufa.length; omega)
    rw [hb1] at hb
    have hsbeq : sb1 = sb := by injection hb
    subst hsbeq
    rw [hsb] at hmemb
    have hdis : ∀ r ∈ extra, ∀ sg, sb1.segs r._seg = some sg → sg.segbase = base → ∀ j,
        (off.toNat ≤ j ∧ j < off.toNat + size.toNat) →
        ¬ (r._offset.toNat ≤ j ∧ j < r._offset.toNat + r._undo_log.length) := by
      intro r hr sg hsg hsgb j hj
      rw [hsegb, hsega] at hsg
      have hrmem : r ∈ t2._regions := by
        rw [hregs]
        exact List.mem_append_right _ (List.mem_append_right _ hr)
      obtain ⟨-, sg1, -, -, -, -, hsg1, hst1, -, -, -, -, -, -, hrlen, hroff, -⟩ :=
        region_facts s2 hR2.inv tid t2 r ht2 hrmem
      rw [hsg] at hsg1
      have hsgeq := Option.some.inj hsg1
      subst hsgeq
      have hrp : r._seg = p := by
        by_contra hne1
        have := (hR2.inv.live.distinct r._seg p sg seg hsg hseg2
          (by rw [hst1]; decide) hne hne1).1
        exact this (by rw [hsgb, hsb])
      have := hextra r hr hrp
      intro hcov
      by_cases hl0 : r._undo_log.length = 0
      · omega
      · have := hroff (by omega)
        omega
    obtain ⟨buf3, hbuf3, hbuf3len, hbuf3eq⟩ := abort_regions_keep base
      (fun j => off.toNat ≤ j ∧ j < off.toNat + size.toNat) extra sb1 sa2
      (blit bufa off.toNat bytes) hc (by rw [hmemb]; exact upd_same _ _ _) hdis
    rw [blit_length] at hbuf3len
    have hmem3b : s3.mem base = some buf3 := by rw [hmem3]; exact hbuf3
    rw [mem_read_eq s3 base off size buf3 hmem3b hoff0 hz (by omega)]
    congr 1
    apply list_ext_byteAt
    · rw [slice_length]; omega
    · intro i hi
      rw [slice_length] at hi
      rw [byteAt_slice, if_pos hi, hbuf3eq (off.toNat + i) ⟨by omega, by omega⟩, byteAt_blit]
      have hcc : off.toNat ≤ off.toNat + i ∧ off.toNat + i < off.toNat + bytes.length ∧
          off.toNat + i < bufa.length := by omega
      rw [if_pos hcc]
      congr 1
      omega

/-- C2 as stated fails: in `ex_begun` the range `(0, 2)` is declared while it
holds two zero bytes, the caller writes `12` there and declares `(0, 2)`
again; after `rvm_abort_trans` the range holds `12`, not the bytes it held
when the first region was declared. -/
theorem abort_overlap_counterexample :
    ∃ s1, run [Op.about_to_modify 1 1 0 2, Op.write 1 0 [49, 50], Op.about_to_modify 1 1 0 2,
        Op.abort_trans 1] ex_begun = some s1 ∧
      mem_read ex_begun 1 0 2 = some [0, 0] ∧
      mem_read s1 1 0 2 = some [49, 50] ∧
      mem_read s1 1 0 2 ≠ mem_read ex_begun 1 0 2 := by
  refine ⟨_, rfl, rfl, rfl, ?_⟩
  have h1 : mem_read ex_begun 1 0 2 = some [0, 0] := rfl
  have h2 : mem_read (exec [Op.about_to_modify 1 1 0 2, Op.write 1 0 [49, 50],
      Op.about_to_modify 1 1 0 2, Op.abort_trans 1] ex_begun) 1 0 2 = some [49, 50] := rfl
  intro h
  have h3 : (some [49, 50] : Option (List Byte)) = some [0, 0] := by
    rw [← h1, ← h2]; exact h
  exact absurd h3 (by decide)

/-- Witness of C2, amended: in `ex_begun` the range `(0, 8)` is declared, the
caller writes `12345678` there, the range `(8, 4)` is declared and written;
the abort restores the eight zero bytes. -/
theorem abort_restores_region_witness :
    ∃ bytes s3, mem_read ex_begun 1 0 8 = some bytes ∧ (bytes.length : Int) = 8 ∧
      rvm_abort_trans 1 (exec [Op.write 1 0 digits, Op.about_to_modify 1 1 8 4,
        Op.write 1 8 [49, 50, 51, 52]] (exec [Op.about_to_modify 1 1 0 8] ex_begun)) =
        Outcome.ok () s3 ∧
      mem_read s3 1 0 8 = some bytes :=
  abort_restores_region ex_begun ex_begun_reachable 1 1 0 8 (by decide) (by decide)
    (exec [Op.about_to_modify 1 1 0 8] ex_begun) rfl
    [Op.write 1 0 digits, Op.about_to_modify 1 1 8 4, Op.write 1 8 [49, 50, 51, 52]]
    (by intro op hop
        simp only [List.mem_cons, List.mem_singleton, List.not_mem_nil, or_false] at hop
        rcases hop with rfl | rfl | rfl
        · trivial
        · exact ⟨by decide, by decide⟩
        · trivial)
    (by intro op hop
        simp only [List.mem_cons, List.mem_singleton, List.not_mem_nil, or_false] at hop
        rcases hop with rfl | rfl | rfl
        · trivial
        · intro _ _; right; right; decide
        · trivial)
    (exec [Op.write 1 0 digits, Op.about_to_modify 1 1 8 4, Op.write 1 8 [49, 50, 51, 52]]
      (exec [Op.about_to_modify 1 1 0 8] ex_begun)) rfl

/-! ## C11: what a declaration that is not fatal does -/

theorem finished_frame (s : State) (hs : Inv s) (tid : Int) (t : Transcation)
    (ht : s.transs tid = some t) (s1 : State)
    (hfin : rvm_commit_trans tid s = Outcome.ok () s1 ∨
      rvm_abort_trans tid s = Outcome.ok () s1) :
    release_hold_segs t._segs s.segs = some s1.segs ∧ s1.rvms = s.rvms ∧
      s1.transs = upd s.transs tid none ∧ s1.trans_id = s.trans_id := by
  rcases hfin with hc | ha
  · obtain ⟨t1, s3, ht1, hcr, hf⟩ := rvm_commit_trans_ok tid s s1 hc
    rw [ht] at ht1
    have hteq := Option.some.inj ht1
    subst hteq
    obtain ⟨-, hfr⟩ := Inv_commit_regions tid t _ s s3 hs ht (fun _ hr => hr) hcr
    obtain ⟨segs1, hr, rfl⟩ := finish_trans_ok tid t s3 _ hf
    have e1 : s3.segs = s.segs := by rw [hfr]
    have e2 : s3.rvms = s.rvms := by rw [hfr]
    have e3 : s3.transs = s.transs := by rw [hfr]
    have e4 : s3.trans_id = s.trans_id := by rw [hfr]
    rw [e1] at hr
    exact ⟨hr, e2, by show upd s3.transs tid none = _; rw [e3], e4⟩
  · obtain ⟨t1, s3, ht1, har, hf⟩ := rvm_abort_trans_ok tid s s1 ha
    rw [ht] at ht1
    have hteq := Option.some.inj ht1
    subst hteq
    have hfr := abort_regions_frame _ _ _ har
    obtain ⟨segs1, hr, rfl⟩ := finish_trans_ok tid t s3 _ hf
    have e1 : s3.segs = s.segs := by rw [hfr]
    have e2 : s3.rvms = s.rvms := by rw [hfr]
    have e3 : s3.transs = s.transs := by rw [hfr]
    have e4 : s3.trans_id = s.trans_id := by rw [hfr]
    rw [e1] at hr
    exact ⟨hr, e2, by show upd s3.transs tid none = _; rw [e3], e4⟩

/-- C13. `rvm_unmap(store, handle)` on a registered store: when the handle is
unknown to the store, or its segment is UNMAPPED, the call returns and the
state is unchanged; when the segment is ACQUIRED the process terminates;
when it is MAPPED (in a reachable state) the call returns, the segment is
UNMAPPED and otherwise as before, the handle-keyed entry is removed, the
name-keyed catalog is as before, the buffer is released and the descriptor
closed, while every other segment, catalog entry, store, buffer and
descriptor, every transaction, the directory and the contents of every file
are unchanged.  In a reachable state a handle known to the store resolves to
a segment record, so these are all the cases. -/
theorem unmap_outcomes (s : State) (rvm b : Int) (R : RVM) (hR : s.rvms rvm = some R) :
    (R._base_seg_map b = none → rvm_unmap rvm b s = Outcome.ok () s) ∧
    (∀ p seg, R._base_seg_map b = some p → s.segs p = some seg →
      (seg.st = Status.UNMAPPED → rvm_unmap rvm b s = Outcome.ok () s) ∧
      (seg.st = Status.ACQUIRED → rvm_unmap rvm b s = Outcome.fatal s) ∧
      (seg.st = Status.MAPPED → Reachable s →
        ∃ s1 R1, rvm_unmap rvm b s = Outcome.ok () s1 ∧
          s1.segs p = some { seg with st := Status.UNMAPPED } ∧
          (∀ q, q ≠ p → s1.segs q = s.segs q) ∧
          s1.rvms rvm = some R1 ∧ R1._base_seg_map b = none ∧
          (∀ b1, b1 ≠ b → R1._base_seg_map b1 = R._base_seg_map b1) ∧
          R1._name_seg_map = R._name_seg_map ∧ R1._backing_store = R._backing_store ∧
          (∀ id, id ≠ rvm → s1.rvms id = s.rvms id) ∧
          s1.fs.dir = s.fs.dir ∧ s1.fs.data = s.fs.data ∧
          (∀ fd, fd ≠ seg.fd → s1.fs.fdt fd = s.fs.fdt fd) ∧ s1.fs.fdt seg.fd = none ∧
          s1.mem b = none ∧ (∀ a, a ≠ b → s1.mem a = s.mem a) ∧ s1.transs = s.transs)) ∧
    (Reachable s → R._base_seg_map b = none ∨
      ∃ p seg, R._base_seg_map b = some p ∧ s.segs p = some seg) := by
  refine ⟨?_, ?_, ?_⟩
  · intro hb
    simp only [rvm_unmap, hR, RVM.find_seg_by_base, hb]
  · intro p seg hb hseg
    refine ⟨?_, ?_, ?_⟩
    · intro hst
      simp only [rvm_unmap, hR, RVM.find_seg_by_base, hb, hseg, hst, if_true]
    · intro hst
      have h1 : ¬ (Status.ACQUIRED = Status.UNMAPPED) := by decide
      have h2 : ¬ (Status.ACQUIRED = Status.MAPPED) := by decide
      simp only [rvm_unmap, hR, RVM.find_seg_by_base, hb, hseg, hst, h1, h2, ne_eq,
        not_false_eq_true, if_true, if_false]
    · intro hst hs
      obtain ⟨sg, n, hsg, hsb, -, -⟩ := hs.inv.cat.base_seg rvm R b p hR hb
      rw [hseg] at hsg
      have hsgeq := Option.some.inj hsg
      subst hsgeq
      obtain ⟨buf, hbuf, -⟩ := hs.inv.live.buf p seg hseg (by rw [hst]; decide)
      have h := rvm_unmap_eq rvm b s R p seg buf hR hb hseg hst hbuf
      refine ⟨_, _, h, upd_same _ _ _, fun q hq => upd_ne _ _ hq, upd_same _ _ _,
        upd_same _ _ _, fun b1 hb1 => upd_ne _ _ hb1, rfl, rfl, fun id hid => upd_ne _ _ hid,
        rfl, rfl, fun fd hfd => upd_ne _ _ hfd, upd_same _ _ _, ?_, ?_, rfl⟩
      · show upd s.mem seg.segbase none b = none
        rw [hsb]; exact upd_same _ _ _
      · intro a ha
        show upd s.mem seg.segbase none a = s.mem a
        rw [hsb]; exact upd_ne _ _ ha
  · intro hs
    cases hb : R._base_seg_map b with
    | none => exact Or.inl rfl
    | some p =>
      obtain ⟨sg, n, hsg, -, -, -⟩ := hs.inv.cat.base_seg rvm R b p hR hb
      exact Or.inr ⟨p, sg, rfl, hsg⟩

/-- Witness of C13: in `ex_begun` the segment of the handle `1` is ACQUIRED
and `rvm_unmap` terminates the process; the handle `5` is unknown and
`rvm_unmap` returns without a change. -/
theorem unmap_outcomes_witness :
    rvm_unmap 1 5 ex_begun = Outcome.ok () ex_begun ∧
    rvm_unmap 1 1 ex_begun = Outcome.fatal ex_begun ∧
    ∃ s1, rvm_unmap 1 1 ex_mapped = Outcome.ok () s1 ∧ s1.mem 1 = none :=
  ⟨(unmap_outcomes ex_begun 1 5 _ rfl).1 rfl,
   ((unmap_outcomes ex_begun 1 1 _ rfl).2.1 0 _ rfl rfl).2.1 rfl,
   by
    obtain ⟨s1, R1, h1, -, -, -, -, -, -, -, -, -, -, -, -, h2, -⟩ :=
      ((unmap_outcomes ex_mapped 1 1 _ rfl).2.1 0 _ rfl rfl).2.2 rfl ex_mapped_reachable
    exact ⟨s1, h1, h2⟩⟩

/-! ## C14: `rvm_destroy` -/

theorem rvm_destroy_live (s : State) (rvm : Int) (R : RVM) (n : String) (p : Nat)
    (seg : Segment) (hR : s.rvms rvm = some R) (hn : R._name_seg_map n = some p)
    (hseg : s.segs p = some seg) (hst : seg.st = Status.MAPPED ∨ seg.st = Status.ACQUIRED) :
    rvm_destroy rvm n s = Outcome.ok () s := by
  have hne : seg.st ≠ Status.UNMAPPED := by
    rcases hst with h | h <;> rw [h] <;> decide
  simp only [rvm_destroy, hR, RVM.find_seg_by_name, hn, hseg, hne, ne_eq, not_false_eq_true,
    if_true]

theorem rvm_destroy_unmapped (s : State) (rvm : Int) (R : RVM) (n : String) (p : Nat)
    (seg : Segment) (hR : s.rvms rvm = some R) (hn : R._name_seg_map n = some p)
    (hseg : s.segs p = some seg) (hst : seg.st = Status.UNMAPPED) :
    ∃ s1 R1, rvm_destroy rvm n s = Outcome.ok () s1 ∧
      s1.rvms rvm = some R1 ∧ R1._name_seg_map n = none ∧
      (∀ n1, n1 ≠ n → R1._name_seg_map n1 = R._name_seg_map n1) ∧
      R1._base_seg_map = R._base_seg_map ∧ R1._backing_store = R._backing_store ∧
      (∀ id, id ≠ rvm → s1.rvms id = s.rvms id) ∧
      s1.segs p = none ∧ (∀ q, q ≠ p → s1.segs q = s.segs q) ∧
      s1.fs.dir (R.get_filepath n) = none ∧
      (∀ path, path ≠ R.get_filepath n → s1.fs.dir path = s.fs.dir path) ∧
      s1.fs.data = s.fs.data ∧ s1.fs.fdt = s.fs.fdt ∧
      s1.mem = s.mem ∧ s1.transs = s.transs := by
  have hne : ¬ (seg.st ≠ Status.UNMAPPED) := by rw [hst]; decide
  have h : rvm_destroy rvm n s = Outcome.ok ()
      { s with segs := upd s.segs p none,
               rvms := upd s.rvms rvm (some
                 { R with _name_seg_map := upd R._name_seg_map n none }),
               fs := sys_remove s.fs (R.get_filepath n) } := by
    simp only [rvm_destroy, hR, RVM.find_seg_by_name, hn, hseg, hne, if_false]
  exact ⟨_, _, h, upd_same _ _ _, upd_same _ _ _, fun n1 h1 => upd_ne _ _ h1, rfl, rfl,
    fun id hid => upd_ne _ _ hid, upd_same _ _ _, fun q hq => upd_ne _ _ hq, upd_same _ _ _,
    fun path hp => upd_ne _ _ hp, rfl, rfl, rfl, rfl⟩

theorem rvm_destroy_absent (s : State) (rvm : Int) (R : RVM) (n : String)
    (hR : s.rvms rvm = some R) (hn : R._name_seg_map n = none) :
    ∃ s1, rvm_destroy rvm n s = Outcome.ok () s1 ∧
      s1.rvms = s.rvms ∧ s1.segs = s.segs ∧
      s1.fs.dir (R.get_filepath n) = none ∧
      (∀ path, path ≠ R.get_filepath n → s1.fs.dir path = s.fs.dir path) ∧
      s1.fs.data = s.fs.data ∧ s1.fs.fdt = s.fs.fdt ∧
      s1.mem = s.mem ∧ s1.transs = s.transs := by
  have h : rvm_destroy rvm n s = Outcome.ok ()
      { s with fs := sys_remove s.fs (R.get_filepath n) } := by
    simp only [rvm_destroy, hR, RVM.find_seg_by_name, hn]
  exact ⟨_, h, rfl, rfl, upd_same _ _ _, fun path hp => upd_ne _ _ hp, rfl, rfl, rfl, rfl⟩

/-- C14. `rvm_destroy(store, name)` on a registered store.  When the named
segment exists and is MAPPED or ACQUIRED the call returns and the state is
unchanged.  When it exists and is UNMAPPED the call returns, the name-keyed
entry and the segment record are removed and no file is linked at the path of
the segment any more; when the name has no entry the call returns and no file
is linked at the path any more; in both cases everything else (other entries,
segments, stores, paths, the contents of files, descriptors, buffers and
transactions) is as before.  In a reachable state a name with an entry
resolves to a segment record, so these are all the cases.  Hence, for a
segment that a live transaction holds: `rvm_destroy` changes nothing; after
the transaction has been committed or aborted it still changes nothing; and
after `rvm_unmap`, which then returns, `rvm_destroy` returns with the entry
removed and the path unlinked. -/
theorem destroy_outcomes (s : State) (rvm : Int) (R : RVM) (n : String)
    (hR : s.rvms rvm = some R) :
    (∀ p seg, R._name_seg_map n = some p → s.segs p = some seg →
      ((seg.st = Status.MAPPED ∨ seg.st = Status.ACQUIRED) →
        rvm_destroy rvm n s = Outcome.ok () s) ∧
      (seg.st = Status.UNMAPPED →
        ∃ s1 R1, rvm_destroy rvm n s = Outcome.ok () s1 ∧
          s1.rvms rvm = some R1 ∧ R1._name_seg_map n = none ∧
          (∀ n1, n1 ≠ n → R1._name_seg_map n1 = R._name_seg_map n1) ∧
          R1._base_seg_map = R._base_seg_map ∧ R1._backing_store = R._backing_store ∧
          (∀ id, id ≠ rvm → s1.rvms id = s.rvms id) ∧
          s1.segs p = none ∧ (∀ q, q ≠ p → s1.segs q = s.segs q) ∧
          s1.fs.dir (R.get_filepath n) = none ∧
          (∀ path, path ≠ R.get_filepath n → s1.fs.dir path = s.fs.dir path) ∧
          s1.fs.data = s.fs.data ∧ s1.fs.fdt = s.fs.fdt ∧
          s1.mem = s.mem ∧ s1.transs = s.transs)) ∧
    (R._name_seg_map n = none →
      ∃ s1, rvm_destroy rvm n s = Outcome.ok () s1 ∧
        s1.rvms = s.rvms ∧ s1.segs = s.segs ∧
        s1.fs.dir (R.get_filepath n) = none ∧
        (∀ path, path ≠ R.get_filepath n → s1.fs.dir path = s.fs.dir path) ∧
        s1.fs.data = s.fs.data ∧ s1.fs.fdt = s.fs.fdt ∧
        s1.mem = s.mem ∧ s1.transs = s.transs) ∧
    (Reachable s → R._name_seg_map n = none ∨
      ∃ p seg, R._name_seg_map n = some p ∧ s.segs p = some seg) ∧
    (Reachable s → ∀ tid t b p, s.transs tid = some t → (b, p) ∈ t._segs →
      R._base_seg_map b = some p → R._name_seg_map n = some p →
      rvm_destroy rvm n s = Outcome.ok () s ∧
      ∀ s1, (rvm_commit_trans tid s = Outcome.ok () s1 ∨
          rvm_abort_trans tid s = Outcome.ok () s1) →
        rvm_destroy rvm n s1 = Outcome.ok () s1 ∧
        ∃ s2 s3 R3, rvm_unmap rvm b s1 = Outcome.ok () s2 ∧
          rvm_destroy rvm n s2 = Outcome.ok () s3 ∧
          s3.rvms rvm = some R3 ∧ R3._name_seg_map n = none ∧
          s3.fs.dir (R.get_filepath n) = none) := by
  refine ⟨?_, ?_, ?_, ?_⟩
  · intro p seg hn hseg
    exact ⟨fun hst => rvm_destroy_live s rvm R n p seg hR hn hseg hst,
      fun hst => rvm_destroy_unmapped s rvm R n p seg hR hn hseg hst⟩
  · exact fun hn => rvm_destroy_absent s rvm R n hR hn
  · intro hs
    cases hn : R._name_seg_map n with
    | none => exact Or.inl rfl
    | some p =>
      obtain ⟨sg, hsg, -⟩ := hs.inv.cat.name_seg rvm R n p hR hn
      exact Or.inr ⟨p, sg, rfl, hsg⟩
  · intro hs tid t b p ht hbp hb hn
    obtain ⟨seg, hseg, hst⟩ := hs.inv.trans.acquired tid t b p ht hbp
    refine ⟨rvm_destroy_live s rvm R n p seg hR hn hseg (Or.inr hst), ?_⟩
    intro s1 hfin
    obtain ⟨hrel, hrvms, -, -⟩ := finished_frame s hs.inv tid t ht s1 hfin
    obtain ⟨i1, -⟩ := release_hold_segs_spec _ _ _ hrel
    obtain ⟨sg, hsg, hseg1⟩ := i1 p ⟨b, hbp⟩
    rw [hseg] at hsg
    have hsgeq := Option.some.inj hsg
    subst hsgeq
    have hR1 : s1.rvms rvm = some R := by rw [hrvms]; exact hR
    have hs1 : Reachable s1 := by
      rcases hfin with hc | ha
      · exact Reachable.step s _ s1 hs (show (Op.commit_trans tid).wellTyped from trivial)
          (step_commit_of_ok hc)
      · exact Reachable.step s (Op.abort_trans tid) s1 hs trivial
          (by simp only [step, ha, Outcome.returned])
    refine ⟨rvm_destroy_live s1 rvm R n p _ hR1 hn hseg1 (Or.inl rfl), ?_⟩
    obtain ⟨buf, hbuf, -⟩ := hs1.inv.live.buf p _ hseg1
      (by show Status.MAPPED ≠ Status.UNMAPPED; decide)
    obtain ⟨s2, R2, hun, hR2, hback2, hname2, hseg2, -, -⟩ :=
      rvm_unmap_abs rvm b s1 R p _ buf hR1 hb hseg1 rfl hbuf
    obtain ⟨s3, R3, hd, hR3, hn3, -, -, -, -, -, -, hdir3, -⟩ :=
      rvm_destroy_unmapped s2 rvm R2 n p _ hR2 (by rw [hname2]; exact hn) hseg2 rfl
    rw [get_filepath_congr R R2 n hback2] at hdir3
    exact ⟨s2, s3, R3, hun, hd, hR3, hn3, hdir3⟩

/-- Witness of C14: in `ex_written` the segment `accounts` is held by the
transaction `1`, and `rvm_destroy` changes nothing. -/
theorem destroy_outcomes_witness :
    rvm_destroy 1 "accounts" ex_written = Outcome.ok () ex_written :=
  ((destroy_outcomes ex_written 1 _ "accounts" rfl).1 0 ex_seg rfl ex_written_seg).1
    (Or.inr rfl)

/-! ## C15: `rvm_init` -/

/-- C16, as it stands, fails for `rvm_truncate_log`: at the start of the
process no store is registered under the handle `7`, yet
`rvm_truncate_log(7)` returns (its body is empty). -/
theorem truncate_log_counterexample :
    (State.start FS.empty).rvms 7 = none ∧
    rvm_truncate_log 7 (State.start FS.empty) = Outcome.ok () (State.start FS.empty) :=
  ⟨rfl, rfl⟩

/-- C16, amended. When no store is registered under the handle, `rvm_map`,
`rvm_unmap`, `rvm_destroy` and `rvm_begin_trans` terminate the process in the
state they were called in; when no transaction is registered under the
handle, so do `rvm_about_to_modify`, `rvm_commit_trans` and
`rvm_abort_trans`.  `rvm_truncate_log` returns in the state it was called
in, whatever handle it is given. -/
theorem unregistered_fatal (s : State) (rvm tid : Int) :
    (s.rvms rvm = none →
      (∀ segname size_to_create, rvm_map rvm segname size_to_create s = Outcome.fatal s) ∧
      (∀ segbase, rvm_unmap rvm segbase s = Outcome.fatal s) ∧
      (∀ segname, rvm_destroy rvm segname s = Outcome.fatal s) ∧
      (∀ numsegs segbases, rvm_begin_trans rvm numsegs segbases s = Outcome.fatal s)) ∧
    (s.transs tid = none →
      (∀ segbase offset size,
        rvm_about_to_modify tid segbase offset size s = Outcome.fatal s) ∧
      rvm_commit_trans tid s = Outcome.fatal s ∧
      rvm_abort_trans tid s = Outcome.fatal s) ∧
    rvm_truncate_log rvm s = Outcome.ok () s := by
  refine ⟨fun h => ⟨?_, ?_, ?_, ?_⟩, fun h => ⟨?_, ?_, ?_⟩, rfl⟩
  · intro segname size_to_create
    simp only [rvm_map, h]
  · intro segbase
    simp only [rvm_unmap, h]
  · intro segname
    simp only [rvm_destroy, h]
  · intro numsegs segbases
    simp only [rvm_begin_trans, h]
  · intro segbase offset size
    simp only [rvm_about_to_modify, h]
  · simp only [rvm_commit_trans, h]
  · simp only [rvm_abort_trans, h]

/-- Witness of the amended C16: in `ex_mapped` no store is registered under
`2` and no transaction under `1`. -/
theorem unregistered_fatal_witness :
    rvm_map 2 "accounts" 16 ex_mapped = Outcome.fatal ex_mapped ∧
    rvm_commit_trans 1 ex_mapped = Outcome.fatal ex_mapped :=
  ⟨((unregistered_fatal ex_mapped 2 1).1 rfl).1 "accounts" 16,
   ((unregistered_fatal ex_mapped 2 1).2.1 rfl).2.1⟩

/-! ## C17: mutual exclusion -/

/-- C17. In every state reachable from the start of the process, a segment
is ACQUIRED if and only if it is in the acquired set of some live
transaction; no segment is in the acquired sets of two live transactions;
and every member of an acquired set is a segment record. -/
theorem mutual_exclusion (s : State) (hs : Reachable s) :
    (∀ p seg, s.segs p = some seg →
      (seg.st = Status.ACQUIRED ↔ ∃ tid t b, s.transs tid = some t ∧ (b, p) ∈ t._segs)) ∧
    (∀ tid t tid1 t1 b b1 p, s.transs tid = some t → s.transs tid1 = some t1 →
      (b, p) ∈ t._segs → (b1, p) ∈ t1._segs → tid = tid1) ∧
    (∀ tid t b p, s.transs tid = some t → (b, p) ∈ t._segs → ∃ seg, s.segs p = some seg) := by
  refine ⟨?_, hs.inv.trans.exclusive, ?_⟩
  · intro p seg hseg
    constructor
    · exact hs.inv.trans.held p seg hseg
    · rintro ⟨tid, t, b, ht, hbp⟩
      obtain ⟨sg, hsg, hst⟩ := hs.inv.trans.acquired tid t b p ht hbp
      rw [hseg] at hsg
      rw [Option.some.inj hsg]
      exact hst
  · intro tid t b p ht hbp
    obtain ⟨sg, hsg, -⟩ := hs.inv.trans.acquired tid t b p ht hbp
    exact ⟨sg, hsg⟩

/-- Witness of C17: in `ex_written` the segment record `0` is ACQUIRED, so a
live transaction holds it. -/
theorem mutual_exclusion_witness :
    ∃ tid t b, ex_written.transs tid = some t ∧ (b, 0) ∈ t._segs :=
  ((mutual_exclusion ex_written ex_written_reachable).1 0 ex_seg ex_written_seg).mp rfl

/-! ## C19: the buffer after an abort, byte by byte -/

theorem Region.base_eq (s : State) (r : Region) (seg : Segment)
    (hseg : s.segs r._seg = some seg) : r.base s = some seg.segbase := by
  simp only [Region.base, hseg]

/-- The buffers after `Transcation::abort`: a byte covered by a region holds
the byte of the before-image of the last region covering it, a byte that no
region covers is as before. -/
theorem abort_regions_last (s : State) (hs : Inv s) (tid : Int) (t : Transcation)
    (ht : s.transs tid = some t) (s2 : State)
    (hab : abort_regions t._regions s = Outcome.ok () s2) (a : Int) (buf : List Byte)
    (hbuf : s.mem a = some buf) :
    ∃ buf1, s2.mem a = some buf1 ∧ buf1.length = buf.length ∧
      ∀ j,
        (∀ pre r post, t._regions = pre ++ r :: post → r.base s = some a → r.covers j →
          (∀ r1 ∈ post, r1.base s = some a → ¬ r1.covers j) →
          byteAt buf1 j = byteAt r._undo_log (j - r._offset.toNat)) ∧
        ((∀ r ∈ t._regions, r.base s = some a → ¬ r.covers j) →
          byteAt buf1 j = byteAt buf j) := by
  -- a region of the list that is on the buffer `a` and does not cover `j`
  have hnot : ∀ (x : State), x.segs = s.segs → ∀ r ∈ t._regions, ∀ j, ∀ sg,
      x.segs r._seg = some sg → sg.segbase = a → ¬ r.covers j →
      ¬ (r._offset.toNat ≤ j ∧ j < r._offset.toNat + r._undo_log.length) := by
    intro x hx r hr j sg hsg hsgb hnc
    obtain ⟨-, -, -, -, -, -, -, -, -, -, -, -, -, -, hrlen, -⟩ :=
      region_facts s hs tid t r ht hr
    intro hcov
    apply hnc
    show r._offset.toNat ≤ j ∧ j < r._offset.toNat + r._size.toNat
    omega
  obtain ⟨buf1, hbuf1, hlen1, -⟩ := abort_regions_keep a (fun _ => False) t._regions s s2 buf
    hab hbuf (fun _ _ _ _ _ _ hj => absurd hj id)
  refine ⟨buf1, hbuf1, hlen1, ?_⟩
  intro j
  constructor
  · intro pre r post hregs hbase hcov hpost
    have hrmem : r ∈ t._regions := by rw [hregs]; simp
    obtain ⟨-, seg, bufr, -, -, -, hseg, hst, hbufr, hbufrlen, -, -, -, hsz0, hrlen, hroff, hrle,
      -⟩ := region_facts s hs tid t r ht hrmem
    rw [Region.base_eq s r seg hseg] at hbase
    have hsb : seg.segbase = a := Option.some.inj hbase
    rw [hsb, hbuf] at hbufr
    have hbeq := Option.some.inj hbufr
    subst hbeq
    have hcov1 : r._offset.toNat ≤ j ∧ j < r._offset.toNat + r._size.toNat := hcov
    have hpos : 0 < r._size := by omega
    have hoff0 := hroff hpos
    rw [hregs] at hab
    obtain ⟨sa, ha, hrest⟩ := abort_regions_split pre (r :: post) s s2 hab
    obtain ⟨sb, hb, hc⟩ := abort_regions_split [r] post sa s2 hrest
    have hsega : sa.segs = s.segs := by rw [abort_regions_frame _ _ _ ha]
    obtain ⟨bufa, hbufa, hbufalen, -⟩ := abort_regions_keep a (fun _ => False) pre s sa buf
      ha hbuf (fun _ _ _ _ _ _ hj => absurd hj id)
    obtain ⟨sb1, hb1, hsegb, hmemb⟩ := abort_regions_one sa r seg bufa
      (by rw [hsega]; exact hseg) (by rw [hsb]; exact hbufa) hrlen.symm hoff0 (by omega)
    rw [hb1] at hb
    have hsbeq : sb1 = sb := by injection hb
    subst hsbeq
    rw [hsb] at hmemb
    obtain ⟨buf3, hbuf3, -, hbuf3eq⟩ := abort_regions_keep a (fun i => i = j) post sb1 s2
      (blit bufa r._offset.toNat r._undo_log) hc (by rw [hmemb]; exact upd_same _ _ _)
      (by
        intro r1 hr1 sg hsg hsgb i hi
        subst hi
        have hr1mem : r1 ∈ t._regions := by
          rw [hregs]
          exact List.mem_append_right _ (List.mem_cons_of_mem _ hr1)
        have hsg1 : s.segs r1._seg = some sg := by rw [← hsega, ← hsegb]; exact hsg
        exact hnot sb1 (by rw [hsegb, hsega]) r1 hr1mem i sg hsg hsgb
          (hpost r1 hr1 (by rw [Region.base_eq s r1 sg hsg1, hsgb])))
    rw [hbuf1] at hbuf3
    have hb3 := Option.some.inj hbuf3
    subst hb3
    rw [hbuf3eq j rfl, byteAt_blit]
    have hcc : r._offset.toNat ≤ j ∧ j < r._offset.toNat + r._undo_log.length ∧
        j < bufa.length := by omega
    rw [if_pos hcc]
  · intro hnone
    obtain ⟨buf3, hbuf3, -, hbuf3eq⟩ := abort_regions_keep a (fun i => i = j) t._regions s s2
      buf hab hbuf
      (by
        intro r hr sg hsg hsgb i hi
        subst hi
        exact hnot s rfl r hr i sg hsg hsgb
          (hnone r hr (by rw [Region.base_eq s r sg hsg, hsgb])))
    rw [hbuf1] at hbuf3
    have hb3 := Option.some.inj hbuf3
    subst hb3
    exact hbuf3eq j rfl

theorem abort_regions_none (a : Int) :
    ∀ (rs : List Region) (s s1 : State), abort_regions rs s = Outcome.ok () s1 →
      s.mem a = none → s1.mem a = none := by
  intro rs
  induction rs with
  | nil =>
    intro s s1 h hn
    simp only [abort_regions, Outcome.ok.injEq, true_and] at h
    subst h
    exact hn
  | cons r rest ih =>
    intro s s1 h hn
    simp only [abort_regions] at h
    cases hp : s.segs r._seg with
    | none => simp [hp] at h
    | some seg =>
      simp only [hp] at h
      by_cases hsz : r._size ≠ (r._undo_log.length : Int)
      · simp [hsz] at h
      · simp only [hsz, if_false] at h
        cases hw : mem_write s seg.segbase r._offset r._undo_log with
        | none => simp [hw] at h
        | some s2 =>
          simp only [hw] at h
          rcases mem_write_some _ _ _ _ _ hw with ⟨-, rfl⟩ | ⟨-, buf0, hbuf0, -, -, rfl⟩
          · exact ih s2 s1 h hn
          · apply ih _ s1 h
            show upd s.mem seg.segbase _ a = none
            rw [upd_ne _ _ (by intro hx; rw [hx, hbuf0] at hn; cases hn)]
            exact hn

/-- C19. In a reachable state `rvm_abort_trans` of a live transaction
returns; every buffer keeps its length; each byte of a buffer that at least
one region of the transaction covers holds afterwards the corresponding byte
of the before-image of the last-declared region covering it, and each byte
that no region covers is unchanged.  And there are overlapping declarations
after which the buffer differs from what it was before the transaction: from
`ex_mapped`, begin, declare `(0, 2)`, write `12`, declare `(0, 2)` again and
abort leave `12` at the head of the buffer of sixteen zero bytes. -/
theorem abort_last_wins :
    (∀ (s : State), Reachable s → ∀ (tid : Int) (t : Transcation), s.transs tid = some t →
      ∃ s1, rvm_abort_trans tid s = Outcome.ok () s1 ∧
        (∀ a, s.mem a = none → s1.mem a = none) ∧
        ∀ a buf, s.mem a = some buf →
          ∃ buf1, s1.mem a = some buf1 ∧ buf1.length = buf.length ∧
            ∀ j,
              (∀ pre r post, t._regions = pre ++ r :: post → r.base s = some a →
                r.covers j → (∀ r1 ∈ post, r1.base s = some a → ¬ r1.covers j) →
                byteAt buf1 j = byteAt r._undo_log (j - r._offset.toNat)) ∧
              ((∀ r ∈ t._regions, r.base s = some a → ¬ r.covers j) →
                byteAt buf1 j = byteAt buf j)) ∧
    (∃ s1, run [Op.begin_trans 1 1 [1], Op.about_to_modify 1 1 0 2, Op.write 1 0 [49, 50],
        Op.about_to_modify 1 1 0 2, Op.abort_trans 1] ex_mapped = some s1 ∧
      ex_mapped.mem 1 = some [0, 0, 0, 0, 0, 0, 0, 0, 0, 0, 0, 0, 0, 0, 0, 0] ∧
      s1.mem 1 = some [49, 50, 0, 0, 0, 0, 0, 0, 0, 0, 0, 0, 0, 0, 0, 0] ∧
      s1.mem 1 ≠ ex_mapped.mem 1) := by
  constructor
  · intro s hs tid t ht
    obtain ⟨s1, habort⟩ := rvm_abort_trans_some tid t s hs.inv ht
    obtain ⟨t1, s2, ht1, hab, hfin⟩ := rvm_abort_trans_ok tid s s1 habort
    rw [ht] at ht1
    have hteq := Option.some.inj ht1
    subst hteq
    have hmem : s1.mem = s2.mem := finish_trans_mem tid t s2 s1 hfin
    refine ⟨s1, habort, ?_, ?_⟩
    · intro a ha
      rw [hmem]
      exact abort_regions_none a _ s s2 hab ha
    · intro a buf hbuf
      rw [hmem]
      exact abort_regions_last s hs.inv tid t ht s2 hab a buf hbuf
  · refine ⟨_, rfl, rfl, rfl, ?_⟩
    have h1 : ex_mapped.mem 1 = some [0, 0, 0, 0, 0, 0, 0, 0, 0, 0, 0, 0, 0, 0, 0, 0] := rfl
    have h2 : (exec [Op.begin_trans 1 1 [1], Op.about_to_modify 1 1 0 2,
        Op.write 1 0 [49, 50], Op.about_to_modify 1 1 0 2, Op.abort_trans 1] ex_mapped).mem 1 =
        some [49, 50, 0, 0, 0, 0, 0, 0, 0, 0, 0, 0, 0, 0, 0, 0] := rfl
    intro h
    have h3 : (some [49, 50, 0, 0, 0, 0, 0, 0, 0, 0, 0, 0, 0, 0, 0, 0] : Option (List Byte)) =
        some [0, 0, 0, 0, 0, 0, 0, 0, 0, 0, 0, 0, 0, 0, 0, 0] := by
      rw [← h1, ← h2]; exact h
    exact absurd h3 (by decide)

/-- Witness of C19: aborting the transaction `1` of `ex_written` returns and
the buffer `1` keeps its sixteen bytes. -/
theorem abort_last_wins_witness :
    ∃ s1 buf1, rvm_abort_trans 1 ex_written = Outcome.ok () s1 ∧ s1.mem 1 = some buf1 ∧
      buf1.length = 16 := by
  obtain ⟨s1, h1, -, h2⟩ := abort_last_wins.1 ex_written ex_written_reachable 1 ex_trans
    ex_written_trans
  have hm : ex_written.mem 1 = some (digits ++ [0, 0, 0, 0, 0, 0, 0, 0]) := by decide
  obtain ⟨buf1, h3, h4, -⟩ := h2 1 (digits ++ [0, 0, 0, 0, 0, 0, 0, 0]) hm
  exact ⟨s1, buf1, h1, h3, h4⟩

/-! ## C18: regions that do not overlap -/

/-- When each before-image of the list holds the bytes of `orig` at its range
and the buffer agrees with `orig` outside the ranges of the list,
`Transcation::abort` over the list, in whatever order the list is, leaves the
buffer equal to `orig`. -/
theorem abort_regions_restore (a : Int) (orig : List Byte) :
    ∀ (rs : List Region) (s s1 : State) (buf : List Byte),
      abort_regions rs s = Outcome.ok () s1 → s.mem a = some buf →
      buf.length = orig.length →
      (∀ r ∈ rs, ∀ sg, s.segs r._seg = some sg → sg.segbase = a → ∀ j,
        (r._offset.toNat ≤ j ∧ j < r._offset.toNat + r._undo_log.length) →
        byteAt r._undo_log (j - r._offset.toNat) = byteAt orig j) →
      (∀ j, (∀ r ∈ rs, ∀ sg, s.segs r._seg = some sg → sg.segbase = a →
          ¬ (r._offset.toNat ≤ j ∧ j < r._offset.toNat + r._undo_log.length)) →
        byteAt buf j = byteAt orig j) →
      s1.mem a = some orig := by
  intro rs
  induction rs with
  | nil =>
    intro s s1 buf h hbuf hlen _ h2
    simp only [abort_regions, Outcome.ok.injEq, true_and] at h
    subst h
    rw [hbuf]
    congr 1
    apply list_ext_byteAt _ _ hlen
    intro j _
    exact h2 j (fun r hr => by cases hr)
  | cons r rest ih =>
    intro s s1 buf h hbuf hlen h1 h2
    simp only [abort_regions] at h
    cases hp : s.segs r._seg with
    | none => simp [hp] at h
    | some seg =>
      simp only [hp] at h
      by_cases hsz : r._size ≠ (r._undo_log.length : Int)
      · simp [hsz] at h
      · simp only [hsz, if_false] at h
        cases hw : mem_write s seg.segbase r._offset r._undo_log with
        | none => simp [hw] at h
        | some s2 =>
          simp only [hw] at h
          have h1r : ∀ r1 ∈ rest, ∀ sg, s.segs r1._seg = some sg → sg.segbase = a → ∀ j,
              (r1._offset.toNat ≤ j ∧ j < r1._offset.toNat + r1._undo_log.length) →
              byteAt r1._undo_log (j - r1._offset.toNat) = byteAt orig j :=
            fun r1 hr1 => h1 r1 (List.mem_cons_of_mem _ hr1)
          rcases mem_write_some _ _ _ _ _ hw with ⟨h0, rfl⟩ | ⟨-, buf0, hbuf0, hoff, hle, rfl⟩
          · apply ih s2 s1 buf h hbuf hlen h1r
            intro j hj
            apply h2 j
            intro r1 hr1 sg hsg hsgb
            rcases List.mem_cons.mp hr1 with rfl | hr1
            · omega
            · exact hj r1 hr1 sg hsg hsgb
          · by_cases hB : seg.segbase = a
            · rw [hB, hbuf] at hbuf0
              have hb := Option.some.inj hbuf0
              subst hb
              apply ih _ s1 (blit buf r._offset.toNat r._undo_log) h
                (by show upd s.mem seg.segbase _ a = _; rw [hB]; exact upd_same _ _ _)
                (by rw [blit_length]; exact hlen) h1r
              intro j hj
              rw [byteAt_blit]
              by_cases hc : r._offset.toNat ≤ j ∧ j < r._offset.toNat + r._undo_log.length
              · have hcc : r._offset.toNat ≤ j ∧ j < r._offset.toNat + r._undo_log.length ∧
                    j < buf.length := by omega
                rw [if_pos hcc]
                exact h1 r (List.mem_cons_self _ _) seg hp hB j hc
              · have hcc : ¬ (r._offset.toNat ≤ j ∧
                    j < r._offset.toNat + r._undo_log.length ∧ j < buf.length) :=
                  fun hx => hc ⟨hx.1, hx.2.1⟩
                rw [if_neg hcc]
                apply h2 j
                intro r1 hr1 sg hsg hsgb
                rcases List.mem_cons.mp hr1 with rfl | hr1
                · exact hc
                · exact hj r1 hr1 sg hsg hsgb
            · apply ih _ s1 buf h
                (by show upd s.mem seg.segbase _ a = _
                    rw [upd_ne _ _ (fun hx => hB hx.symm)]; exact hbuf)
                hlen h1r
              intro j hj
              apply h2 j
              intro r1 hr1 sg hsg hsgb
              rcases List.mem_cons.mp hr1 with rfl | hr1
              · rw [hp] at hsg
                rw [← Option.some.inj hsg] at hsgb
                exact absurd hsgb hB
              · exact hj r1 hr1 sg hsg hsgb

theorem snapshot_declare (tid : Int) (m0 : Int → Option (List Byte))
    (decl : List (Int × Int × Int)) (s s1 : State) (hs : Inv s) (b o z : Int)
    (hsnap : Snapshot tid m0 decl s)
    (hmod : rvm_about_to_modify tid b o z s = Outcome.ok () s1)
    (hdis : ∀ d ∈ decl, d.1 = b → z = 0 ∨ d.2.2 = 0 ∨ o + z ≤ d.2.1 ∨ d.2.1 + d.2.2 ≤ o) :
    Snapshot tid m0 ((b, o, z) :: decl) s1 := by
  obtain ⟨hnone, t, ht, hb1, hb2, hd, hc⟩ := hsnap
  obtain ⟨t1, p, seg, bytes, ht1, hfind, hseg, -, hz, hread, hs1⟩ :=
    rvm_about_to_modify_ok tid b o z s s1 hmod
  rw [ht] at ht1
  have hteq := Option.some.inj ht1
  subst hteq
  obtain ⟨sg, hsg, hsb, -⟩ := segs_find_seg s hs tid t ht b p hfind
  rw [hseg] at hsg
  have hsgeq := Option.some.inj hsg
  subst hsgeq
  have hbase : ∀ r : Region, r.base s1 = r.base s := by
    intro r; rw [hs1]; rfl
  have hmem : s1.mem = s.mem := by rw [hs1]
  have htr : s1.transs tid = some
      { t with _regions := t._regions ++ [⟨p, o, z, bytes⟩] } := by
    rw [hs1]; exact upd_same _ _ _
  have hnew : (⟨p, o, z, bytes⟩ : Region).base s = some b := by
    rw [Region.base_eq s ⟨p, o, z, bytes⟩ seg hseg, hsb]
  refine ⟨fun a ha => by rw [hmem]; exact hnone a ha, _, htr, ?_, ?_, ?_, ?_⟩
  · intro r hr
    rcases List.mem_append.mp hr with hr | hr
    · obtain ⟨a, h1, h2⟩ := hb1 r hr
      exact ⟨a, by rw [hbase]; exact h1, List.mem_cons_of_mem _ h2⟩
    · simp only [List.mem_singleton] at hr
      subst hr
      exact ⟨b, by rw [hbase]; exact hnew, List.mem_cons_self _ _⟩
  · intro d hd1
    rcases List.mem_cons.mp hd1 with rfl | hd1
    · exact ⟨⟨p, o, z, bytes⟩, List.mem_append_right _ (List.mem_singleton.mpr rfl),
        by rw [hbase]; exact hnew, rfl, rfl⟩
    · obtain ⟨r, hr, h1, h2, h3⟩ := hb2 d hd1
      exact ⟨r, List.mem_append_left _ hr, by rw [hbase]; exact h1, h2, h3⟩
  · intro r hr a orig hra hm0 j hj
    rw [hbase] at hra
    rcases List.mem_append.mp hr with hr | hr
    · exact hd r hr a orig hra hm0 j hj
    · simp only [List.mem_singleton] at hr
      subst hr
      rw [hnew] at hra
      have hab : b = a := Option.some.inj hra
      subst hab
      have hj1 : o.toNat ≤ j ∧ j < o.toNat + z.toNat := hj
      rcases mem_read_some s _ o z bytes hread with ⟨h0, -⟩ |
        ⟨hpos, buf, hbuf, ho, hle, hbytes⟩
      · omega
      · obtain ⟨buf1, hbuf1, hlen1, heq1⟩ := hc b orig hm0
        rw [hsb, hbuf1] at hbuf
        have hbeq := Option.some.inj hbuf
        subst hbeq
        show byteAt bytes (j - o.toNat) = byteAt orig j
        rw [hbytes, byteAt_slice, if_pos (by omega)]
        have hjj : o.toNat + (j - o.toNat) = j := by omega
        rw [hjj]
        apply heq1 j
        intro r hr hrb hcov
        obtain ⟨a1, h1, h2⟩ := hb1 r hr
        rw [hrb] at h1
        have ha1 : b = a1 := Option.some.inj h1
        subst ha1
        have hdj := hdis _ h2 rfl
        obtain ⟨-, -, -, hroff, -⟩ := hs.trans.regions tid t r ht hr
        have hcov1 : r._offset.toNat ≤ j ∧ j < r._offset.toNat + r._size.toNat := hcov
        have hrpos : 0 < r._size := by omega
        have := hroff hrpos
        simp only at hdj
        omega
  · intro a orig hm0
    obtain ⟨buf, hbuf, hlen, heq⟩ := hc a orig hm0
    refine ⟨buf, by rw [hmem]; exact hbuf, hlen, ?_⟩
    intro j hj
    apply heq j
    intro r hr hrb
    exact hj r (List.mem_append_left _ hr) (by rw [hbase]; exact hrb)

theorem snapshot_write (tid : Int) (m0 : Int → Option (List Byte))
    (decl : List (Int × Int × Int)) (s s1 : State) (hs : Inv s) (b o : Int)
    (bytes : List Byte) (hsnap : Snapshot tid m0 decl s)
    (hw : mem_write s b o bytes = some s1)
    (hin : ∀ i : Nat, i < bytes.length →
      ∃ d ∈ decl, d.1 = b ∧ d.2.1 ≤ o + i ∧ o + i < d.2.1 + d.2.2) :
    Snapshot tid m0 decl s1 := by
  obtain ⟨hnone, t, ht, hb1, hb2, hd, hc⟩ := hsnap
  rcases mem_write_some s b o bytes s1 hw with ⟨-, rfl⟩ | ⟨-, buf, hbuf, ho, hle, hs1⟩
  · exact ⟨hnone, t, ht, hb1, hb2, hd, hc⟩
  · have hbase : ∀ r : Region, r.base s1 = r.base s := by
      intro r; rw [hs1]; rfl
    have hmem : s1.mem = upd s.mem b (some (blit buf o.toNat bytes)) := by rw [hs1]
    have htr : s1.transs tid = some t := by rw [hs1]; exact ht
    refine ⟨?_, t, htr, ?_, ?_, ?_, ?_⟩
    · intro a ha
      have h1 := hnone a ha
      rw [hmem, upd_ne _ _ (by intro hx; rw [hx, hbuf] at h1; cases h1)]
      exact h1
    · intro r hr
      obtain ⟨a, h1, h2⟩ := hb1 r hr
      exact ⟨a, by rw [hbase]; exact h1, h2⟩
    · intro d hd1
      obtain ⟨r, hr, h1, h2, h3⟩ := hb2 d hd1
      exact ⟨r, hr, by rw [hbase]; exact h1, h2, h3⟩
    · intro r hr a orig hra hm0 j hj
      rw [hbase] at hra
      exact hd r hr a orig hra hm0 j hj
    · intro a orig hm0
      obtain ⟨buf1, hbuf1, hlen1, heq1⟩ := hc a orig hm0
      by_cases hab : a = b
      · subst hab
        rw [hbuf] at hbuf1
        have hbeq := Option.some.inj hbuf1
        subst hbeq
        refine ⟨blit buf o.toNat bytes, by rw [hmem]; exact upd_same _ _ _,
          by rw [blit_length]; exact hlen1, ?_⟩
        intro j hj
        have hj1 : ∀ r ∈ t._regions, r.base s = some a → ¬ r.covers j :=
          fun r hr hrb => hj r hr (by rw [hbase]; exact hrb)
        rw [byteAt_blit]
        by_cases hcc : o.toNat ≤ j ∧ j < o.toNat + bytes.length ∧ j < buf.length
        · exfalso
          obtain ⟨d, hd1, hda, hlo, hhi⟩ := hin (j - o.toNat) (by omega)
          obtain ⟨r, hr, hrb, hroffeq, hrsz⟩ := hb2 d hd1
          rw [hda] at hrb
          apply hj1 r hr hrb
          obtain ⟨-, -, -, hroff, -⟩ := hs.trans.regions tid t r ht hr
          have hrpos : 0 < r._size := by omega
          have := hroff hrpos
          show r._offset.toNat ≤ j ∧ j < r._offset.toNat + r._size.toNat
          omega
        · rw [if_neg hcc]
          exact heq1 j hj1
      · refine ⟨buf1, by rw [hmem, upd_ne _ _ hab]; exact hbuf1, hlen1, ?_⟩
        intro j hj
        exact heq1 j (fun r hr hrb => hj r hr (by rw [hbase]; exact hrb))

theorem run_disciplined (tid : Int) (m0 : Int → Option (List Byte)) :
    ∀ (ops : List Op) (decl : List (Int × Int × Int)) (s s2 : State), Inv s →
      (∀ op ∈ ops, op.wellTyped) → disciplined tid decl ops → run ops s = some s2 →
      Snapshot tid m0 decl s → ∃ decl2, Snapshot tid m0 decl2 s2 := by
  intro ops
  induction ops with
  | nil =>
    intro decl s s2 _ _ _ h hsnap
    simp only [run, Option.some.injEq] at h
    subst h
    exact ⟨decl, hsnap⟩
  | cons op rest ih =>
    intro decl s s2 hs hty hdisc h hsnap
    simp only [run] at h
    cases hst : step op s with
    | none => rw [hst] at h; cases h
    | some s1 =>
      rw [hst] at h
      have hs1 : Inv s1 := Inv_step op s s1 hs (hty op (List.mem_cons_self _ _)) hst
      have hty1 : ∀ o ∈ rest, o.wellTyped := fun o ho => hty o (List.mem_cons_of_mem _ ho)
      cases op with
      | init directory => exact absurd hdisc (by simp [disciplined])
      | map rvm segname size_to_create => exact absurd hdisc (by simp [disciplined])
      | unmap rvm segbase => exact absurd hdisc (by simp [disciplined])
      | destroy rvm segname => exact absurd hdisc (by simp [disciplined])
      | commit_trans tid1 => exact absurd hdisc (by simp [disciplined])
      | truncate_log rvm => exact absurd hdisc (by simp [disciplined])
      | begin_trans rvm numsegs segbases => exact absurd hdisc (by simp [disciplined])
      | abort_trans tid1 => exact absurd hdisc (by simp [disciplined])
      | about_to_modify tid1 b o z =>
        obtain ⟨htid, hdis, hrest⟩ : tid1 = tid ∧
            (∀ d ∈ decl, d.1 = b → z = 0 ∨ d.2.2 = 0 ∨ o + z ≤ d.2.1 ∨ d.2.1 + d.2.2 ≤ o) ∧
            disciplined tid ((b, o, z) :: decl) rest := hdisc
        subst htid
        simp only [step] at hst
        cases ho : rvm_about_to_modify tid1 b o z s with
        | fatal s3 => rw [ho] at hst; cases hst
        | undef => rw [ho] at hst; cases hst
        | ok v s3 =>
          rw [ho] at hst; simp only [Outcome.returned, Option.some.injEq] at hst; subst hst
          exact ih _ s3 s2 hs1 hty1 hrest h
            (snapshot_declare tid1 m0 decl s s3 hs b o z hsnap ho hdis)
      | write b o bytes =>
        obtain ⟨hin, hrest⟩ : (∀ i : Nat, i < bytes.length →
            ∃ d ∈ decl, d.1 = b ∧ d.2.1 ≤ o + i ∧ o + i < d.2.1 + d.2.2) ∧
            disciplined tid decl rest := hdisc
        simp only [step, caller_write] at hst
        cases hw : mem_write s b o bytes with
        | none => rw [hw] at hst; cases hst
        | some s3 =>
          rw [hw] at hst; simp only [Outcome.returned, Option.some.injEq] at hst; subst hst
          exact ih _ s3 s2 hs1 hty1 hrest h
            (snapshot_write tid m0 decl s s3 hs b o bytes hsnap hw hin)

theorem Region.base_some (s : State) (r : Region) (a : Int) (h : r.base s = some a) :
    ∃ sg, s.segs r._seg = some sg ∧ sg.segbase = a := by
  unfold Region.base at h
  cases hsg : s.segs r._seg with
  | none => rw [hsg] at h; cases h
  | some sg =>
    rw [hsg] at h
    exact ⟨sg, rfl, Option.some.inj h⟩

/-- In a state that keeps the discipline, `Transcation::abort` over the
regions of the transaction, in any order, gives back the buffers of the
beginning of the transaction. -/
theorem snapshot_abort (tid : Int) (m0 : Int → Option (List Byte))
    (decl : List (Int × Int × Int)) (s : State) (hs : Inv s) (t : Transcation)
    (ht : s.transs tid = some t) (hsnap : Snapshot tid m0 decl s) (rs : List Region)
    (hrs : ∀ r, r ∈ rs ↔ r ∈ t._regions) (s1 : State)
    (hab : abort_regions rs s = Outcome.ok () s1) : s1.mem = m0 := by
  obtain ⟨hnone, t1, ht1, -, -, hd, hc⟩ := hsnap
  rw [ht] at ht1
  have hteq := Option.some.inj ht1
  subst hteq
  funext a
  cases hm0 : m0 a with
  | none => exact abort_regions_none a rs s s1 hab (hnone a hm0)
  | some orig =>
    obtain ⟨buf, hbuf, hlen, heq⟩ := hc a orig hm0
    have hsize : ∀ r ∈ t._regions, r._size.toNat = r._undo_log.length := by
      intro r hr
      obtain ⟨-, -, h3, -⟩ := hs.trans.regions tid t r ht hr
      omega
    apply abort_regions_restore a orig rs s s1 buf hab hbuf hlen
    · intro r hr sg hsg hsgb j hj
      have hrt := (hrs r).mp hr
      apply hd r hrt a orig (by rw [Region.base_eq s r sg hsg, hsgb]) hm0 j
      show r._offset.toNat ≤ j ∧ j < r._offset.toNat + r._size.toNat
      rw [hsize r hrt]
      exact hj
    · intro j hj
      apply heq j
      intro r hr hrb hcov
      obtain ⟨sg, hsg, hsgb⟩ := Region.base_some s r a hrb
      apply hj r ((hrs r).mpr hr) sg hsg hsgb
      have hcov1 : r._offset.toNat ≤ j ∧ j < r._offset.toNat + r._size.toNat := hcov
      rw [hsize r hr] at hcov1
      exact hcov1

/-- C18. A transaction is begun; then the caller declares ranges, none of
which shares a byte with a range of the same buffer declared before, and
writes into buffers only bytes that lie in a range declared before.  Then
`rvm_abort_trans`, which restores the before-images in declaration order,
returns; restoring them in reverse declaration order returns too and gives
the same buffers; and these are the buffers of the time the transaction
began. -/
theorem abort_order_irrelevant (s0 : State) (hs : Reachable s0) (rvm numsegs : Int)
    (segbases : List Int) (hn : isInt numsegs ∧ numsegs ≤ segbases.length) (tid : Int)
    (s1 : State) (hbegin : rvm_begin_trans rvm numsegs segbases s0 = Outcome.ok tid s1)
    (hne : tid ≠ -1) (ops : List Op) (hty : ∀ op ∈ ops, op.wellTyped)
    (hdisc : disciplined tid [] ops) (s2 : State) (hrun : run ops s1 = some s2) :
    ∃ t s3 sr, s2.transs tid = some t ∧ rvm_abort_trans tid s2 = Outcome.ok () s3 ∧
      abort_regions t._regions.reverse s2 = Outcome.ok () sr ∧
      s3.mem = sr.mem ∧ s3.mem = s0.mem := by
  have hs1 : Reachable s1 := Reachable.step s0 (Op.begin_trans rvm numsegs segbases) s1 hs hn
    (step_begin_of_ok hbegin)
  have hsnap1 : Snapshot tid s0.mem [] s1 := by
    rcases rvm_begin_trans_ok rvm numsegs segbases s0 tid s1 hs.inv hbegin with ⟨hv, -⟩ |
      ⟨R, segs1, m, -, -, hv, -, -, hs1eq⟩
    · exact absurd hv hne
    · have hmem : s1.mem = s0.mem := by rw [hs1eq]
      have htr : s1.transs tid = some { _regions := [], _segs := m } := by
        rw [hs1eq, hv]; exact upd_same _ _ _
      refine ⟨fun a ha => by rw [hmem]; exact ha, _, htr, ?_, ?_, ?_, ?_⟩
      · intro r hr; cases hr
      · intro d hd; cases hd
      · intro r hr; cases hr
      · intro a orig ha
        exact ⟨orig, by rw [hmem]; exact ha, rfl, fun _ _ => rfl⟩
  have hs2 : Reachable s2 := reachable_run hs1 ops s2 hty hrun
  obtain ⟨decl2, hsnap2⟩ := run_disciplined tid s0.mem ops [] s1 s2 hs1.inv hty hdisc hrun
    hsnap1
  obtain ⟨t, ht⟩ : ∃ t, s2.transs tid = some t := by
    obtain ⟨-, t, ht, -⟩ := hsnap2
    exact ⟨t, ht⟩
  obtain ⟨s3, habort⟩ := rvm_abort_trans_some tid t s2 hs2.inv ht
  obtain ⟨t1, sa, ht1, hab, hfin⟩ := rvm_abort_trans_ok tid s2 s3 habort
  rw [ht] at ht1
  have hteq := Option.some.inj ht1
  subst hteq
  have hmem3 : s3.mem = sa.mem := finish_trans_mem tid t sa s3 hfin
  obtain ⟨sr, hrev⟩ := abort_regions_some tid t t._regions.reverse s2 hs2.inv ht
    (fun r hr => List.mem_reverse.mp hr)
  have h3 : s3.mem = s0.mem := by
    rw [hmem3]
    exact snapshot_abort tid s0.mem decl2 s2 hs2.inv t ht hsnap2 t._regions
      (fun _ => Iff.rfl) sa hab
  have hr : sr.mem = s0.mem :=
    snapshot_abort tid s0.mem decl2 s2 hs2.inv t ht hsnap2 t._regions.reverse
      (fun _ => List.mem_reverse) sr hrev
  exact ⟨t, s3, sr, ht, habort, hrev, by rw [h3, hr], h3⟩

/-- Witness of C18: from `ex_mapped`, begin, declare `(0, 8)`, write
`12345678` there, declare `(8, 4)`, write `1234` there, and abort. -/
theorem abort_order_irrelevant_witness :
    ∃ s3, rvm_abort_trans 1 (exec [Op.about_to_modify 1 1 0 8, Op.write 1 0 digits,
        Op.about_to_modify 1 1 8 4, Op.write 1 8 [49, 50, 51, 52]] ex_begun) =
        Outcome.ok () s3 ∧ s3.mem = ex_mapped.mem := by
  obtain ⟨t, s3, sr, -, h1, -, -, h2⟩ :=
    abort_order_irrelevant ex_mapped ex_mapped_reachable 1 1 [1] ⟨by decide, by decide⟩ 1
      ex_begun rfl (by decide)
      [Op.about_to_modify 1 1 0 8, Op.write 1 0 digits, Op.about_to_modify 1 1 8 4,
        Op.write 1 8 [49, 50, 51, 52]]
      (by intro op hop
          simp only [List.mem_cons, List.mem_singleton, List.not_mem_nil, or_false] at hop
          rcases hop with rfl | rfl | rfl | rfl
          · exact ⟨by decide, by decide⟩
          · trivial
          · exact ⟨by decide, by decide⟩
          · trivial)
      (by
        refine ⟨rfl, ?_, ?_, rfl, ?_, ?_, trivial⟩
        · intro d hd; cases hd
        · intro i hi
          refine ⟨(1, 0, 8), List.mem_cons_self _ _, rfl, ?_, ?_⟩
          · show (0 : Int) ≤ 0 + i
            omega
          · have : i < 8 := hi
            show (0 : Int) + i < 0 + 8
            omega
        · intro d hd hd1
          simp only [List.mem_singleton] at hd
          subst hd
          right; right; right
          decide
        · intro i hi
          refine ⟨(1, 8, 4), List.mem_cons_self _ _, rfl, ?_, ?_⟩
          · show (8 : Int) ≤ 8 + i
            omega
          · have : i < 4 := hi
            show (8 : Int) + i < 8 + 4
            omega)
      _ rfl
  exact ⟨s3, h1, h2⟩

/-! ## C20: what a commit leaves alone -/

end Rvm
